import Mathlib

/-! Lamport one-time signatures (pset01): shallow embedding and verification.

The Go sources `pset01/main.go` and `pset01/forge.go` are embedded as pure Lean
functions.  Fixed-size Go arrays `[n]T` are functions `Fin n → T` (value
semantics, extensional equality), Go strings and byte slices are `List Byte`,
`for` loops are structural recursions over the list of loop indices, and the
SHA-256 primitive of `crypto/sha256` is a parameter `Sum256 : List Byte → Block`.
-/

namespace Pset01

/-! ## Data model (`main.go`, lines 73-88, 135-136, 166-170) -/

/-- A Go `byte`: an unsigned 8-bit integer. -/
abbrev Byte := Fin 256

/-- Go `type Block [32]byte`. -/
abbrev Block := Fin 32 → Byte

/-- Go `type Message Block`. -/
abbrev Message := Block

/-- Go `type SecretKey struct { ZeroPre [256]Block; OnePre [256]Block }`. -/
@[ext] structure SecretKey where
  ZeroPre : Fin 256 → Block
  OnePre : Fin 256 → Block

/-- Go `type PublicKey struct { ZeroHash [256]Block; OneHash [256]Block }`. -/
@[ext] structure PublicKey where
  ZeroHash : Fin 256 → Block
  OneHash : Fin 256 → Block

/-- Go `type Signature struct { Preimage [256]Block }`. -/
@[ext] structure Signature where
  Preimage : Fin 256 → Block

/-- The zero value of `Block` (`var bl Block`): thirty-two `00` bytes. -/
def Block.zero : Block := fun _ => 0

/-- The zero value of `SecretKey` (`var sec SecretKey`). -/
def SecretKey.zero : SecretKey := ⟨fun _ => Block.zero, fun _ => Block.zero⟩

/-- The zero value of `PublicKey` (`var p PublicKey`). -/
def PublicKey.zero : PublicKey := ⟨fun _ => Block.zero, fun _ => Block.zero⟩

/-- The zero value of `Signature` (`var sig Signature`). -/
def Signature.zero : Signature := ⟨fun _ => Block.zero⟩

/-- The slice expression `self[:]` of a block: its 32 bytes in order. -/
def Block.slice (self : Block) : List Byte := List.ofFn self

/-- The assignment `sig.Preimage[k] = b`. -/
def Signature.setPreimage (sig : Signature) (k : Fin 256) (b : Block) : Signature :=
  ⟨Function.update sig.Preimage k b⟩

/-- The conversion `byte(n)` of a non-negative `int`: the low eight bits. -/
def toByte (n : Nat) : Byte := ⟨n % 256, Nat.mod_lt _ (by decide)⟩

/-- The array index `8*i+j` for loop counters `i < 32` and `j < 8`; it is always
within `[0, 256)`, so the indexing never panics. -/
def bitIndex (i : Fin 32) (j : Fin 8) : Fin 256 := ⟨8 * i.val + j.val, by omega⟩

/-! ## Hash primitive (`main.go`, lines 145-155, 209-212) -/

section Hashing

variable (Sum256 : List Byte → Block)

/-- Go `func (self Block) Hash() Block { return sha256.Sum256(self[:]) }`. -/
def Block.Hash (self : Block) : Block := Sum256 self.slice

/-- Go `func (self Block) IsPreimage(arg Block) bool`. -/
def Block.IsPreimage (self arg : Block) : Bool := decide (Block.Hash Sum256 self = arg)

/-- Go `func GetMessageFromString(s string) Message`: the digest of the bytes of `s`. -/
def GetMessageFromString (s : List Byte) : Message := Sum256 s

/-- Go `bytes.Equal(a, b)`: same length and same bytes. -/
def bytesEqual (a b : List Byte) : Bool := decide (a = b)

/-! ## Sign and Verify (`main.go`, lines 259-321) -/

/-- The inner loop `for j := 0; j < 8; j++` of `Sign` for message byte `i`: the
remaining counters `j`, the current `Mask` and the signature built so far. -/
def Sign.bits (msg : Message) (sec : SecretKey) (i : Fin 32) :
    List (Fin 8) → Nat → Signature → Signature
  | [], _, sig => sig
  | j :: js, Mask, sig =>
    if msg i &&& toByte Mask = toByte Mask then
      Sign.bits msg sec i js (Mask >>> 1)
        (sig.setPreimage (bitIndex i j) (sec.OnePre (bitIndex i j)))
    else
      Sign.bits msg sec i js (Mask >>> 1)
        (sig.setPreimage (bitIndex i j) (sec.ZeroPre (bitIndex i j)))

/-- The outer loop `for i := 0; i < 32; i++` of `Sign`; `Mask := 0x80` at the
start of every byte. -/
def Sign.bytes (msg : Message) (sec : SecretKey) : List (Fin 32) → Signature → Signature
  | [], sig => sig
  | i :: is, sig => Sign.bytes msg sec is (Sign.bits msg sec i (List.finRange 8) 0x80 sig)

/-- Go `func Sign(msg Message, sec SecretKey) Signature`. -/
def Sign (msg : Message) (sec : SecretKey) : Signature :=
  Sign.bytes msg sec (List.finRange 32) Signature.zero

/-- The inner loop (label `ThisByte`) of `Verify` for message byte `i`.  The
result `none` is the statement `return false`; `some Mask` is normal completion
of the loop with the final value of `Mask`. -/
def Verify.bits (msg : Message) (pub : PublicKey) (sig : Signature) (i : Fin 32) :
    List (Fin 8) → Nat → Option Nat
  | [], Mask => some Mask
  | j :: js, Mask =>
    let original32bytesNumber := sig.Preimage (bitIndex i j)
    let original32bytesHash := Sum256 original32bytesNumber.slice
    if msg i &&& toByte Mask = toByte Mask then
      if bytesEqual original32bytesHash.slice (pub.OneHash (bitIndex i j)).slice then
        Verify.bits msg pub sig i js (Mask >>> 1)
      else
        none
    else
      if bytesEqual original32bytesHash.slice (pub.ZeroHash (bitIndex i j)).slice then
        Verify.bits msg pub sig i js (Mask >>> 1)
      else
        none

/-- The outer loop `for i := 0; i < 32; i++` of `Verify`, ending in `return true`. -/
def Verify.bytes (msg : Message) (pub : PublicKey) (sig : Signature) : List (Fin 32) → Bool
  | [] => true
  | i :: is =>
    match Verify.bits Sum256 msg pub sig i (List.finRange 8) 0x80 with
    | none => false
    | some _ => Verify.bytes msg pub sig is

/-- Go `func Verify(msg Message, pub PublicKey, sig Signature) bool`. -/
def Verify (msg : Message) (pub : PublicKey) (sig : Signature) : Bool :=
  Verify.bytes Sum256 msg pub sig (List.finRange 32)

end Hashing

/-! ## Errors and panics -/

/-- The Go `error` values that the embedded functions can return. -/
inductive GoError
  /-- `fmt.Errorf("Pubkey string %d characters, expect %d", len(s), expectedLength)`. -/
  | badLength (got expect : Nat)
  /-- `hex.InvalidByteError(c)`. -/
  | invalidByte (c : Byte)
  /-- `hex.ErrLength` (odd-length hex string). -/
  | errLength
  /-- An error reported by `rand.Read`, identified by a code. -/
  | randFailure (code : Nat)
  /-- The `fmt.Errorf("In round %d, cpy from slice to array not completed ...")`
  of `GenerateKey`. -/
  | copyIncomplete (round zeroCopied oneCopied : Nat)
  deriving DecidableEq

/-- The values passed to `panic` in `Forge`. -/
inductive GoPanic
  /-- `panic(err)` after a failed `HexToPubkey` / `HexToSignature`. -/
  | decode (err : GoError)
  /-- The panic "sigN image[idx] hash ... does not match One or Zero!". -/
  | noMatch (sigNo : Nat) (idx : Nat) (hashHex : List Byte)
  /-- The panic "idx[k], both zero pre image and one pre image are not revealed." -/
  | notRevealed (k : Nat)
  /-- The panic "Task Id: %d, idx: [%d], bit not 0 or 1". -/
  | bitNotZeroOrOne (TaskId : Nat) (x : Nat)
  deriving DecidableEq

/-! ## Hex encoding (`main.go`, lines 89-207) -/

/-- The lowercase digit table `"0123456789abcdef"` used by `fmt` for the verb
`%x`: the ASCII character of a nibble. -/
def hexDigit (n : Nat) : Byte := if n < 10 then toByte (48 + n) else toByte (87 + n)

/-- The two characters `digits[c>>4], digits[c&0xF]` that `%x` writes for a byte. -/
def hexByte (c : Byte) : List Byte := [hexDigit (c.val >>> 4), hexDigit (c.val &&& 0xF)]

/-- The hex encoding of a byte slice: two lowercase characters per byte. -/
def hexEncode (b : List Byte) : List Byte := b.flatMap hexByte

/-- The call `fmt.Sprintf("%064x", b)` on a byte slice: the hex encoding, padded
on the left with `'0'` up to width 64. -/
def sprintf064x (b : List Byte) : List Byte :=
  List.replicate (64 - (hexEncode b).length) (toByte 48) ++ hexEncode b

/-- Go `func (self Block) ToHex() string`. -/
def Block.ToHex (self : Block) : List Byte := sprintf064x self.slice

/-- Go `func (self PublicKey) ToHex() string`: the two `range` loops appending
to `s`. -/
def PublicKey.ToHex (self : PublicKey) : List Byte :=
  let s : List Byte := []
  let s := (List.ofFn self.ZeroHash).foldl (fun s zero => s ++ Block.ToHex zero) s
  let s := (List.ofFn self.OneHash).foldl (fun s one => s ++ Block.ToHex one) s
  s

/-- Go `func (self Signature) ToHex() string`. -/
def Signature.ToHex (self : Signature) : List Byte :=
  let s : List Byte := []
  let s := (List.ofFn self.Preimage).foldl (fun s b => s ++ Block.ToHex b) s
  s

/-- The table `reverseHexTable` of `encoding/hex`: the value of a hex digit
(either case), `0xff` for every other byte. -/
def reverseHexTable (c : Byte) : Byte :=
  if 48 ≤ c.val ∧ c.val ≤ 57 then toByte (c.val - 48)
  else if 97 ≤ c.val ∧ c.val ≤ 102 then toByte (c.val - 97 + 10)
  else if 65 ≤ c.val ∧ c.val ≤ 70 then toByte (c.val - 65 + 10)
  else 0xff

/-- The call `hex.DecodeString(s)`: the decoded bytes so far and the error.  Two
characters are consumed per step; the first invalid character is reported, and
a lone trailing character gives `ErrLength`. -/
def hexDecodeString : List Byte → List Byte × Option GoError
  | [] => ([], none)
  | [p] =>
    if reverseHexTable p > 0x0f then ([], some (GoError.invalidByte p))
    else ([], some GoError.errLength)
  | p :: q :: rest =>
    let a := reverseHexTable p
    let b := reverseHexTable q
    if a > 0x0f then ([], some (GoError.invalidByte p))
    else if b > 0x0f then ([], some (GoError.invalidByte q))
    else
      let r := hexDecodeString rest
      (((a <<< 4) ||| b) :: r.1, r.2)

/-- The built-in `copy(dst[:], src)` into a block: the block after the copy and
the number of bytes copied, `min(32, len(src))`. -/
def copyToBlock (dst : Block) (src : List Byte) : Block × Nat :=
  (fun k => if h : k.val < src.length then src.get ⟨k.val, h⟩ else dst k, min 32 src.length)

/-- Go `func BlockFromByteSlice(by []byte) Block`. -/
def BlockFromByteSlice (by_ : List Byte) : Block :=
  let bl := Block.zero
  (copyToBlock bl by_).1

/-- The call `buf.Next(n)` of `bytes.Buffer` on the unread bytes `buf`: the next
`n` bytes (fewer if the buffer is shorter) and the bytes left unread. -/
def bufferNext (n : Nat) (buf : List Byte) : List Byte × List Byte := (buf.take n, buf.drop n)

/-- A loop `for i, _ := range arr { arr[i] = BlockFromByteSlice(buf.Next(32)) }`
over a `[256]Block` array, with the buffer as state. -/
def readBlocks : List (Fin 256) → (Fin 256 → Block) → List Byte → (Fin 256 → Block) × List Byte
  | [], arr, buf => (arr, buf)
  | i :: is, arr, buf =>
    let nx := bufferNext 32 buf
    readBlocks is (Function.update arr i (BlockFromByteSlice nx.1)) nx.2

/-- Go `func HexToPubkey(s string) (PublicKey, error)`. -/
def HexToPubkey (s : List Byte) : PublicKey × Option GoError :=
  let p := PublicKey.zero
  let expectedLength := 256 * 2 * 64
  if s.length ≠ expectedLength then
    (p, some (GoError.badLength s.length expectedLength))
  else
    let dec := hexDecodeString s
    let bts := dec.1
    let err := dec.2
    match err with
    | some e => (p, some e)
    | none =>
      let buf := bts
      let zeros := readBlocks (List.finRange 256) p.ZeroHash buf
      let p := { p with ZeroHash := zeros.1 }
      let buf := zeros.2
      let ones := readBlocks (List.finRange 256) p.OneHash buf
      let p := { p with OneHash := ones.1 }
      (p, none)

/-- Go `func HexToSignature(s string) (Signature, error)`. -/
def HexToSignature (s : List Byte) : Signature × Option GoError :=
  let sig := Signature.zero
  let expectedLength := 256 * 64
  if s.length ≠ expectedLength then
    (sig, some (GoError.badLength s.length expectedLength))
  else
    let dec := hexDecodeString s
    let bts := dec.1
    let err := dec.2
    match err with
    | some e => (sig, some e)
    | none =>
      let buf := bts
      let blocks := readBlocks (List.finRange 256) sig.Preimage buf
      ({ sig with Preimage := blocks.1 }, none)

/-- The bit-extraction contract `(arr[i/8] >> (7 - i%8)) & 0x01` of `forge.go`
(lines 37-42), as a number that is `0` or `1`. -/
def bitAt (arr : Block) (i : Fin 256) : Nat :=
  ((arr ⟨i.val / 8, by omega⟩).val >>> (7 - i.val % 8)) &&& 0x01

/-! ## Key generation (`main.go`, lines 216-257) -/

/-- The outcome of one call `rand.Read(b)` on a 32-byte buffer: the contents of
the buffer after the call and the returned error. -/
structure Draw where
  data : Block
  err : Option GoError

/-- The body of `for i := 0; i < 256; i++` in `GenerateKey`.  The random source
`rnd` gives the outcome of the `n`-th call of `rand.Read` (counted from 0), and
`calls` is the number of calls made so far.  Both reads of a round are made
before either error is inspected; the buffers `zeroBlock` and `oneBlock` are
overwritten by the two reads of every round before they are used. -/
def GenerateKey.rounds (Sum256 : List Byte → Block) (rnd : Nat → Draw) :
    List (Fin 256) → Nat → SecretKey → PublicKey → SecretKey × PublicKey × Option GoError
  | [], _, sec, pub => (sec, pub, none)
  | i :: is, calls, sec, pub =>
    let zeroBlock := (rnd calls).data
    let err := (rnd calls).err
    let oneBlock := (rnd (calls + 1)).data
    let err1 := (rnd (calls + 1)).err
    match err with
    | some e => (sec, pub, some e)
    | none =>
      match err1 with
      | some e1 => (sec, pub, some e1)
      | none =>
        let cz := copyToBlock (sec.ZeroPre i) zeroBlock.slice
        let sec := { sec with ZeroPre := Function.update sec.ZeroPre i cz.1 }
        let zeroBlockcopied := cz.2
        let co := copyToBlock (sec.OnePre i) oneBlock.slice
        let sec := { sec with OnePre := Function.update sec.OnePre i co.1 }
        let oneBlockcopied := co.2
        if zeroBlockcopied ≠ 32 ∨ oneBlockcopied ≠ 32 then
          (sec, pub, some (GoError.copyIncomplete i.val zeroBlockcopied oneBlockcopied))
        else
          let pub := { pub with ZeroHash := Function.update pub.ZeroHash i (Sum256 zeroBlock.slice) }
          let pub := { pub with OneHash := Function.update pub.OneHash i (Sum256 oneBlock.slice) }
          GenerateKey.rounds Sum256 rnd is (calls + 2) sec pub

/-- Go `func GenerateKey() (SecretKey, PublicKey, error)`, over a random source. -/
def GenerateKey (Sum256 : List Byte → Block) (rnd : Nat → Draw) :
    SecretKey × PublicKey × Option GoError :=
  let sec := SecretKey.zero
  let pub := PublicKey.zero
  GenerateKey.rounds Sum256 rnd (List.finRange 256) 0 sec pub

/-! ## Forgery (`forge.go`, lines 86-283) -/

/-- A Go `map[int]bool`: the value stored under a key, if any. -/
abbrev GoMap := Nat → Option Bool

/-- The result of `make(map[int]bool, 256)`: no key present. -/
def GoMap.empty : GoMap := fun _ => none

/-- The assignment `m[k] = v`. -/
def GoMap.set (m : GoMap) (k : Nat) (v : Bool) : GoMap := Function.update m k (some v)

/-- The presence flag `ok` of the lookup `_, ok := m[k]`. -/
def GoMap.has (m : GoMap) (k : Nat) : Bool := (m k).isSome

/-- The variables of `Forge` written by the harvest loops: `privateKey`,
`zeroPreIsRevealed` and `OnePreIsRevealed`. -/
structure Harvest where
  privateKey : SecretKey
  zeroPreIsRevealed : GoMap
  OnePreIsRevealed : GoMap

/-- The state before the first harvest loop: `var privateKey SecretKey` and two
empty maps. -/
def Harvest.init : Harvest := ⟨SecretKey.zero, GoMap.empty, GoMap.empty⟩

/-- One harvest loop `for idx, block := range sig.Preimage` of `Forge` (lines
135-149, repeated for `sig2`, `sig3`, `sig4`); `sigNo` is the number in the
panic message. -/
def Forge.harvestSig (Sum256 : List Byte → Block) (pub : PublicKey) (sigNo : Nat)
    (sig : Signature) : List (Fin 256) → Harvest → Except GoPanic Harvest
  | [], h => Except.ok h
  | idx :: rest, h =>
    let block := sig.Preimage idx
    if Block.Hash Sum256 block = pub.ZeroHash idx then
      Forge.harvestSig Sum256 pub sigNo sig rest
        { h with
          privateKey := { h.privateKey with
            ZeroPre := Function.update h.privateKey.ZeroPre idx block }
          zeroPreIsRevealed := h.zeroPreIsRevealed.set idx.val true }
    else
      if Block.Hash Sum256 block = pub.OneHash idx then
        Forge.harvestSig Sum256 pub sigNo sig rest
          { h with
            privateKey := { h.privateKey with
              OnePre := Function.update h.privateKey.OnePre idx block }
            OnePreIsRevealed := h.OnePreIsRevealed.set idx.val true }
      else
        Except.error (GoPanic.noMatch sigNo idx.val (Block.ToHex (Block.Hash Sum256 block)))

/-- The harvest loops of `Forge` run one after the other over the signatures
`sigs`, numbered from `sigNo`, each loop visiting the positions `idxs`; a panic
in one loop ends the function. -/
def Forge.harvestOver (Sum256 : List Byte → Block) (pub : PublicKey) (idxs : List (Fin 256)) :
    Nat → List Signature → Harvest → Except GoPanic Harvest
  | _, [], h => Except.ok h
  | sigNo, sig :: sigs, h =>
    match Forge.harvestSig Sum256 pub sigNo sig idxs h with
    | Except.error e => Except.error e
    | Except.ok h1 => Forge.harvestOver Sum256 pub idxs (sigNo + 1) sigs h1

/-- The harvest loops of `Forge` over the signatures `sigs`, each a loop
`for idx, block := range sig.Preimage` over the positions `0 .. 255`. -/
def Forge.harvest (Sum256 : List Byte → Block) (pub : PublicKey) (sigNo : Nat)
    (sigs : List Signature) (h : Harvest) : Except GoPanic Harvest :=
  Forge.harvestOver Sum256 pub (List.finRange 256) sigNo sigs h

/-- The coverage loop `for k := 0; k < 256; k++` of `Forge` (lines 202-209). -/
def Forge.coverage (zeroPreIsRevealed OnePreIsRevealed : GoMap) :
    List (Fin 256) → Except GoPanic Unit
  | [] => Except.ok ()
  | k :: ks =>
    let ok1 := zeroPreIsRevealed.has k.val
    let ok2 := OnePreIsRevealed.has k.val
    if !(ok1 || ok2) then Except.error (GoPanic.notRevealed k.val)
    else Forge.coverage zeroPreIsRevealed OnePreIsRevealed ks

/-- The sequential part of `Forge` between decoding and the search (lines
130-209), for the decoded public key and the decoded signatures `sig1 .. sig4`:
the four harvest loops and the coverage check. -/
def Forge.prepare (Sum256 : List Byte → Block) (pub : PublicKey)
    (sig1 sig2 sig3 sig4 : Signature) : Except GoPanic Harvest :=
  match Forge.harvest Sum256 pub 1 [sig1, sig2, sig3, sig4] Harvest.init with
  | Except.error e => Except.error e
  | Except.ok h =>
    match Forge.coverage h.zeroPreIsRevealed h.OnePreIsRevealed (List.finRange 256) with
    | Except.error e => Except.error e
    | Except.ok _ => Except.ok h

/-- The candidate `append(append(buf1, msgBuf...), buf2...)` of a search worker. -/
def Forge.candidate (buf1 msgBuf buf2 : List Byte) : List Byte := (buf1 ++ msgBuf) ++ buf2

/-- The loop `UseImageByCheckingBit` of a search worker on the digest `msgBlock`
of its candidate (lines 232-259).  `Except.ok true`: the loop ran to the end and
the candidate is published; `Except.ok false`: `continue TryNextMessage`;
`Except.error`: the panic "bit not 0 or 1". -/
def Forge.checkBits (zeroPreIsRevealed OnePreIsRevealed : GoMap) (TaskId : Nat)
    (msgBlock : Block) : List (Fin 256) → Except GoPanic Bool
  | [] => Except.ok true
  | x :: xs =>
    if bitAt msgBlock x = 0x01 then
      if OnePreIsRevealed.has x.val then
        Forge.checkBits zeroPreIsRevealed OnePreIsRevealed TaskId msgBlock xs
      else Except.ok false
    else
      if bitAt msgBlock x ≠ 0x00 then Except.error (GoPanic.bitNotZeroOrOne TaskId x.val)
      else
        if zeroPreIsRevealed.has x.val then
          Forge.checkBits zeroPreIsRevealed OnePreIsRevealed TaskId msgBlock xs
        else Except.ok false

/-- One iteration of `TryNextMessage` in worker `TaskId` on the candidate
`messageProcessing`: digest it and run the bit loop. -/
def Forge.tryMessage (Sum256 : List Byte → Block) (h : Harvest) (TaskId : Nat)
    (messageProcessing : List Byte) : Except GoPanic Bool :=
  let msgBlock := Sum256 messageProcessing
  Forge.checkBits h.zeroPreIsRevealed h.OnePreIsRevealed TaskId msgBlock (List.finRange 256)

/-- The assembly loop `for x := 0; x < 256; x++` of `Forge` (lines 270-280). -/
def Forge.assembleBits (privateKey : SecretKey) (msgBlock : Block) :
    List (Fin 256) → Signature → Signature
  | [], sig => sig
  | x :: xs, sig =>
    if bitAt msgBlock x = 0x01 then
      Forge.assembleBits privateKey msgBlock xs (sig.setPreimage x (privateKey.OnePre x))
    else
      Forge.assembleBits privateKey msgBlock xs (sig.setPreimage x (privateKey.ZeroPre x))

/-- The end of `Forge` (lines 268-281) for the message `msg` received from the
channel `complete`: the returned message and signature. -/
def Forge.assemble (Sum256 : List Byte → Block) (h : Harvest) (msg : List Byte) :
    List Byte × Signature :=
  let sig := Signature.zero
  let msgBlock := GetMessageFromString Sum256 msg
  (msg, Forge.assembleBits h.privateKey msgBlock (List.finRange 256) sig)

/-! ## Sample inputs

Concrete values at which the theorems below are instantiated. -/

/-- A stand-in hash used at concrete inputs: the first 32 bytes of the input
(missing ones read as zero), each incremented by one modulo 256. -/
def toyHash (l : List Byte) : Block := fun k => l.getD k.val 0 + 1

/-- A sample secret key: block `i` of row 0 is filled with the byte `i`, block
`i` of row 1 with the byte `i + 1` (modulo 256). -/
def sampleSec : SecretKey := ⟨fun i _ => toByte i.val, fun i _ => toByte (i.val + 1)⟩

/-- The commitments of `sampleSec` under `toyHash`. -/
def samplePub : PublicKey :=
  ⟨fun i => Block.Hash toyHash (sampleSec.ZeroPre i), fun i => Block.Hash toyHash (sampleSec.OnePre i)⟩

/-- A sample 32-byte message. -/
def sampleMsg : Message := fun k => toByte (37 * k.val + 5)

/-- The block `b` with bit `n` flipped (bit 0 is the most significant bit of
byte 0). -/
def Block.flipBit (b : Block) (n : Fin 256) : Block :=
  Function.update b ⟨n.val / 8, by omega⟩
    (b ⟨n.val / 8, by omega⟩ ^^^ toByte (0x80 >>> (n.val % 8)))

/-- A random source that never fails: call `n` fills the buffer with the byte
`n` (modulo 256). -/
def steadyRand : Nat → Draw := fun n => ⟨fun _ => toByte n, none⟩

/-- A random source whose first two calls succeed, filling the buffer with `01`
bytes, and whose later calls fail. -/
def failingRand : Nat → Draw := fun n =>
  if n < 2 then ⟨fun _ => 1, none⟩ else ⟨Block.zero, some (GoError.randFailure 1)⟩

/-- The harvest invariant: at every position, a side marked as revealed holds a
block whose hash is the public commitment of that side. -/
def Harvest.Sound (Sum256 : List Byte → Block) (pub : PublicKey) (h : Harvest) : Prop :=
  ∀ i : Fin 256,
    (h.zeroPreIsRevealed.has i.val = true →
      Block.Hash Sum256 (h.privateKey.ZeroPre i) = pub.ZeroHash i) ∧
    (h.OnePreIsRevealed.has i.val = true →
      Block.Hash Sum256 (h.privateKey.OnePre i) = pub.OneHash i)

/-- A sample candidate message: its `toyHash` digest is `sampleMsg`. -/
def sampleForged : List Byte := (List.ofFn sampleMsg).map (fun b => b - 1)

/-! ## Forgery: payload, search worker and whole function (`forge.go`, lines 128-129, 211-283) -/

/-- The payload `msgString := "zhejyan@microsoft.com's forge"` of `Forge`, as the
bytes `msgBuf := []byte(msgString)` (29 ASCII characters). -/
def Forge.msgBuf : List Byte :=
  [122, 104, 101, 106, 121, 97, 110, 64, 109, 105, 99, 114, 111, 115, 111, 102, 116, 46,
    99, 111, 109, 39, 115, 32, 102, 111, 114, 103, 101]

/-- The loop `TryNextMessage` of a search worker, up to its first send on the
channel `complete`, with the acceptance check of a candidate (digest and bit
loop) given as `check`.  `draws n` gives the contents of the buffers `buf1`
(27 bytes) and `buf2` (29 bytes) after the two calls of `rand.Read` in iteration
`n` (an error of `rand.Read` is only printed).  The first argument bounds the
number of iterations: `Except.ok none` means that no candidate was published
within the bound, `Except.ok (some m)` that `m` was sent on `complete`. -/
def Forge.workerLoop (check : List Byte → Except GoPanic Bool)
    (draws : Nat → (Fin 27 → Byte) × (Fin 29 → Byte)) :
    Nat → Nat → Except GoPanic (Option (List Byte))
  | 0, _ => Except.ok none
  | fuel + 1, n =>
    let buf1 := List.ofFn (draws n).1
    let buf2 := List.ofFn (draws n).2
    let messageProcessing := Forge.candidate buf1 Forge.msgBuf buf2
    match check messageProcessing with
    | Except.error e => Except.error e
    | Except.ok true => Except.ok (some messageProcessing)
    | Except.ok false => Forge.workerLoop check draws fuel (n + 1)

/-- The search worker `TaskId` of `Forge` (lines 218-264): the loop
`TryNextMessage` with the check of `Forge.tryMessage` on the harvested state. -/
def Forge.worker (Sum256 : List Byte → Block) (h : Harvest) (TaskId : Nat)
    (draws : Nat → (Fin 27 → Byte) × (Fin 29 → Byte)) (fuel n : Nat) :
    Except GoPanic (Option (List Byte)) :=
  Forge.workerLoop (Forge.tryMessage Sum256 h TaskId) draws fuel n

/-- The harvest loops followed by the coverage check, for any number of decoded
signatures (`Forge.prepare` is the case of the four signatures of the source). -/
def Forge.prepareAll (Sum256 : List Byte → Block) (pub : PublicKey)
    (sigs : List Signature) : Except GoPanic Harvest :=
  match Forge.harvest Sum256 pub 1 sigs Harvest.init with
  | Except.error e => Except.error e
  | Except.ok h =>
    match Forge.coverage h.zeroPreIsRevealed h.OnePreIsRevealed (List.finRange 256) with
    | Except.error e => Except.error e
    | Except.ok _ => Except.ok h

/-- The body of `Forge` after the decoding of its inputs (lines 110-283), for a
decoded public key and any number of decoded signatures; `winner` is the message
received by `msg := <-complete` if the search is reached.  A panic ends the
function before the search workers are started. -/
def Forge.run (Sum256 : List Byte → Block) (pub : PublicKey) (sigs : List Signature)
    (winner : List Byte) : Except GoPanic (List Byte × Signature × Option GoError) :=
  match Forge.prepareAll Sum256 pub sigs with
  | Except.error e => Except.error e
  | Except.ok h =>
    let msg := winner
    let r := Forge.assemble Sum256 h msg
    Except.ok (r.1, r.2, none)

/-- The body of `Forge` after the decoding of its inputs, for the four decoded
signatures `sig1 .. sig4` of the source. -/
def Forge.fromDecoded (Sum256 : List Byte → Block) (pub : PublicKey)
    (sig1 sig2 sig3 sig4 : Signature) (winner : List Byte) :
    Except GoPanic (List Byte × Signature × Option GoError) :=
  Forge.run Sum256 pub [sig1, sig2, sig3, sig4] winner

/-- A harvested state in which both sides of every position are marked as
revealed, with the blocks of `sampleSec`. -/
def fullHarvest : Harvest := ⟨sampleSec, fun _ => some true, fun _ => some true⟩

/-- Buffer contents for the search worker: all bytes zero in every iteration. -/
def zeroDraws : Nat → (Fin 27 → Byte) × (Fin 29 → Byte) := fun _ => (fun _ => 0, fun _ => 0)

/-- A public key whose two commitments are the same at every position: both are
the `toyHash` of the all-zero block. -/
def twinPub : PublicKey :=
  ⟨fun _ => Block.Hash toyHash Block.zero, fun _ => Block.Hash toyHash Block.zero⟩

/-- The part of `Forge` from the coverage check on (lines 202-283), for the
variables `h` left by the harvest loops: the coverage loop, then the search,
whose message received by `msg := <-complete` is `winner`, and the assembly.  A
panic of the coverage loop ends the function before the search workers are
started. -/
def Forge.afterHarvest (Sum256 : List Byte → Block) (h : Harvest) (winner : List Byte) :
    Except GoPanic (List Byte × Signature × Option GoError) :=
  match Forge.coverage h.zeroPreIsRevealed h.OnePreIsRevealed (List.finRange 256) with
  | Except.error e => Except.error e
  | Except.ok _ =>
    let msg := winner
    let r := Forge.assemble Sum256 h msg
    Except.ok (r.1, r.2, none)

/-- A harvested state in which both sides of every position are marked as
revealed, except at position 7, where neither side is. -/
def holedHarvest : Harvest :=
  ⟨sampleSec, fun k => if k = 7 then none else some true,
    fun k => if k = 7 then none else some true⟩

/-- The bit-extraction contract of the specification in arithmetic form: bit `i`
of a 32-byte value is the binary digit of weight `2 ^ (7 - i % 8)` of byte
`i / 8`, so that `i = 0` is the most significant bit of the first byte. -/
def contractBit (v : Block) (i : Fin 256) : Nat :=
  (v ⟨i.val / 8, by omega⟩).val / 2 ^ (7 - i.val % 8) % 2

end Pset01

/-! Name-chain blocks and mining (pset02): shallow embedding.

The Go sources `pset02/main.go` and `pset02/miner.go` are embedded with the same
conventions as pset01; bytes, hex encoding and hex decoding are shared with it.
-/

namespace Pset02

/-! ## Data model (`main.go`, lines 14-39) -/

/-- Go `type Hash [32]byte`. -/
abbrev Hash := Fin 32 → Pset01.Byte

/-- Go `type Block struct { PrevHash Hash; Name string; Nonce string }`. -/
@[ext] structure Block where
  PrevHash : Hash
  Name : List Pset01.Byte
  Nonce : List Pset01.Byte

/-- The zero value of `Block` (`var bl Block`): a zero hash and two empty
strings. -/
def Block.zero : Block := ⟨fun _ => 0, [], []⟩

/-- Go `func (self Hash) ToString() string`: the verb `%x` of `fmt` applied to a
byte array writes two lowercase hex characters per byte. -/
def Hash.ToString (self : Hash) : List Pset01.Byte := Pset01.hexEncode (List.ofFn self)

/-- Go `func (self Block) ToString() string`, that is
`fmt.Sprintf("%x %s %s", self.PrevHash, self.Name, self.Nonce)`: the hex
characters of the hash, a space, the name, a space, the nonce. -/
def Block.ToString (self : Block) : List Pset01.Byte :=
  Pset01.hexEncode (List.ofFn self.PrevHash) ++ [32] ++ self.Name ++ [32] ++ self.Nonce

/-- Go `func (self Block) Hash() Hash`, over the SHA-256 primitive `Sum256`. -/
def Block.Hash (Sum256 : List Pset01.Byte → Hash) (self : Block) : Hash :=
  Sum256 self.ToString

/-! ## Parsing a block (`main.go`, lines 41-75) -/

/-- The Go `error` values that `BlockFromString` can return. -/
inductive ParseError
  /-- `fmt.Errorf("Invalid string length %d, expect 66 to 100", len(s))`. -/
  | badLength (got : Nat)
  /-- `fmt.Errorf("got %d elements, expect 3", len(subStrings))`. -/
  | badElements (got : Nat)
  /-- The error returned by `hex.DecodeString`. -/
  | hex (err : Pset01.GoError)
  /-- `fmt.Errorf("got %d byte hash, expect 32", len(hashbytes))`. -/
  | badHash (got : Nat)
  deriving DecidableEq

/-- The scan of `strings.Split` for a one-byte separator: `cur` is the piece
read so far; every separator closes a piece, and the end of the string closes
the last one. -/
def splitLoop (sep : Pset01.Byte) : List Pset01.Byte → List Pset01.Byte →
    List (List Pset01.Byte)
  | cur, [] => [cur]
  | cur, c :: rest =>
    if c = sep then cur :: splitLoop sep [] rest else splitLoop sep (cur ++ [c]) rest

/-- The call `strings.Split(s, sep)` for a one-byte separator `sep`: the pieces
of `s` between the occurrences of `sep`, one more than there are occurrences. -/
def stringsSplit (s : List Pset01.Byte) (sep : Pset01.Byte) : List (List Pset01.Byte) :=
  splitLoop sep [] s

/-- The UTF-8 encodings of the characters for which `unicode.IsSpace` holds:
`\t`, `\n`, `\v`, `\f`, `\r`, space, U+0085, U+00A0, U+1680, U+2000 to U+200A,
U+2028, U+2029, U+202F, U+205F and U+3000. -/
def spaceEncodings : List (List Pset01.Byte) :=
  [[0x09], [0x0A], [0x0B], [0x0C], [0x0D], [0x20], [0xC2, 0x85], [0xC2, 0xA0],
   [0xE1, 0x9A, 0x80],
   [0xE2, 0x80, 0x80], [0xE2, 0x80, 0x81], [0xE2, 0x80, 0x82], [0xE2, 0x80, 0x83],
   [0xE2, 0x80, 0x84], [0xE2, 0x80, 0x85], [0xE2, 0x80, 0x86], [0xE2, 0x80, 0x87],
   [0xE2, 0x80, 0x88], [0xE2, 0x80, 0x89], [0xE2, 0x80, 0x8A],
   [0xE2, 0x80, 0xA8], [0xE2, 0x80, 0xA9], [0xE2, 0x80, 0xAF], [0xE2, 0x81, 0x9F],
   [0xE3, 0x80, 0x80]]

/-- Whether the string `s` starts with the bytes `e`. -/
def startsWith (e s : List Pset01.Byte) : Bool := decide (s.take e.length = e)

/-- Whether the string `s` ends with the bytes `e`. -/
def endsWith (e s : List Pset01.Byte) : Bool := decide (s.drop (s.length - e.length) = e)

/-- The left scan of `strings.TrimSpace`: while the string starts with a white
space character, that character is dropped.  One unit of `fuel` is used per
character dropped. -/
def trimLeftSpace : Nat → List Pset01.Byte → List Pset01.Byte
  | 0, s => s
  | fuel + 1, s =>
    match spaceEncodings.find? (fun e => startsWith e s) with
    | some e => trimLeftSpace fuel (s.drop e.length)
    | none => s

/-- The right scan of `strings.TrimSpace`: while the string ends with a white
space character, that character is dropped.  One unit of `fuel` is used per
character dropped. -/
def trimRightSpace : Nat → List Pset01.Byte → List Pset01.Byte
  | 0, s => s
  | fuel + 1, s =>
    match spaceEncodings.find? (fun e => endsWith e s) with
    | some e => trimRightSpace fuel (s.take (s.length - e.length))
    | none => s

/-- The call `strings.TrimSpace(s)`: `s` without its leading and trailing white
space, as defined by Unicode.  Every character dropped has at least one byte, so
`len(s)` units of fuel are enough for each scan. -/
def TrimSpace (s : List Pset01.Byte) : List Pset01.Byte :=
  trimRightSpace s.length (trimLeftSpace s.length s)

/-- Go `func BlockFromString(s string) (Block, error)`. -/
def BlockFromString (s : List Pset01.Byte) : Block × Option ParseError :=
  let bl := Block.zero
  if s.length < 66 ∨ s.length > 100 then
    (bl, some (ParseError.badLength s.length))
  else
    let subStrings := stringsSplit s 32
    if subStrings.length ≠ 3 then
      (bl, some (ParseError.badElements subStrings.length))
    else
      let dec := Pset01.hexDecodeString (subStrings.getD 0 [])
      let hashbytes := dec.1
      let err := dec.2
      match err with
      | some e => (bl, some (ParseError.hex e))
      | none =>
        if hashbytes.length ≠ 32 then
          (bl, some (ParseError.badHash hashbytes.length))
        else
          let bl := { bl with PrevHash := (Pset01.copyToBlock bl.PrevHash hashbytes).1 }
          let bl := { bl with Name := subStrings.getD 1 [] }
          let bl := { bl with Nonce := TrimSpace (subStrings.getD 2 []) }
          (bl, none)

/-! ## Mining (`miner.go`, lines 45-75) -/

/-- The call `strconv.FormatUint(nonce, 10)`: the decimal digits of `nonce`. -/
def formatUint (nonce : Nat) : List Pset01.Byte :=
  (Nat.toDigits 10 nonce).map (fun c => Pset01.toByte c.toNat)

/-- The bit test `(h[i/8]>>(7-(i%8)))&0x01` of the mining loop for a counter
`i uint8`; the subtraction `7-(i%8)` is taken modulo `2^8`. -/
def Mine.bit (h : Hash) (i : Fin 256) : Nat :=
  ((h ⟨i.val / 8, by omega⟩).val >>> ((7 + 256 - i.val % 8) % 256)) &&& 0x01

/-- The loop `for i := uint8(0); i < targetBits; i++` of a mining worker, from
the counter value `i` on: `false` when a bit is `1` (`continue TryNextNonce`),
`true` when the loop runs to its end.  The increment `i++` is taken modulo
`2^8`. -/
def Mine.bitLoop (h : Hash) (targetBits : Fin 256) (i : Fin 256) : Bool :=
  if hlt : i.val < targetBits.val then
    if Mine.bit h i = 1 then false
    else Mine.bitLoop h targetBits ⟨(i.val + 1) % 256, Nat.mod_lt _ (by decide)⟩
  else true
termination_by targetBits.val - i.val
decreasing_by
  show targetBits.val - (i.val + 1) % 256 < targetBits.val - i.val
  omega

/-- How a mining worker ends: cancelled through its context, or with a
successful nonce and the block that carries it. -/
inductive Mine.Outcome
  /-- The branch `case <-_ctx.Done()`. -/
  | cancelled
  /-- The nonce printed as successful and the block sent on `complete`. -/
  | success (nonce : Nat) (bl : Block)

/-- The loop `for nonce := uint64(taskId); ; nonce += uint64(runtime.NumCPU())`
of a mining worker.  `done k` tells whether the context is cancelled when the
iteration number `k` starts; `nonce` is a `uint64`, so the step is taken modulo
`2^64`.  The result is `none` when `fuel` iterations found neither a
cancellation nor a successful nonce. -/
def Mine.workerLoop (Sum256 : List Pset01.Byte → Hash) (targetBits : Fin 256)
    (numCPU : Nat) (done : Nat → Bool) : Nat → Nat → Nat → Block → Option Mine.Outcome
  | 0, _, _, _ => none
  | fuel + 1, k, nonce, bl =>
    if done k then some Mine.Outcome.cancelled
    else
      let bl := { bl with Nonce := formatUint nonce }
      let h := bl.Hash Sum256
      if Mine.bitLoop h targetBits 0 then some (Mine.Outcome.success nonce bl)
      else
        Mine.workerLoop Sum256 targetBits numCPU done fuel (k + 1)
          ((nonce + numCPU % 2 ^ 64) % 2 ^ 64) bl

/-- The goroutine started by `Mine` for the worker `taskId` on its own block
`bl`. -/
def Mine.worker (Sum256 : List Pset01.Byte → Hash) (targetBits : Fin 256)
    (numCPU : Nat) (done : Nat → Bool) (fuel taskId : Nat) (bl : Block) :
    Option Mine.Outcome :=
  Mine.workerLoop Sum256 targetBits numCPU done fuel 0 (taskId % 2 ^ 64) bl

/-! ## Fixtures -/

/-- A block with a zero previous hash, the name `alice` and the nonce `42`. -/
def sampleBlock : Block := ⟨fun _ => 0, [97, 108, 105, 99, 101], [52, 50]⟩

/-- A stand-in for SHA-256 that maps every string to the zero hash. -/
def zeroSum256 : List Pset01.Byte → Hash := fun _ _ => 0

end Pset02

/-! # Verification -/

namespace Pset01

/-! ## Bit tests -/

theorem toByte_val (n : Nat) : (toByte n).val = n % 256 := rfl

theorem Byte.and_val (a b : Byte) : (a &&& b).val = (a.val &&& b.val) % 256 := rfl

set_option maxRecDepth 100000 in
/-- On numbers below 256, the mask test with the mask `0x80 >> j` and the shift
test `(b >> (7 - j)) & 1 = 1` agree. -/
theorem nat_mask_test : ∀ j : Fin 8, ∀ b : Fin 256,
    ((b.val &&& (0x80 >>> j.val) % 256) % 256 = (0x80 >>> j.val) % 256) ↔
      ((b.val >>> (7 - j.val)) &&& 0x01 = 0x01) := by
  decide

/-- On a single byte, the mask test of `Sign` and `Verify` with the mask
`0x80 >> j` is the shift test `(b >> (7 - j)) & 1 = 1`. -/
theorem byte_mask_test (j : Fin 8) (b : Byte) :
    (b &&& toByte (0x80 >>> j.val) = toByte (0x80 >>> j.val)) ↔
      ((b.val >>> (7 - j.val)) &&& 0x01 = 0x01) := by
  rw [Fin.ext_iff, Byte.and_val, toByte_val]
  exact nat_mask_test j b

/-- The bit selected by byte `i` and mask `0x80 >> n` is bit `8*i+n` of the
contract. -/
theorem mask_test_iff (msg : Block) (i : Fin 32) (n : Nat) (hn : n < 8) :
    (msg i &&& toByte (0x80 >>> n) = toByte (0x80 >>> n)) ↔
      bitAt msg (bitIndex i ⟨n, hn⟩) = 0x01 := by
  have h1 : (⟨(8 * i.val + n) / 8, by omega⟩ : Fin 32) = i := Fin.ext (by simp; omega)
  have h2 : (8 * i.val + n) % 8 = n := by omega
  have h := byte_mask_test ⟨n, hn⟩ (msg i)
  simp only [bitAt, bitIndex, h1, h2]
  exact h

/-- Every position `k < 256` is the index `8*i+j` of exactly one pair `(i, j)`. -/
theorem bitIndex_div_mod (k : Fin 256) :
    bitIndex ⟨k.val / 8, by omega⟩ ⟨k.val % 8, by omega⟩ = k :=
  Fin.ext (by simp [bitIndex]; omega)

theorem bitIndex_eq_iff (i : Fin 32) (j : Fin 8) (k : Fin 256) :
    bitIndex i j = k ↔ k.val / 8 = i.val ∧ k.val % 8 = j.val := by
  simp only [bitIndex, Fin.ext_iff]
  omega

/-! ## Sign -/

theorem Signature.setPreimage_apply (sig : Signature) (k k' : Fin 256) (b : Block) :
    (sig.setPreimage k b).Preimage k' = if k' = k then b else sig.Preimage k' := by
  simp [Signature.setPreimage, Function.update_apply]

/-- The inner loop of `Sign`, started with a mask whose successive shifts test
the contract bits of the positions visited, writes the selected secret block at
each visited position and leaves the others alone. -/
theorem Sign.bits_preimage (msg : Message) (sec : SecretKey) (i : Fin 32) :
    ∀ (js : List (Fin 8)) (Mask : Nat) (sig : Signature),
      (∀ (n : Nat) (hn : n < js.length),
        (msg i &&& toByte (Mask >>> n) = toByte (Mask >>> n)) ↔
          bitAt msg (bitIndex i (js.get ⟨n, hn⟩)) = 0x01) →
      ∀ k : Fin 256, (Sign.bits msg sec i js Mask sig).Preimage k =
        if (∃ j ∈ js, bitIndex i j = k) then
          (if bitAt msg k = 0x01 then sec.OnePre k else sec.ZeroPre k)
        else sig.Preimage k := by
  intro js
  induction js with
  | nil => intro Mask sig _ k; simp [Sign.bits]
  | cons j js ih =>
    intro Mask sig hm k
    have h0 := hm 0 (by simp)
    simp only [Nat.shiftRight_zero, List.get_eq_getElem, List.getElem_cons_zero] at h0
    have hrest : ∀ (n : Nat) (hn : n < js.length),
        (msg i &&& toByte ((Mask >>> 1) >>> n) = toByte ((Mask >>> 1) >>> n)) ↔
          bitAt msg (bitIndex i (js.get ⟨n, hn⟩)) = 0x01 := by
      intro n hn
      have h := hm (n + 1) (by simp; omega)
      simp only [List.get_eq_getElem, List.getElem_cons_succ] at h
      rw [← Nat.shiftRight_add, Nat.add_comm 1 n]
      simpa using h
    have hstep : Sign.bits msg sec i (j :: js) Mask sig =
        Sign.bits msg sec i js (Mask >>> 1)
          (sig.setPreimage (bitIndex i j)
            (if bitAt msg (bitIndex i j) = 0x01 then sec.OnePre (bitIndex i j)
              else sec.ZeroPre (bitIndex i j))) := by
      rw [Sign.bits]
      by_cases hc : msg i &&& toByte Mask = toByte Mask
      · rw [if_pos hc, if_pos (h0.mp hc)]
      · rw [if_neg hc, if_neg (fun h => hc (h0.mpr h))]
    rw [hstep, ih (Mask >>> 1) _ hrest k, Signature.setPreimage_apply]
    by_cases hex : ∃ j' ∈ js, bitIndex i j' = k
    · have : ∃ j' ∈ j :: js, bitIndex i j' = k := by
        obtain ⟨j', hj', e⟩ := hex
        exact ⟨j', List.mem_cons_of_mem _ hj', e⟩
      rw [if_pos hex, if_pos this]
    · rw [if_neg hex]
      by_cases hk : k = bitIndex i j
      · have : ∃ j' ∈ j :: js, bitIndex i j' = k := ⟨j, List.mem_cons_self _ _, hk.symm⟩
        rw [if_pos hk, if_pos this, hk]
      · have : ¬ ∃ j' ∈ j :: js, bitIndex i j' = k := by
          rintro ⟨j', hj', e⟩
          rcases List.mem_cons.mp hj' with rfl | hj'
          · exact hk e.symm
          · exact hex ⟨j', hj', e⟩
        rw [if_neg hk, if_neg this]

/-- The inner loop of `Sign` as run by the outer loop: over `j = 0 .. 7` from
`Mask = 0x80`. -/
theorem Sign.bits_of_byte (msg : Message) (sec : SecretKey) (i : Fin 32) (sig : Signature)
    (k : Fin 256) :
    (Sign.bits msg sec i (List.finRange 8) 0x80 sig).Preimage k =
      if k.val / 8 = i.val then
        (if bitAt msg k = 0x01 then sec.OnePre k else sec.ZeroPre k)
      else sig.Preimage k := by
  rw [Sign.bits_preimage msg sec i (List.finRange 8) 0x80 sig]
  · have : (∃ j ∈ List.finRange 8, bitIndex i j = k) ↔ k.val / 8 = i.val := by
      constructor
      · rintro ⟨j, _, e⟩
        exact ((bitIndex_eq_iff i j k).mp e).1
      · intro h
        exact ⟨⟨k.val % 8, by omega⟩, List.mem_finRange _,
          (bitIndex_eq_iff i _ k).mpr ⟨h, rfl⟩⟩
    simp only [this]
  · intro n hn
    have hn8 : n < 8 := by simpa using hn
    have hget : (List.finRange 8).get ⟨n, hn⟩ = ⟨n, hn8⟩ := by simp
    rw [hget]
    exact mask_test_iff msg i n hn8

/-- The outer loop of `Sign` over a list of byte counters. -/
theorem Sign.bytes_preimage (msg : Message) (sec : SecretKey) :
    ∀ (is : List (Fin 32)) (sig : Signature) (k : Fin 256),
      (Sign.bytes msg sec is sig).Preimage k =
        if (∃ i ∈ is, k.val / 8 = i.val) then
          (if bitAt msg k = 0x01 then sec.OnePre k else sec.ZeroPre k)
        else sig.Preimage k := by
  intro is
  induction is with
  | nil => intro sig k; simp [Sign.bytes]
  | cons i is ih =>
    intro sig k
    rw [Sign.bytes, ih, Sign.bits_of_byte]
    by_cases hex : ∃ i' ∈ is, k.val / 8 = i'.val
    · have : ∃ i' ∈ i :: is, k.val / 8 = i'.val := by
        obtain ⟨i', hi', e⟩ := hex
        exact ⟨i', List.mem_cons_of_mem _ hi', e⟩
      rw [if_pos hex, if_pos this]
    · rw [if_neg hex]
      by_cases hk : k.val / 8 = i.val
      · have : ∃ i' ∈ i :: is, k.val / 8 = i'.val := ⟨i, List.mem_cons_self _ _, hk⟩
        rw [if_pos hk, if_pos this]
      · have : ¬ ∃ i' ∈ i :: is, k.val / 8 = i'.val := by
          rintro ⟨i', hi', e⟩
          rcases List.mem_cons.mp hi' with rfl | hi'
          · exact hk e
          · exact hex ⟨i', hi', e⟩
        rw [if_neg hk, if_neg this]

/-- What `Sign` stores at each position. -/
theorem Sign.preimage_eq (msg : Message) (sec : SecretKey) (k : Fin 256) :
    (Sign msg sec).Preimage k =
      if bitAt msg k = 0x01 then sec.OnePre k else sec.ZeroPre k := by
  rw [Sign, Sign.bytes_preimage]
  have : ∃ i ∈ List.finRange 32, k.val / 8 = i.val :=
    ⟨⟨k.val / 8, by omega⟩, List.mem_finRange _, rfl⟩
  rw [if_pos this]

/-! ## Verify -/

theorem bytesEqual_slice (a b : Block) : bytesEqual a.slice b.slice = true ↔ a = b := by
  simp only [bytesEqual, Block.slice, decide_eq_true_eq]
  exact ⟨fun h => List.ofFn_injective h, fun h => by rw [h]⟩

/-- The inner loop of `Verify` completes (does not `return false`) exactly when
the hash of the preimage at every visited position is the commitment selected by
the contract bit. -/
theorem Verify.bits_isSome (Sum256 : List Byte → Block) (msg : Message) (pub : PublicKey)
    (sig : Signature) (i : Fin 32) :
    ∀ (js : List (Fin 8)) (Mask : Nat),
      (∀ (n : Nat) (hn : n < js.length),
        (msg i &&& toByte (Mask >>> n) = toByte (Mask >>> n)) ↔
          bitAt msg (bitIndex i (js.get ⟨n, hn⟩)) = 0x01) →
      ((Verify.bits Sum256 msg pub sig i js Mask).isSome = true ↔
        ∀ j ∈ js, Block.Hash Sum256 (sig.Preimage (bitIndex i j)) =
          if bitAt msg (bitIndex i j) = 0x01 then pub.OneHash (bitIndex i j)
          else pub.ZeroHash (bitIndex i j)) := by
  intro js
  induction js with
  | nil => intro Mask _; simp [Verify.bits]
  | cons j js ih =>
    intro Mask hm
    have h0 := hm 0 (by simp)
    simp only [Nat.shiftRight_zero, List.get_eq_getElem, List.getElem_cons_zero] at h0
    have hrest : ∀ (n : Nat) (hn : n < js.length),
        (msg i &&& toByte ((Mask >>> 1) >>> n) = toByte ((Mask >>> 1) >>> n)) ↔
          bitAt msg (bitIndex i (js.get ⟨n, hn⟩)) = 0x01 := by
      intro n hn
      have h := hm (n + 1) (by simp; omega)
      simp only [List.get_eq_getElem, List.getElem_cons_succ] at h
      rw [← Nat.shiftRight_add, Nat.add_comm 1 n]
      simpa using h
    have IH := ih (Mask >>> 1) hrest
    rw [Verify.bits, List.forall_mem_cons]
    by_cases hc : msg i &&& toByte Mask = toByte Mask
    · have hb := h0.mp hc
      simp only [if_pos hc, if_pos hb]
      by_cases he : Block.Hash Sum256 (sig.Preimage (bitIndex i j)) = pub.OneHash (bitIndex i j)
      · have hpos : bytesEqual (Sum256 (sig.Preimage (bitIndex i j)).slice).slice
            (pub.OneHash (bitIndex i j)).slice = true := (bytesEqual_slice _ _).mpr he
        rw [if_pos hpos, IH]
        exact ⟨fun h => ⟨he, h⟩, fun h => h.2⟩
      · have hne : ¬ bytesEqual (Sum256 (sig.Preimage (bitIndex i j)).slice).slice
            (pub.OneHash (bitIndex i j)).slice = true :=
          fun h => he ((bytesEqual_slice _ _).mp h)
        rw [if_neg hne]
        simp only [Option.isSome_none, Bool.false_eq_true, false_iff]
        exact fun h => he h.1
    · have hb : ¬ bitAt msg (bitIndex i j) = 0x01 := fun h => hc (h0.mpr h)
      simp only [if_neg hc, if_neg hb]
      by_cases he : Block.Hash Sum256 (sig.Preimage (bitIndex i j)) = pub.ZeroHash (bitIndex i j)
      · have hpos : bytesEqual (Sum256 (sig.Preimage (bitIndex i j)).slice).slice
            (pub.ZeroHash (bitIndex i j)).slice = true := (bytesEqual_slice _ _).mpr he
        rw [if_pos hpos, IH]
        exact ⟨fun h => ⟨he, h⟩, fun h => h.2⟩
      · have hne : ¬ bytesEqual (Sum256 (sig.Preimage (bitIndex i j)).slice).slice
            (pub.ZeroHash (bitIndex i j)).slice = true :=
          fun h => he ((bytesEqual_slice _ _).mp h)
        rw [if_neg hne]
        simp only [Option.isSome_none, Bool.false_eq_true, false_iff]
        exact fun h => he h.1

/-- The inner loop of `Verify` as run by the outer loop. -/
theorem Verify.bits_isSome_byte (Sum256 : List Byte → Block) (msg : Message) (pub : PublicKey)
    (sig : Signature) (i : Fin 32) :
    (Verify.bits Sum256 msg pub sig i (List.finRange 8) 0x80).isSome = true ↔
      ∀ j : Fin 8, Block.Hash Sum256 (sig.Preimage (bitIndex i j)) =
        if bitAt msg (bitIndex i j) = 0x01 then pub.OneHash (bitIndex i j)
        else pub.ZeroHash (bitIndex i j) := by
  rw [Verify.bits_isSome Sum256 msg pub sig i (List.finRange 8) 0x80]
  · exact ⟨fun h j => h j (List.mem_finRange j), fun h j _ => h j⟩
  · intro n hn
    have hn8 : n < 8 := by simpa using hn
    have hget : (List.finRange 8).get ⟨n, hn⟩ = ⟨n, hn8⟩ := by simp
    rw [hget]
    exact mask_test_iff msg i n hn8

/-- The outer loop of `Verify` over a list of byte counters. -/
theorem Verify.bytes_eq_true (Sum256 : List Byte → Block) (msg : Message) (pub : PublicKey)
    (sig : Signature) :
    ∀ is : List (Fin 32), Verify.bytes Sum256 msg pub sig is = true ↔
      ∀ i ∈ is, ∀ j : Fin 8, Block.Hash Sum256 (sig.Preimage (bitIndex i j)) =
        if bitAt msg (bitIndex i j) = 0x01 then pub.OneHash (bitIndex i j)
        else pub.ZeroHash (bitIndex i j) := by
  intro is
  induction is with
  | nil => simp [Verify.bytes]
  | cons i is ih =>
    rw [Verify.bytes, List.forall_mem_cons, ← Verify.bits_isSome_byte, ← ih]
    cases Verify.bits Sum256 msg pub sig i (List.finRange 8) 0x80 <;> simp

/-- The result of `Verify`, position by position. -/
theorem Verify.eq_true_iff (Sum256 : List Byte → Block) (msg : Message) (pub : PublicKey)
    (sig : Signature) :
    Verify Sum256 msg pub sig = true ↔
      ∀ k : Fin 256, Block.Hash Sum256 (sig.Preimage k) =
        if bitAt msg k = 0x01 then pub.OneHash k else pub.ZeroHash k := by
  rw [Verify, Verify.bytes_eq_true]
  constructor
  · intro h k
    have := h ⟨k.val / 8, by omega⟩ (List.mem_finRange _) ⟨k.val % 8, by omega⟩
    rwa [bitIndex_div_mod] at this
  · intro h i _ j
    exact h (bitIndex i j)

/-! ## Claims on Sign and Verify -/

/-- C1: for every secret key `sec`, every public key `pub` holding the hash
commitments of `sec`, and every 32-byte message `m`, `Verify(m, pub, Sign(m, sec))`
returns true, whatever the hash function. -/
theorem verify_sign (Sum256 : List Byte → Block) (sec : SecretKey) (pub : PublicKey)
    (m : Message)
    (hz : ∀ i : Fin 256, pub.ZeroHash i = Block.Hash Sum256 (sec.ZeroPre i))
    (ho : ∀ i : Fin 256, pub.OneHash i = Block.Hash Sum256 (sec.OnePre i)) :
    Verify Sum256 m pub (Sign m sec) = true := by
  rw [Verify.eq_true_iff]
  intro k
  rw [Sign.preimage_eq]
  by_cases hb : bitAt m k = 0x01
  · rw [if_pos hb, if_pos hb, ho]
  · rw [if_neg hb, if_neg hb, hz]

/-- C1 at a concrete key pair and message. -/
theorem verify_sign_witness :
    (∀ i : Fin 256, samplePub.ZeroHash i = Block.Hash toyHash (sampleSec.ZeroPre i)) ∧
    (∀ i : Fin 256, samplePub.OneHash i = Block.Hash toyHash (sampleSec.OnePre i)) ∧
    Verify toyHash sampleMsg samplePub (Sign sampleMsg sampleSec) = true :=
  ⟨fun _ => rfl, fun _ => rfl,
    verify_sign toyHash sampleSec samplePub sampleMsg (fun _ => rfl) (fun _ => rfl)⟩

/-- C2: for every message `m`, secret key `sec` and position `i` in `0..255`,
`Sign(m, sec).Preimage[i]` is `sec.OnePre[i]` when `(m[i/8] >> (7 - i%8)) & 1 = 1`
and `sec.ZeroPre[i]` otherwise. -/
theorem sign_preimage (m : Message) (sec : SecretKey) (i : Fin 256) :
    (Sign m sec).Preimage i =
      if ((m ⟨i.val / 8, by omega⟩).val >>> (7 - i.val % 8)) &&& 1 = 1 then sec.OnePre i
      else sec.ZeroPre i :=
  Sign.preimage_eq m sec i

/-- C3: `Verify(m, pub, sig)` returns true if and only if at every position `i`
the hash of `sig.Preimage[i]` is `pub.OneHash[i]` when bit `i` of `m` is 1 and
`pub.ZeroHash[i]` when it is 0; in every other case it returns false (the result
is a boolean, there is no error outcome). -/
theorem verify_iff (Sum256 : List Byte → Block) (m : Message) (pub : PublicKey)
    (sig : Signature) :
    (Verify Sum256 m pub sig = true ↔
      ∀ i : Fin 256,
        (bitAt m i = 1 → Block.Hash Sum256 (sig.Preimage i) = pub.OneHash i) ∧
        (bitAt m i = 0 → Block.Hash Sum256 (sig.Preimage i) = pub.ZeroHash i)) ∧
    (Verify Sum256 m pub sig = false ↔
      ¬ ∀ i : Fin 256,
        (bitAt m i = 1 → Block.Hash Sum256 (sig.Preimage i) = pub.OneHash i) ∧
        (bitAt m i = 0 → Block.Hash Sum256 (sig.Preimage i) = pub.ZeroHash i)) := by
  have key : Verify Sum256 m pub sig = true ↔
      ∀ i : Fin 256,
        (bitAt m i = 1 → Block.Hash Sum256 (sig.Preimage i) = pub.OneHash i) ∧
        (bitAt m i = 0 → Block.Hash Sum256 (sig.Preimage i) = pub.ZeroHash i) := by
    rw [Verify.eq_true_iff]
    refine forall_congr' (fun i => ?_)
    have hbit : bitAt m i = 0 ∨ bitAt m i = 1 := by
      simp only [bitAt, Nat.and_one_is_mod]
      omega
    rcases hbit with h | h
    · simp [h]
    · simp [h]
  refine ⟨key, ?_⟩
  rw [← key]
  cases Verify Sum256 m pub sig <;> simp

/-- On a 32-byte block `toyHash` adds one to every byte. -/
theorem toyHash_slice (b : Block) : toyHash b.slice = fun k => b k + 1 := by
  funext k
  have hk : k.val < (List.ofFn b).length := by rw [List.length_ofFn]; exact k.isLt
  simp only [toyHash, Block.slice, List.getD_eq_getElem?_getD, List.getElem?_eq_getElem hk,
    List.getElem_ofFn, Option.getD_some]

/-- Flipping one bit of a byte changes the byte. -/
theorem Byte.xor_mask_ne (x : Byte) (j : Nat) (hj : j < 8) :
    x ^^^ toByte (0x80 >>> j) ≠ x := by
  intro h
  have hv : (x.val ^^^ (toByte (0x80 >>> j)).val) % 256 = x.val := congrArg Fin.val h
  have hx : x.val < 2 ^ 8 := x.isLt
  have hy : (toByte (0x80 >>> j)).val < 2 ^ 8 := (toByte (0x80 >>> j)).isLt
  have hlt : x.val ^^^ (toByte (0x80 >>> j)).val < 256 := Nat.xor_lt_two_pow hx hy
  rw [Nat.mod_eq_of_lt hlt] at hv
  have h0 : (toByte (0x80 >>> j)).val = 0 :=
    Nat.xor_right_injective (hv.trans (Nat.xor_zero x.val).symm)
  rw [toByte_val] at h0
  interval_cases j <;> simp at h0

/-- Flipping one bit of a block changes the block. -/
theorem Block.flipBit_ne (b : Block) (n : Fin 256) : Block.flipBit b n ≠ b := by
  intro h
  have h1 := congrFun h ⟨n.val / 8, by omega⟩
  rw [Block.flipBit, Function.update_same] at h1
  exact Byte.xor_mask_ne _ (n.val % 8) (Nat.mod_lt _ (by decide)) h1

/-- On 32-byte blocks `toyHash` has no collisions. -/
theorem toyHash_block_injective (a b : Block)
    (h : Block.Hash toyHash a = Block.Hash toyHash b) : a = b := by
  funext k
  have hk := congrFun h k
  simp only [Block.Hash, toyHash_slice] at hk
  exact add_right_cancel hk

/-- Replacing the block at position `i` of a signature that passes by a block
with a different hash makes `Verify` return false. -/
theorem Verify.replaced_false (Sum256 : List Byte → Block) (m : Message) (pub : PublicKey)
    (sig : Signature) (i : Fin 256) (b : Block)
    (hv : Verify Sum256 m pub sig = true)
    (hne : Block.Hash Sum256 b ≠ Block.Hash Sum256 (sig.Preimage i)) :
    Verify Sum256 m pub (sig.setPreimage i b) = false := by
  rw [← Bool.not_eq_true]
  intro h
  have h1 := (Verify.eq_true_iff Sum256 m pub _).mp h i
  have h2 := (Verify.eq_true_iff Sum256 m pub _).mp hv i
  rw [Signature.setPreimage_apply, if_pos rfl] at h1
  exact hne (h1.trans h2.symm)

/-- C4 as stated fails: in the all-zero secret key the two preimages of
position 0 are the same block, so substituting the wrong-side preimage in the
signature of the all-zero message leaves the signature unchanged and `Verify`
does not return false, whatever the hash function is. -/
theorem wrong_side_substitution_accepted :
    ¬ ∃ Sum256 : List Byte → Block,
      Verify Sum256 Block.zero
        ⟨fun i => Block.Hash Sum256 (SecretKey.zero.ZeroPre i),
          fun i => Block.Hash Sum256 (SecretKey.zero.OnePre i)⟩
        ((Sign Block.zero SecretKey.zero).setPreimage 0 (SecretKey.zero.OnePre 0)) = false := by
  rintro ⟨Sum256, h⟩
  have ht : Verify Sum256 Block.zero
        ⟨fun i => Block.Hash Sum256 (SecretKey.zero.ZeroPre i),
          fun i => Block.Hash Sum256 (SecretKey.zero.OnePre i)⟩
        ((Sign Block.zero SecretKey.zero).setPreimage 0 (SecretKey.zero.OnePre 0)) = true := by
    rw [Verify.eq_true_iff]
    intro k
    rw [Signature.setPreimage_apply, Sign.preimage_eq]
    simp only [SecretKey.zero]
    split_ifs <;> rfl
  rw [ht] at h
  exact Bool.noConfusion h

/-- C4, amended: for every key pair with `pub` the hash commitments of `sec`
under a hash without collisions on 32-byte blocks, every message `m` and every
position `i`: replacing `Sign(m, sec).Preimage[i]` by the same block with any
single bit flipped makes `Verify` return false, and replacing it by the
wrong-side preimage of `sec` at position `i` makes `Verify` return false exactly
when the two preimages of `sec` at position `i` are different blocks. -/
theorem tampered_signature_rejected (Sum256 : List Byte → Block) (sec : SecretKey)
    (pub : PublicKey) (m : Message) (i : Fin 256)
    (hinj : ∀ a b : Block, Block.Hash Sum256 a = Block.Hash Sum256 b → a = b)
    (hz : ∀ i : Fin 256, pub.ZeroHash i = Block.Hash Sum256 (sec.ZeroPre i))
    (ho : ∀ i : Fin 256, pub.OneHash i = Block.Hash Sum256 (sec.OnePre i)) :
    (∀ n : Fin 256,
        Verify Sum256 m pub
          ((Sign m sec).setPreimage i (Block.flipBit ((Sign m sec).Preimage i) n)) = false) ∧
    (Verify Sum256 m pub
          ((Sign m sec).setPreimage i (if bitAt m i = 1 then sec.ZeroPre i else sec.OnePre i)) =
            false ↔ sec.ZeroPre i ≠ sec.OnePre i) := by
  have hv : Verify Sum256 m pub (Sign m sec) = true := by
    rw [Verify.eq_true_iff]
    intro k
    rw [Sign.preimage_eq]
    by_cases hb : bitAt m k = 0x01
    · rw [if_pos hb, if_pos hb, ho]
    · rw [if_neg hb, if_neg hb, hz]
  refine ⟨fun n => Verify.replaced_false Sum256 m pub _ i _ hv
    (fun h => Block.flipBit_ne _ n (hinj _ _ h)), ?_⟩
  constructor
  · intro hf heq
    have ht : Verify Sum256 m pub
        ((Sign m sec).setPreimage i (if bitAt m i = 1 then sec.ZeroPre i else sec.OnePre i)) =
          true := by
      rw [Verify.eq_true_iff]
      intro k
      have hk := (Verify.eq_true_iff Sum256 m pub _).mp hv k
      rw [Signature.setPreimage_apply]
      by_cases hki : k = i
      · subst hki
        rw [if_pos rfl, ← hk, Sign.preimage_eq, heq]
      · rw [if_neg hki]
        exact hk
    rw [ht] at hf
    exact Bool.noConfusion hf
  · intro hne
    refine Verify.replaced_false Sum256 m pub _ i _ hv (fun h => hne ?_)
    have h2 := hinj _ _ h
    rw [Sign.preimage_eq] at h2
    by_cases hb : bitAt m i = 1
    · rw [if_pos hb, if_pos hb] at h2; exact h2
    · rw [if_neg hb, if_neg hb] at h2; exact h2.symm

set_option maxRecDepth 100000 in
/-- C4 (amended) at a concrete key pair under `toyHash`, which has no collisions
on blocks: flipping bit 9 of the block at position 3 of a signature, or
substituting the wrong-side preimage, which differs from the right-side one, is
rejected. -/
theorem tampered_signature_rejected_witness :
    (∀ a b : Block, Block.Hash toyHash a = Block.Hash toyHash b → a = b) ∧
    (∀ i : Fin 256, samplePub.ZeroHash i = Block.Hash toyHash (sampleSec.ZeroPre i)) ∧
    (∀ i : Fin 256, samplePub.OneHash i = Block.Hash toyHash (sampleSec.OnePre i)) ∧
    Verify toyHash sampleMsg samplePub
      ((Sign sampleMsg sampleSec).setPreimage 3
        (Block.flipBit ((Sign sampleMsg sampleSec).Preimage 3) 9)) = false ∧
    Verify toyHash sampleMsg samplePub
      ((Sign sampleMsg sampleSec).setPreimage 3
        (if bitAt sampleMsg 3 = 1 then sampleSec.ZeroPre 3 else sampleSec.OnePre 3)) = false :=
  ⟨toyHash_block_injective, fun _ => rfl, fun _ => rfl,
    (tampered_signature_rejected toyHash sampleSec samplePub sampleMsg 3
      toyHash_block_injective (fun _ => rfl) (fun _ => rfl)).1 9,
    (tampered_signature_rejected toyHash sampleSec samplePub sampleMsg 3
      toyHash_block_injective (fun _ => rfl) (fun _ => rfl)).2.mpr
      (fun h => absurd (congrArg Fin.val (congrFun h 0)) (by decide))⟩

/-! ## Hex encoding and decoding -/

theorem hexEncode_nil : hexEncode [] = [] := rfl

theorem hexEncode_cons (c : Byte) (b : List Byte) :
    hexEncode (c :: b) = hexDigit (c.val >>> 4) :: hexDigit (c.val &&& 0xF) :: hexEncode b := by
  simp [hexEncode, hexByte]

theorem hexEncode_append (a b : List Byte) : hexEncode (a ++ b) = hexEncode a ++ hexEncode b := by
  simp [hexEncode]

theorem hexEncode_length (b : List Byte) : (hexEncode b).length = 2 * b.length := by
  induction b with
  | nil => rfl
  | cons c b ih => rw [hexEncode_cons]; simp [ih]; omega

theorem Block.slice_length (b : Block) : b.slice.length = 32 := by
  unfold Block.slice
  exact List.length_ofFn b

/-- The width 64 of `%064x` never pads the encoding of a 32-byte block. -/
theorem block_toHex_eq (b : Block) : Block.ToHex b = hexEncode b.slice := by
  have h : (hexEncode b.slice).length = 64 := by
    rw [hexEncode_length, Block.slice_length]
  unfold Block.ToHex sprintf064x
  rw [h, Nat.sub_self, List.replicate_zero, List.nil_append]

theorem block_toHex_length (b : Block) : (Block.ToHex b).length = 64 := by
  rw [block_toHex_eq, hexEncode_length, Block.slice_length]

/-- A loop that appends `f x` to a string for each `x` builds the concatenation. -/
theorem foldl_append_eq {α : Type} (f : α → List Byte) :
    ∀ (l : List α) (s : List Byte),
      l.foldl (fun s x => s ++ f x) s = s ++ l.flatMap f := by
  intro l
  induction l with
  | nil => intro s; simp
  | cons x l ih => intro s; simp [ih]

theorem foldl_blocks (l : List Block) (s : List Byte) :
    l.foldl (fun s b => s ++ Block.ToHex b) s =
      s ++ l.flatMap (fun b => hexEncode b.slice) := by
  rw [foldl_append_eq]
  have : Block.ToHex = fun b => hexEncode b.slice := funext block_toHex_eq
  rw [this]

theorem flatMap_length_const {α : Type} (f : α → List Byte) (n : Nat)
    (hf : ∀ x, (f x).length = n) :
    ∀ l : List α, (l.flatMap f).length = l.length * n := by
  intro l
  induction l with
  | nil => simp
  | cons x l ih => simp [ih, hf, Nat.succ_mul, Nat.add_comm]

theorem pubkey_toHex_eq (p : PublicKey) :
    p.ToHex = (List.ofFn p.ZeroHash).flatMap (fun b => hexEncode b.slice) ++
      (List.ofFn p.OneHash).flatMap (fun b => hexEncode b.slice) := by
  show List.foldl (fun s one => s ++ Block.ToHex one)
      (List.foldl (fun s zero => s ++ Block.ToHex zero) [] (List.ofFn p.ZeroHash))
      (List.ofFn p.OneHash) = _
  rw [foldl_blocks, foldl_blocks, List.nil_append]

theorem signature_toHex_eq (s : Signature) :
    s.ToHex = (List.ofFn s.Preimage).flatMap (fun b => hexEncode b.slice) := by
  show List.foldl (fun s b => s ++ Block.ToHex b) [] (List.ofFn s.Preimage) = _
  rw [foldl_blocks, List.nil_append]

theorem blocks_hex_length (arr : Fin 256 → Block) :
    ((List.ofFn arr).flatMap (fun b => hexEncode b.slice)).length = 16384 := by
  rw [flatMap_length_const _ 64 (fun b => by rw [hexEncode_length, Block.slice_length]),
    List.length_ofFn]

theorem pubkey_toHex_length (p : PublicKey) : p.ToHex.length = 32768 := by
  rw [pubkey_toHex_eq, List.length_append, blocks_hex_length, blocks_hex_length]

theorem signature_toHex_length (s : Signature) : s.ToHex.length = 16384 := by
  rw [signature_toHex_eq, blocks_hex_length]

theorem hexDigit_val (n : Nat) (hn : n < 16) :
    (hexDigit n).val = if n < 10 then 48 + n else 87 + n := by
  unfold hexDigit toByte
  split <;> simp <;> omega

theorem hexDigit_lowercase_of_lt (n : Nat) (hn : n < 16) :
    (48 ≤ (hexDigit n).val ∧ (hexDigit n).val ≤ 57) ∨
      (97 ≤ (hexDigit n).val ∧ (hexDigit n).val ≤ 102) := by
  rw [hexDigit_val n hn]
  split <;> omega

theorem high_nibble_lt (c : Byte) : c.val >>> 4 < 16 := by
  have := c.isLt
  rw [Nat.shiftRight_eq_div_pow]
  omega

theorem low_nibble_lt (c : Byte) : c.val &&& 0xF < 16 := by
  have h := Nat.and_pow_two_sub_one_eq_mod c.val 4
  have e : (2 ^ 4 - 1 : Nat) = 0xF := by decide
  rw [e] at h
  rw [h]
  exact Nat.mod_lt _ (by decide)

/-- Every character written by `%x` is one of `0123456789abcdef`. -/
theorem hexDigit_lowercase (c : Byte) :
    ((48 ≤ (hexDigit (c.val >>> 4)).val ∧ (hexDigit (c.val >>> 4)).val ≤ 57) ∨
      (97 ≤ (hexDigit (c.val >>> 4)).val ∧ (hexDigit (c.val >>> 4)).val ≤ 102)) ∧
    ((48 ≤ (hexDigit (c.val &&& 0xF)).val ∧ (hexDigit (c.val &&& 0xF)).val ≤ 57) ∨
      (97 ≤ (hexDigit (c.val &&& 0xF)).val ∧ (hexDigit (c.val &&& 0xF)).val ≤ 102)) :=
  ⟨hexDigit_lowercase_of_lt _ (high_nibble_lt c), hexDigit_lowercase_of_lt _ (low_nibble_lt c)⟩

theorem hexEncode_lowercase (b : List Byte) :
    ∀ c ∈ hexEncode b, (48 ≤ c.val ∧ c.val ≤ 57) ∨ (97 ≤ c.val ∧ c.val ≤ 102) := by
  induction b with
  | nil => intro c hc; simp [hexEncode_nil] at hc
  | cons x b ih =>
    intro c hc
    rw [hexEncode_cons] at hc
    rcases List.mem_cons.mp hc with rfl | hc
    · exact (hexDigit_lowercase x).1
    · rcases List.mem_cons.mp hc with rfl | hc
      · exact (hexDigit_lowercase x).2
      · exact ih c hc

/-- The decoding table maps the character of a nibble back to the nibble. -/
theorem reverseHexTable_hexDigit_of_lt (n : Nat) (hn : n < 16) :
    reverseHexTable (hexDigit n) = toByte n := by
  have h := hexDigit_val n hn
  unfold reverseHexTable
  apply Fin.ext
  by_cases h10 : n < 10
  · rw [if_pos h10] at h
    have c1 : 48 ≤ (hexDigit n).val ∧ (hexDigit n).val ≤ 57 := by omega
    rw [if_pos c1]
    simp only [toByte, h]
    omega
  · rw [if_neg h10] at h
    have c1 : ¬ (48 ≤ (hexDigit n).val ∧ (hexDigit n).val ≤ 57) := by omega
    have c2 : 97 ≤ (hexDigit n).val ∧ (hexDigit n).val ≤ 102 := by omega
    rw [if_neg c1, if_pos c2]
    simp only [toByte, h]
    omega

set_option maxRecDepth 100000 in
/-- A number below 256 is its high nibble shifted left by four, or-ed with its
low nibble. -/
theorem nat_nibbles : ∀ c : Fin 256,
    ((((c.val >>> 4) % 256) <<< 4) % 256 ||| (c.val &&& 0xF) % 256) % 256 = c.val := by
  decide

/-- Decoding the two characters of an encoded byte gives the byte back. -/
theorem reverseHexTable_hexDigit (c : Byte) :
    ¬ reverseHexTable (hexDigit (c.val >>> 4)) > 0x0f ∧
    ¬ reverseHexTable (hexDigit (c.val &&& 0xF)) > 0x0f ∧
    (reverseHexTable (hexDigit (c.val >>> 4)) <<< 4) |||
      reverseHexTable (hexDigit (c.val &&& 0xF)) = c := by
  have hh := high_nibble_lt c
  have hl := low_nibble_lt c
  rw [reverseHexTable_hexDigit_of_lt _ hh, reverseHexTable_hexDigit_of_lt _ hl]
  have e15 : ((0x0f : Byte)).val = 15 := rfl
  refine ⟨?_, ?_, ?_⟩
  · rw [gt_iff_lt, Fin.lt_def, toByte_val, e15]; omega
  · rw [gt_iff_lt, Fin.lt_def, toByte_val, e15]; omega
  · apply Fin.ext
    exact nat_nibbles c

/-- The call `hex.DecodeString` inverts the `%x` encoding. -/
theorem hexDecodeString_hexEncode (b : List Byte) :
    hexDecodeString (hexEncode b) = (b, none) := by
  induction b with
  | nil => rfl
  | cons c b ih =>
    obtain ⟨h1, h2, h3⟩ := reverseHexTable_hexDigit c
    rw [hexEncode_cons, hexDecodeString]
    simp only [if_neg h1, if_neg h2, ih, h3]

theorem BlockFromByteSlice_slice (b : Block) : BlockFromByteSlice b.slice = b := by
  funext k
  have hk : k.val < (List.ofFn b).length := by rw [List.length_ofFn]; exact k.isLt
  simp only [BlockFromByteSlice, copyToBlock, Block.slice, dif_pos hk, List.get_eq_getElem,
    List.getElem_ofFn]

/-- The block-reading loop on a buffer that starts with the bytes of the blocks
`f i`, for the indices `i` visited, stores exactly those blocks and leaves the
rest of the buffer unread. -/
theorem readBlocks_flatMap (f : Fin 256 → Block) :
    ∀ (is : List (Fin 256)) (arr : Fin 256 → Block) (rest : List Byte),
      readBlocks is arr (is.flatMap (fun i => (f i).slice) ++ rest) =
        (fun k => if k ∈ is then f k else arr k, rest) := by
  intro is
  induction is with
  | nil => intro arr rest; simp [readBlocks]
  | cons i is ih =>
    intro arr rest
    have htake : List.take 32 ((f i).slice ++ (is.flatMap (fun i => (f i).slice) ++ rest)) =
        (f i).slice := List.take_left' (Block.slice_length _)
    have hdrop : List.drop 32 ((f i).slice ++ (is.flatMap (fun i => (f i).slice) ++ rest)) =
        is.flatMap (fun i => (f i).slice) ++ rest := List.drop_left' (Block.slice_length _)
    rw [List.flatMap_cons, List.append_assoc, readBlocks]
    simp only [bufferNext, htake, hdrop, BlockFromByteSlice_slice, ih]
    congr 1
    funext k
    by_cases hk : k ∈ is
    · simp [hk]
    · by_cases hki : k = i
      · subst hki
        simp [hk]
      · simp [hk, hki, Function.update_noteq hki]

theorem readBlocks_finRange (f arr : Fin 256 → Block) (rest : List Byte) :
    readBlocks (List.finRange 256) arr
        ((List.finRange 256).flatMap (fun i => (f i).slice) ++ rest) = (f, rest) := by
  have h : (fun k => if k ∈ List.finRange 256 then f k else arr k) = f :=
    funext fun k => if_pos (List.mem_finRange k)
  rw [readBlocks_flatMap, h]

/-- The hex text of an array of blocks is the hex encoding of all its bytes. -/
theorem blocks_hex_eq (arr : Fin 256 → Block) :
    (List.ofFn arr).flatMap (fun b => hexEncode b.slice) =
      hexEncode ((List.finRange 256).flatMap (fun i => (arr i).slice)) := by
  rw [List.ofFn_eq_map, List.flatMap_map]
  simp only [hexEncode, List.flatMap_assoc]

/-! ## Claims on the text encodings -/

theorem HexToPubkey_decoded (s bts : List Byte) (hlen : s.length = 32768)
    (hdec : hexDecodeString s = (bts, none)) :
    HexToPubkey s =
      (⟨(readBlocks (List.finRange 256) PublicKey.zero.ZeroHash bts).1,
        (readBlocks (List.finRange 256) PublicKey.zero.OneHash
          (readBlocks (List.finRange 256) PublicKey.zero.ZeroHash bts).2).1⟩, none) := by
  have h : ¬ s.length ≠ 256 * 2 * 64 := by rw [hlen]; decide
  unfold HexToPubkey
  rw [if_neg h]
  simp only [hdec]

theorem HexToSignature_decoded (s bts : List Byte) (hlen : s.length = 16384)
    (hdec : hexDecodeString s = (bts, none)) :
    HexToSignature s =
      (⟨(readBlocks (List.finRange 256) Signature.zero.Preimage bts).1⟩, none) := by
  have h : ¬ s.length ≠ 256 * 64 := by rw [hlen]; decide
  unfold HexToSignature
  rw [if_neg h]
  simp only [hdec]

/-- C5: decoding undoes encoding: for every public key `p`,
`HexToPubkey(p.ToHex())` returns `(p, nil)`, and for every signature `s`,
`HexToSignature(s.ToHex())` returns `(s, nil)`. -/
theorem hex_roundtrip (p : PublicKey) (s : Signature) :
    HexToPubkey p.ToHex = (p, none) ∧ HexToSignature s.ToHex = (s, none) := by
  constructor
  · have hdec : hexDecodeString p.ToHex =
        ((List.finRange 256).flatMap (fun i => (p.ZeroHash i).slice) ++
          ((List.finRange 256).flatMap (fun i => (p.OneHash i).slice) ++ []), none) := by
      rw [pubkey_toHex_eq, blocks_hex_eq, blocks_hex_eq, ← hexEncode_append,
        hexDecodeString_hexEncode, List.append_nil]
    rw [HexToPubkey_decoded _ _ (pubkey_toHex_length p) hdec, readBlocks_finRange,
      readBlocks_finRange]
  · have hdec : hexDecodeString s.ToHex =
        ((List.finRange 256).flatMap (fun i => (s.Preimage i).slice) ++ [], none) := by
      rw [signature_toHex_eq, blocks_hex_eq, hexDecodeString_hexEncode, List.append_nil]
    rw [HexToSignature_decoded _ _ (signature_toHex_length s) hdec, readBlocks_finRange]

/-- C6: for every public key `p`, `p.ToHex()` is the concatenation of the hex
encodings of `ZeroHash[0..255]` followed by those of `OneHash[0..255]` and has
exactly 32768 characters; for every signature `s`, `s.ToHex()` is the
concatenation of the hex encodings of `Preimage[0..255]` and has exactly 16384
characters; the encoding of each block has 64 characters, all of them among
`0123456789abcdef`. -/
theorem toHex_layout (p : PublicKey) (s : Signature) :
    p.ToHex = (List.ofFn p.ZeroHash).flatMap (fun b => hexEncode b.slice) ++
        (List.ofFn p.OneHash).flatMap (fun b => hexEncode b.slice) ∧
    p.ToHex.length = 32768 ∧
    s.ToHex = (List.ofFn s.Preimage).flatMap (fun b => hexEncode b.slice) ∧
    s.ToHex.length = 16384 ∧
    ∀ b : Block, Block.ToHex b = hexEncode b.slice ∧ (hexEncode b.slice).length = 64 ∧
      ∀ c ∈ hexEncode b.slice, (48 ≤ c.val ∧ c.val ≤ 57) ∨ (97 ≤ c.val ∧ c.val ≤ 102) :=
  ⟨pubkey_toHex_eq p, pubkey_toHex_length p, signature_toHex_eq s,
    signature_toHex_length s,
    fun b => ⟨block_toHex_eq b, by rw [hexEncode_length, Block.slice_length],
      hexEncode_lowercase b.slice⟩⟩

/-- The decoding table rejects exactly the bytes that are not hex digits
(`0-9`, `a-f`, `A-F`). -/
theorem reverseHexTable_invalid_iff (c : Byte) :
    reverseHexTable c > 0x0f ↔
      ¬ ((48 ≤ c.val ∧ c.val ≤ 57) ∨ (97 ≤ c.val ∧ c.val ≤ 102) ∨
        (65 ≤ c.val ∧ c.val ≤ 70)) := by
  have e15 : ((0x0f : Byte)).val = 15 := rfl
  have eff : ((0xff : Byte)).val = 255 := rfl
  have hc := c.isLt
  unfold reverseHexTable
  rw [gt_iff_lt, Fin.lt_def, e15]
  split_ifs with h1 h2 h3
  · rw [toByte_val]; omega
  · rw [toByte_val]; omega
  · rw [toByte_val]; omega
  · rw [eff]; omega

/-- The call `hex.DecodeString` succeeds exactly on the strings of even length
all of whose characters are accepted by the decoding table. -/
theorem hexDecodeString_err_none : ∀ s : List Byte,
    (hexDecodeString s).2 = none ↔
      (s.length % 2 = 0 ∧ ∀ c ∈ s, ¬ reverseHexTable c > 0x0f)
  | [] => by simp [hexDecodeString]
  | [p] => by
    rw [hexDecodeString]
    split <;> simp
  | p :: q :: rest => by
    have ih := hexDecodeString_err_none rest
    rw [hexDecodeString]
    by_cases ha : reverseHexTable p > 0x0f
    · simp [ha]
    · by_cases hb : reverseHexTable q > 0x0f
      · simp [ha, hb]
      · simp only [if_neg ha, if_neg hb, ih, List.length_cons, List.forall_mem_cons]
        constructor
        · rintro ⟨h1, h2⟩
          exact ⟨by omega, ha, hb, h2⟩
        · rintro ⟨h1, _, _, h2⟩
          exact ⟨by omega, h2⟩

theorem hexDecodeString_err_iff (s : List Byte) (hlen : s.length % 2 = 0) :
    (hexDecodeString s).2 ≠ none ↔
      ∃ c ∈ s, ¬ ((48 ≤ c.val ∧ c.val ≤ 57) ∨ (97 ≤ c.val ∧ c.val ≤ 102) ∨
        (65 ≤ c.val ∧ c.val ≤ 70)) := by
  rw [Ne, hexDecodeString_err_none]
  constructor
  · intro h
    by_contra hno
    apply h
    refine ⟨hlen, fun c hc hbad => hno ⟨c, hc, (reverseHexTable_invalid_iff c).mp hbad⟩⟩
  · rintro ⟨c, hc, hbad⟩ ⟨_, hall⟩
    exact hall c hc ((reverseHexTable_invalid_iff c).mpr hbad)

theorem HexToPubkey_err (s : List Byte) :
    (HexToPubkey s).2 = if s.length ≠ 32768 then some (GoError.badLength s.length 32768)
      else (hexDecodeString s).2 := by
  unfold HexToPubkey
  by_cases h : s.length ≠ 256 * 2 * 64
  · rw [if_pos h, if_pos h]
  · rw [if_neg h, if_neg h]
    cases hd : (hexDecodeString s).2 <;> simp only [hd]

theorem HexToSignature_err (s : List Byte) :
    (HexToSignature s).2 = if s.length ≠ 16384 then some (GoError.badLength s.length 16384)
      else (hexDecodeString s).2 := by
  unfold HexToSignature
  by_cases h : s.length ≠ 256 * 64
  · rw [if_pos h, if_pos h]
  · rw [if_neg h, if_neg h]
    cases hd : (hexDecodeString s).2 <;> simp only [hd]

/-- C7: `HexToPubkey(s)` returns a non-nil error if and only if `len(s) != 32768`
or `s` contains a character that is not a hex digit, and `HexToSignature(s)`
returns a non-nil error if and only if `len(s) != 16384` or `s` contains a
character that is not a hex digit; both are total functions returning a value
and an error, with no panic outcome. -/
theorem hex_decode_error_iff (s : List Byte) :
    ((HexToPubkey s).2 ≠ none ↔
      (s.length ≠ 32768 ∨
        ∃ c ∈ s, ¬ ((48 ≤ c.val ∧ c.val ≤ 57) ∨ (97 ≤ c.val ∧ c.val ≤ 102) ∨
          (65 ≤ c.val ∧ c.val ≤ 70)))) ∧
    ((HexToSignature s).2 ≠ none ↔
      (s.length ≠ 16384 ∨
        ∃ c ∈ s, ¬ ((48 ≤ c.val ∧ c.val ≤ 57) ∨ (97 ≤ c.val ∧ c.val ≤ 102) ∨
          (65 ≤ c.val ∧ c.val ≤ 70)))) := by
  constructor
  · rw [HexToPubkey_err]
    by_cases h : s.length ≠ 32768
    · rw [if_pos h]
      simp [h]
    · rw [if_neg h]
      have hl : s.length = 32768 := not_not.mp h
      rw [hexDecodeString_err_iff s (by rw [hl])]
      simp [hl]
  · rw [HexToSignature_err]
    by_cases h : s.length ≠ 16384
    · rw [if_pos h]
      simp [h]
    · rw [if_neg h]
      have hl : s.length = 16384 := not_not.mp h
      rw [hexDecodeString_err_iff s (by rw [hl])]
      simp [hl]

/-! ## Key generation -/

theorem copyToBlock_slice (dst b : Block) : copyToBlock dst b.slice = (b, 32) := by
  have hlen : b.slice.length = 32 := Block.slice_length b
  refine Prod.ext ?_ ?_
  · funext k
    have hk : k.val < (List.ofFn b).length := by rw [List.length_ofFn]; exact k.isLt
    simp only [copyToBlock, Block.slice, dif_pos hk, List.get_eq_getElem, List.getElem_ofFn]
  · simp only [copyToBlock, hlen, Nat.min_self]

/-- A round of `GenerateKey` whose first read fails returns at once. -/
theorem GenerateKey.rounds_fail_zero (Sum256 : List Byte → Block) (rnd : Nat → Draw)
    (i : Fin 256) (is : List (Fin 256)) (calls : Nat) (sec : SecretKey) (pub : PublicKey)
    (e : GoError) (h : (rnd calls).err = some e) :
    GenerateKey.rounds Sum256 rnd (i :: is) calls sec pub = (sec, pub, some e) := by
  rw [GenerateKey.rounds]
  simp only [h]

/-- A round of `GenerateKey` whose second read fails returns at once. -/
theorem GenerateKey.rounds_fail_one (Sum256 : List Byte → Block) (rnd : Nat → Draw)
    (i : Fin 256) (is : List (Fin 256)) (calls : Nat) (sec : SecretKey) (pub : PublicKey)
    (e : GoError) (h0 : (rnd calls).err = none) (h1 : (rnd (calls + 1)).err = some e) :
    GenerateKey.rounds Sum256 rnd (i :: is) calls sec pub = (sec, pub, some e) := by
  rw [GenerateKey.rounds]
  simp only [h0, h1]

/-- A round of `GenerateKey` whose two reads succeed stores the two blocks and
their hashes at position `i` and goes on. -/
theorem GenerateKey.rounds_ok (Sum256 : List Byte → Block) (rnd : Nat → Draw)
    (i : Fin 256) (is : List (Fin 256)) (calls : Nat) (sec : SecretKey) (pub : PublicKey)
    (h0 : (rnd calls).err = none) (h1 : (rnd (calls + 1)).err = none) :
    GenerateKey.rounds Sum256 rnd (i :: is) calls sec pub =
      GenerateKey.rounds Sum256 rnd is (calls + 2)
        ⟨Function.update sec.ZeroPre i (rnd calls).data,
          Function.update sec.OnePre i (rnd (calls + 1)).data⟩
        ⟨Function.update pub.ZeroHash i (Sum256 (rnd calls).data.slice),
          Function.update pub.OneHash i (Sum256 (rnd (calls + 1)).data.slice)⟩ := by
  rw [GenerateKey.rounds]
  simp only [h0, h1, copyToBlock_slice, ne_eq, not_true_eq_false, or_self, if_false]

/-- The rounds of `GenerateKey` over distinct positions `is`, when the first `r`
rounds draw successfully and round `r` (if there is one) has a failing read:
the error is nil exactly when all rounds succeeded, the positions of the first
`r` rounds hold the blocks drawn and their hashes, every other position is
untouched. -/
theorem GenerateKey.rounds_spec (Sum256 : List Byte → Block) (rnd : Nat → Draw) :
    ∀ (is : List (Fin 256)) (calls : Nat) (sec : SecretKey) (pub : PublicKey) (r : Nat),
      is.Nodup → r ≤ is.length →
      (∀ n, n < r → (rnd (calls + 2 * n)).err = none ∧ (rnd (calls + 2 * n + 1)).err = none) →
      (r < is.length →
        (rnd (calls + 2 * r)).err ≠ none ∨ (rnd (calls + 2 * r + 1)).err ≠ none) →
      ((GenerateKey.rounds Sum256 rnd is calls sec pub).2.2 = none ↔ r = is.length) ∧
      (∀ (n : Nat) (hn : n < is.length), n < r →
        (GenerateKey.rounds Sum256 rnd is calls sec pub).1.ZeroPre (is.get ⟨n, hn⟩) =
          (rnd (calls + 2 * n)).data ∧
        (GenerateKey.rounds Sum256 rnd is calls sec pub).1.OnePre (is.get ⟨n, hn⟩) =
          (rnd (calls + 2 * n + 1)).data ∧
        (GenerateKey.rounds Sum256 rnd is calls sec pub).2.1.ZeroHash (is.get ⟨n, hn⟩) =
          Sum256 (rnd (calls + 2 * n)).data.slice ∧
        (GenerateKey.rounds Sum256 rnd is calls sec pub).2.1.OneHash (is.get ⟨n, hn⟩) =
          Sum256 (rnd (calls + 2 * n + 1)).data.slice) ∧
      (∀ k : Fin 256, (∀ (n : Nat) (hn : n < is.length), n < r → is.get ⟨n, hn⟩ ≠ k) →
        (GenerateKey.rounds Sum256 rnd is calls sec pub).1.ZeroPre k = sec.ZeroPre k ∧
        (GenerateKey.rounds Sum256 rnd is calls sec pub).1.OnePre k = sec.OnePre k ∧
        (GenerateKey.rounds Sum256 rnd is calls sec pub).2.1.ZeroHash k = pub.ZeroHash k ∧
        (GenerateKey.rounds Sum256 rnd is calls sec pub).2.1.OneHash k = pub.OneHash k) := by
  intro is
  induction is with
  | nil =>
    intro calls sec pub r _ hr _ _
    have hr0 : r = 0 := by simpa using hr
    subst hr0
    refine ⟨by simp [GenerateKey.rounds], ?_, ?_⟩
    · intro n hn; simp at hn
    · intro k _; simp [GenerateKey.rounds]
  | cons i is ih =>
    intro calls sec pub r hnd hr hprev hfail
    have hi : i ∉ is := (List.nodup_cons.mp hnd).1
    have hnd' : is.Nodup := (List.nodup_cons.mp hnd).2
    cases r with
    | zero =>
      have hf := hfail (by simp)
      simp only [Nat.mul_zero, Nat.add_zero] at hf
      have hR : ∃ e, GenerateKey.rounds Sum256 rnd (i :: is) calls sec pub = (sec, pub, some e) := by
        cases h0 : (rnd calls).err with
        | some e => exact ⟨e, GenerateKey.rounds_fail_zero Sum256 rnd i is calls sec pub e h0⟩
        | none =>
          cases h1 : (rnd (calls + 1)).err with
          | some e => exact ⟨e, GenerateKey.rounds_fail_one Sum256 rnd i is calls sec pub e h0 h1⟩
          | none =>
            rcases hf with hf | hf
            · exact absurd h0 hf
            · exact absurd h1 hf
      obtain ⟨e, hR⟩ := hR
      rw [hR]
      refine ⟨by simp, ?_, ?_⟩
      · intro n _ hn; omega
      · intro k _; exact ⟨rfl, rfl, rfl, rfl⟩
    | succ r =>
      have h0 := hprev 0 (by omega)
      simp only [Nat.mul_zero, Nat.add_zero] at h0
      rw [GenerateKey.rounds_ok Sum256 rnd i is calls sec pub h0.1 h0.2]
      have hr' : r ≤ is.length := by simpa using hr
      have hprev' : ∀ n, n < r → (rnd (calls + 2 + 2 * n)).err = none ∧
          (rnd (calls + 2 + 2 * n + 1)).err = none := by
        intro n hn
        have h := hprev (n + 1) (by omega)
        have e1 : calls + 2 * (n + 1) = calls + 2 + 2 * n := by omega
        rw [e1] at h
        exact h
      have hfail' : r < is.length →
          (rnd (calls + 2 + 2 * r)).err ≠ none ∨ (rnd (calls + 2 + 2 * r + 1)).err ≠ none := by
        intro hlt
        have h := hfail (by simpa using hlt)
        have e1 : calls + 2 * (r + 1) = calls + 2 + 2 * r := by omega
        rw [e1] at h
        exact h
      obtain ⟨ha, hb, hc⟩ := ih (calls + 2)
        ⟨Function.update sec.ZeroPre i (rnd calls).data,
          Function.update sec.OnePre i (rnd (calls + 1)).data⟩
        ⟨Function.update pub.ZeroHash i (Sum256 (rnd calls).data.slice),
          Function.update pub.OneHash i (Sum256 (rnd (calls + 1)).data.slice)⟩
        r hnd' hr' hprev' hfail'
      refine ⟨?_, ?_, ?_⟩
      · rw [ha]; simp
      · intro n hn hnr
        cases n with
        | zero =>
          have hci := hc i (fun m hm _ heq => hi (heq ▸ List.get_mem is m hm))
          simp only [Function.update_same] at hci
          simpa using hci
        | succ m =>
          have hm : m < is.length := by simpa using hn
          have h := hb m hm (by omega)
          have e1 : calls + 2 * (m + 1) = calls + 2 + 2 * m := by omega
          rw [e1]
          simpa using h
      · intro k hk
        have hik : k ≠ i := by
          intro heq
          exact hk 0 (by simp) (by omega) (by simp [heq])
        have hk' : ∀ (n : Nat) (hn : n < is.length), n < r → is.get ⟨n, hn⟩ ≠ k := by
          intro n hn hnr
          have := hk (n + 1) (by simpa using hn) (by omega)
          simpa using this
        have h := hc k hk'
        simp only [Function.update_noteq hik] at h
        exact h

/-- The whole of `GenerateKey` when the first `r` rounds draw successfully and
round `r` (if `r < 256`) has a failing read. -/
theorem GenerateKey.spec (Sum256 : List Byte → Block) (rnd : Nat → Draw) (r : Nat)
    (hr : r ≤ 256)
    (hprev : ∀ n, n < 2 * r → (rnd n).err = none)
    (hfail : r < 256 → (rnd (2 * r)).err ≠ none ∨ (rnd (2 * r + 1)).err ≠ none) :
    ((GenerateKey Sum256 rnd).2.2 = none ↔ r = 256) ∧
    (∀ i : Fin 256, i.val < r →
      (GenerateKey Sum256 rnd).1.ZeroPre i = (rnd (2 * i.val)).data ∧
      (GenerateKey Sum256 rnd).1.OnePre i = (rnd (2 * i.val + 1)).data ∧
      (GenerateKey Sum256 rnd).2.1.ZeroHash i = Sum256 (rnd (2 * i.val)).data.slice ∧
      (GenerateKey Sum256 rnd).2.1.OneHash i = Sum256 (rnd (2 * i.val + 1)).data.slice) ∧
    (∀ i : Fin 256, r ≤ i.val →
      (GenerateKey Sum256 rnd).1.ZeroPre i = Block.zero ∧
      (GenerateKey Sum256 rnd).1.OnePre i = Block.zero ∧
      (GenerateKey Sum256 rnd).2.1.ZeroHash i = Block.zero ∧
      (GenerateKey Sum256 rnd).2.1.OneHash i = Block.zero) := by
  have hlen : (List.finRange 256).length = 256 := List.length_finRange 256
  have hget : ∀ (n : Nat) (hn : n < (List.finRange 256).length),
      (List.finRange 256).get ⟨n, hn⟩ = ⟨n, by rw [hlen] at hn; exact hn⟩ := by
    intro n hn
    simp only [List.get_eq_getElem, List.getElem_finRange]
    rfl
  obtain ⟨ha, hb, hc⟩ := GenerateKey.rounds_spec Sum256 rnd (List.finRange 256) 0
    SecretKey.zero PublicKey.zero r (List.nodup_finRange 256) (by rw [hlen]; exact hr)
    (fun n hn => by
      rw [Nat.zero_add]
      exact ⟨hprev _ (by omega), hprev _ (by omega)⟩)
    (fun hlt => by
      rw [Nat.zero_add]
      exact hfail (by rw [hlen] at hlt; exact hlt))
  refine ⟨?_, ?_, ?_⟩
  · rw [GenerateKey, ha, hlen]
  · intro i hi
    have h := hb i.val (by rw [hlen]; exact i.isLt) hi
    have hgi : (List.finRange 256).get ⟨i.val, by rw [hlen]; exact i.isLt⟩ = i := by
      rw [hget]
    rw [hgi, Nat.zero_add] at h
    simp only [GenerateKey]
    exact h
  · intro i hi
    have h := hc i (fun n hn hnr heq => by
      rw [hget] at heq
      have : n = i.val := congrArg Fin.val heq
      omega)
    simp only [GenerateKey]
    exact h

/-- If some read among the first 512 fails, there is a first failing round. -/
theorem GenerateKey.first_failing_round (rnd : Nat → Draw)
    (h : ∃ n, n < 512 ∧ (rnd n).err ≠ none) :
    ∃ r, r < 256 ∧ (∀ n, n < 2 * r → (rnd n).err = none) ∧
      ((rnd (2 * r)).err ≠ none ∨ (rnd (2 * r + 1)).err ≠ none) := by
  classical
  have hex : ∃ r, r < 256 ∧ ((rnd (2 * r)).err ≠ none ∨ (rnd (2 * r + 1)).err ≠ none) := by
    obtain ⟨n, hn, he⟩ := h
    refine ⟨n / 2, by omega, ?_⟩
    rcases Nat.mod_two_eq_zero_or_one n with h2 | h2
    · left
      have : 2 * (n / 2) = n := by omega
      rwa [this]
    · right
      have : 2 * (n / 2) + 1 = n := by omega
      rwa [this]
  refine ⟨Nat.find hex, (Nat.find_spec hex).1, ?_, (Nat.find_spec hex).2⟩
  intro n hn
  have hmin := Nat.find_min hex (m := n / 2) (by omega)
  have hlt : n / 2 < 256 := by
    have := (Nat.find_spec hex).1
    omega
  by_contra hne
  apply hmin
  refine ⟨hlt, ?_⟩
  rcases Nat.mod_two_eq_zero_or_one n with h2 | h2
  · left
    have : 2 * (n / 2) = n := by omega
    rwa [this]
  · right
    have : 2 * (n / 2) + 1 = n := by omega
    rwa [this]

/-! ## Claims on key generation -/

/-- C8: whenever `GenerateKey` returns a nil error, all 512 reads of the random
source succeeded, the returned keys satisfy `pub.ZeroHash[i] = Hash(sec.ZeroPre[i])`
and `pub.OneHash[i] = Hash(sec.OnePre[i])` for every `i`, and the 512 secret
blocks are exactly the 512 values drawn, each draw used once: draw `2*i` is
`sec.ZeroPre[i]` and draw `2*i+1` is `sec.OnePre[i]`. -/
theorem generateKey_success (Sum256 : List Byte → Block) (rnd : Nat → Draw)
    (h : (GenerateKey Sum256 rnd).2.2 = none) :
    (∀ n, n < 512 → (rnd n).err = none) ∧
    ∀ i : Fin 256,
      (GenerateKey Sum256 rnd).1.ZeroPre i = (rnd (2 * i.val)).data ∧
      (GenerateKey Sum256 rnd).1.OnePre i = (rnd (2 * i.val + 1)).data ∧
      (GenerateKey Sum256 rnd).2.1.ZeroHash i =
        Block.Hash Sum256 ((GenerateKey Sum256 rnd).1.ZeroPre i) ∧
      (GenerateKey Sum256 rnd).2.1.OneHash i =
        Block.Hash Sum256 ((GenerateKey Sum256 rnd).1.OnePre i) := by
  have hall : ∀ n, n < 512 → (rnd n).err = none := by
    by_contra hno
    have hex : ∃ n, n < 512 ∧ (rnd n).err ≠ none := by
      by_contra hne
      exact hno (fun n hn => by
        by_contra hbad
        exact hne ⟨n, hn, hbad⟩)
    obtain ⟨r, hr, hprev, hfail⟩ := GenerateKey.first_failing_round rnd hex
    have hs := (GenerateKey.spec Sum256 rnd r (by omega) hprev (fun _ => hfail)).1
    have : r = 256 := hs.mp h
    omega
  refine ⟨hall, fun i => ?_⟩
  obtain ⟨_, hb, _⟩ := GenerateKey.spec Sum256 rnd 256 (by omega) (fun n hn => hall n (by omega))
    (fun hlt => absurd hlt (by omega))
  obtain ⟨h1, h2, h3, h4⟩ := hb i i.isLt
  refine ⟨h1, h2, ?_, ?_⟩
  · rw [h3, h1]; rfl
  · rw [h4, h2]; rfl

/-- C8 at a random source that never fails. -/
theorem generateKey_success_witness :
    (GenerateKey toyHash steadyRand).2.2 = none ∧
    (GenerateKey toyHash steadyRand).1.ZeroPre 7 = (steadyRand 14).data ∧
    (GenerateKey toyHash steadyRand).2.1.OneHash 7 =
      Block.Hash toyHash ((GenerateKey toyHash steadyRand).1.OnePre 7) :=
  have h : (GenerateKey toyHash steadyRand).2.2 = none :=
    ((GenerateKey.spec toyHash steadyRand 256 (Nat.le_refl _) (fun _ _ => rfl)
      (fun hlt => absurd hlt (by decide))).1).mpr rfl
  ⟨h, ((generateKey_success toyHash steadyRand h).2 7).1,
    ((generateKey_success toyHash steadyRand h).2 7).2.2.2⟩

/-- C9 as stated fails: when the two reads of round 0 succeed and a read of
round 1 fails, `GenerateKey` returns a non-nil error together with keys that
hold the material of round 0: `sec.ZeroPre[0]` is the block drawn and
`pub.ZeroHash[0]` its hash, so neither returned key is the all-zero value. -/
theorem generateKey_keeps_completed_rounds :
    (failingRand 2).err ≠ none ∧
    (GenerateKey toyHash failingRand).2.2 ≠ none ∧
    (GenerateKey toyHash failingRand).1.ZeroPre 0 = (fun _ => 1) ∧
    (GenerateKey toyHash failingRand).1 ≠ SecretKey.zero ∧
    (GenerateKey toyHash failingRand).2.1 ≠ PublicKey.zero := by
  have hs := GenerateKey.spec toyHash failingRand 1 (by decide)
    (fun n hn => by
      have : n = 0 ∨ n = 1 := by omega
      rcases this with rfl | rfl <;> rfl)
    (fun _ => Or.inl (by decide))
  obtain ⟨ha, hb, _⟩ := hs
  obtain ⟨h1, _, h3, _⟩ := hb 0 (by decide)
  have hz : (GenerateKey toyHash failingRand).1.ZeroPre 0 = (fun _ => 1) := h1
  refine ⟨by decide, fun h => absurd (ha.mp h) (by decide), hz, ?_, ?_⟩
  · intro heq
    have := congrFun (congrFun (congrArg SecretKey.ZeroPre heq) 0) 0
    rw [hz] at this
    exact absurd this (by decide)
  · intro heq
    have := congrFun (congrFun (congrArg PublicKey.ZeroHash heq) 0) 0
    rw [h3] at this
    exact absurd this (by decide)

/-- C9, amended: if a read of the random source fails in round `r` of
`GenerateKey` and every read of the earlier rounds succeeded, `GenerateKey`
returns a non-nil error; the returned `SecretKey` and `PublicKey` are all-zero at
every position `i ≥ r` and hold the blocks drawn in the completed rounds, and
their hashes, at the positions `i < r`.  In particular they are the all-zero
values when the failure occurs in round 0. -/
theorem generateKey_failure (Sum256 : List Byte → Block) (rnd : Nat → Draw) (r : Nat)
    (hr : r < 256)
    (hprev : ∀ n, n < 2 * r → (rnd n).err = none)
    (hfail : (rnd (2 * r)).err ≠ none ∨ (rnd (2 * r + 1)).err ≠ none) :
    (GenerateKey Sum256 rnd).2.2 ≠ none ∧
    (∀ i : Fin 256, r ≤ i.val →
      (GenerateKey Sum256 rnd).1.ZeroPre i = Block.zero ∧
      (GenerateKey Sum256 rnd).1.OnePre i = Block.zero ∧
      (GenerateKey Sum256 rnd).2.1.ZeroHash i = Block.zero ∧
      (GenerateKey Sum256 rnd).2.1.OneHash i = Block.zero) ∧
    (∀ i : Fin 256, i.val < r →
      (GenerateKey Sum256 rnd).1.ZeroPre i = (rnd (2 * i.val)).data ∧
      (GenerateKey Sum256 rnd).1.OnePre i = (rnd (2 * i.val + 1)).data ∧
      (GenerateKey Sum256 rnd).2.1.ZeroHash i = Block.Hash Sum256 (rnd (2 * i.val)).data ∧
      (GenerateKey Sum256 rnd).2.1.OneHash i = Block.Hash Sum256 (rnd (2 * i.val + 1)).data) ∧
    (r = 0 → (GenerateKey Sum256 rnd).1 = SecretKey.zero ∧
      (GenerateKey Sum256 rnd).2.1 = PublicKey.zero) := by
  obtain ⟨ha, hb, hc⟩ := GenerateKey.spec Sum256 rnd r (by omega) hprev (fun _ => hfail)
  refine ⟨fun h => ?_, hc, hb, fun h0 => ?_⟩
  · have := ha.mp h
    omega
  · subst h0
    constructor
    · apply SecretKey.ext
      · funext i; exact (hc i (Nat.zero_le _)).1
      · funext i; exact (hc i (Nat.zero_le _)).2.1
    · apply PublicKey.ext
      · funext i; exact (hc i (Nat.zero_le _)).2.2.1
      · funext i; exact (hc i (Nat.zero_le _)).2.2.2

/-- C9 (amended) at a random source that fails in round 1. -/
theorem generateKey_failure_witness :
    (failingRand 2).err ≠ none ∧
    (GenerateKey toyHash failingRand).2.2 ≠ none ∧
    (GenerateKey toyHash failingRand).1.OnePre 1 = Block.zero ∧
    (GenerateKey toyHash failingRand).1.OnePre 0 = (failingRand 1).data :=
  have h := generateKey_failure toyHash failingRand 1 (by decide)
    (fun n hn => by
      have : n = 0 ∨ n = 1 := by omega
      rcases this with rfl | rfl <;> rfl)
    (Or.inl (by decide))
  ⟨by decide, h.1, (h.2.1 1 (Nat.le_refl _)).2.1, (h.2.2.1 0 (by decide)).2.1⟩

/-! ## Forgery: harvest, coverage, search and assembly -/

theorem GoMap.has_empty (k : Nat) : GoMap.empty.has k = false := rfl

theorem GoMap.has_set (m : GoMap) (k k' : Nat) (v : Bool) :
    (m.set k v).has k' = if k' = k then true else m.has k' := by
  unfold GoMap.has GoMap.set
  by_cases h : k' = k
  · rw [if_pos h, h, Function.update_same]; rfl
  · rw [if_neg h, Function.update_noteq h]

theorem Harvest.init_sound (Sum256 : List Byte → Block) (pub : PublicKey) :
    Harvest.Sound Sum256 pub Harvest.init := by
  intro i
  constructor <;> intro h <;> simp [Harvest.init, GoMap.has_empty] at h

/-- The step of a harvest loop at a block hashing to the zero commitment. -/
theorem Forge.harvestSig_zero (Sum256 : List Byte → Block) (pub : PublicKey) (sigNo : Nat)
    (sig : Signature) (idx : Fin 256) (rest : List (Fin 256)) (h : Harvest)
    (hz : Block.Hash Sum256 (sig.Preimage idx) = pub.ZeroHash idx) :
    Forge.harvestSig Sum256 pub sigNo sig (idx :: rest) h =
      Forge.harvestSig Sum256 pub sigNo sig rest
        ⟨⟨Function.update h.privateKey.ZeroPre idx (sig.Preimage idx), h.privateKey.OnePre⟩,
          h.zeroPreIsRevealed.set idx.val true, h.OnePreIsRevealed⟩ := by
  rw [Forge.harvestSig]
  simp only [if_pos hz]

/-- The step of a harvest loop at a block hashing to the one commitment only. -/
theorem Forge.harvestSig_one (Sum256 : List Byte → Block) (pub : PublicKey) (sigNo : Nat)
    (sig : Signature) (idx : Fin 256) (rest : List (Fin 256)) (h : Harvest)
    (hz : ¬ Block.Hash Sum256 (sig.Preimage idx) = pub.ZeroHash idx)
    (ho : Block.Hash Sum256 (sig.Preimage idx) = pub.OneHash idx) :
    Forge.harvestSig Sum256 pub sigNo sig (idx :: rest) h =
      Forge.harvestSig Sum256 pub sigNo sig rest
        ⟨⟨h.privateKey.ZeroPre, Function.update h.privateKey.OnePre idx (sig.Preimage idx)⟩,
          h.zeroPreIsRevealed, h.OnePreIsRevealed.set idx.val true⟩ := by
  rw [Forge.harvestSig]
  simp only [if_neg hz, if_pos ho]

/-- The step of a harvest loop at a block hashing to neither commitment. -/
theorem Forge.harvestSig_none (Sum256 : List Byte → Block) (pub : PublicKey) (sigNo : Nat)
    (sig : Signature) (idx : Fin 256) (rest : List (Fin 256)) (h : Harvest)
    (hz : ¬ Block.Hash Sum256 (sig.Preimage idx) = pub.ZeroHash idx)
    (ho : ¬ Block.Hash Sum256 (sig.Preimage idx) = pub.OneHash idx) :
    Forge.harvestSig Sum256 pub sigNo sig (idx :: rest) h =
      Except.error (GoPanic.noMatch sigNo idx.val
        (Block.ToHex (Block.Hash Sum256 (sig.Preimage idx)))) := by
  rw [Forge.harvestSig]
  simp only [if_neg hz, if_neg ho]

/-- A harvest loop that ends without panic: every visited block matched a
commitment, the zero side of a position is marked exactly if it was marked
before or the block visited there hashes to the zero commitment, the one side
exactly if it was marked before or the block visited there hashes to the one
commitment and not to the zero commitment, and the harvest invariant is kept. -/
theorem Forge.harvestSig_ok (Sum256 : List Byte → Block) (pub : PublicKey) (sigNo : Nat)
    (sig : Signature) :
    ∀ (idxs : List (Fin 256)) (h h' : Harvest),
      Forge.harvestSig Sum256 pub sigNo sig idxs h = Except.ok h' →
      (∀ idx ∈ idxs, Block.Hash Sum256 (sig.Preimage idx) = pub.ZeroHash idx ∨
        Block.Hash Sum256 (sig.Preimage idx) = pub.OneHash idx) ∧
      (∀ i : Fin 256, h'.zeroPreIsRevealed.has i.val = true ↔
        (h.zeroPreIsRevealed.has i.val = true ∨
          (i ∈ idxs ∧ Block.Hash Sum256 (sig.Preimage i) = pub.ZeroHash i))) ∧
      (∀ i : Fin 256, h'.OnePreIsRevealed.has i.val = true ↔
        (h.OnePreIsRevealed.has i.val = true ∨
          (i ∈ idxs ∧ Block.Hash Sum256 (sig.Preimage i) ≠ pub.ZeroHash i ∧
            Block.Hash Sum256 (sig.Preimage i) = pub.OneHash i))) ∧
      (Harvest.Sound Sum256 pub h → Harvest.Sound Sum256 pub h') := by
  intro idxs
  induction idxs with
  | nil =>
    intro h h' hk
    rw [Forge.harvestSig] at hk
    cases hk
    simp
  | cons idx rest ih =>
    intro h h' hk
    by_cases hz : Block.Hash Sum256 (sig.Preimage idx) = pub.ZeroHash idx
    · rw [Forge.harvestSig_zero Sum256 pub sigNo sig idx rest h hz] at hk
      obtain ⟨hv, hzero, hone, hs⟩ := ih _ h' hk
      refine ⟨?_, ?_, ?_, ?_⟩
      · intro i hi
        rcases List.mem_cons.mp hi with rfl | hi
        · exact Or.inl hz
        · exact hv i hi
      · intro i
        rw [hzero i, GoMap.has_set]
        by_cases hi : i = idx
        · subst hi
          simp [hz]
        · have hv : i.val ≠ idx.val := fun e => hi (Fin.ext e)
          simp [hi, hv]
      · intro i
        rw [hone i]
        by_cases hi : i = idx
        · subst hi
          simp [hz]
        · simp [hi]
      · intro hsound
        apply hs
        intro i
        constructor
        · intro hrev
          show Block.Hash Sum256 (Function.update h.privateKey.ZeroPre idx (sig.Preimage idx) i) = _
          by_cases hi : i = idx
          · subst hi
            rw [Function.update_same, hz]
          · rw [Function.update_noteq hi]
            have hv : i.val ≠ idx.val := fun e => hi (Fin.ext e)
            have hrev' : (h.zeroPreIsRevealed.set idx.val true).has i.val = true := hrev
            rw [GoMap.has_set, if_neg hv] at hrev'
            exact (hsound i).1 hrev'
        · intro hrev
          exact (hsound i).2 hrev
    · by_cases ho : Block.Hash Sum256 (sig.Preimage idx) = pub.OneHash idx
      · rw [Forge.harvestSig_one Sum256 pub sigNo sig idx rest h hz ho] at hk
        obtain ⟨hv, hzero, hone, hs⟩ := ih _ h' hk
        refine ⟨?_, ?_, ?_, ?_⟩
        · intro i hi
          rcases List.mem_cons.mp hi with rfl | hi
          · exact Or.inr ho
          · exact hv i hi
        · intro i
          rw [hzero i]
          by_cases hi : i = idx
          · subst hi
            simp [hz]
          · simp [hi]
        · intro i
          rw [hone i, GoMap.has_set]
          by_cases hi : i = idx
          · subst hi
            constructor
            · intro _
              exact Or.inr ⟨List.mem_cons_self _ _, hz, ho⟩
            · intro _
              exact Or.inl (by simp)
          · have hv : i.val ≠ idx.val := fun e => hi (Fin.ext e)
            simp [hi, hv]
        · intro hsound
          apply hs
          intro i
          constructor
          · intro hrev
            exact (hsound i).1 hrev
          · intro hrev
            show Block.Hash Sum256 (Function.update h.privateKey.OnePre idx (sig.Preimage idx) i) = _
            by_cases hi : i = idx
            · subst hi
              rw [Function.update_same, ho]
            · rw [Function.update_noteq hi]
              have hv : i.val ≠ idx.val := fun e => hi (Fin.ext e)
              have hrev' : (h.OnePreIsRevealed.set idx.val true).has i.val = true := hrev
              rw [GoMap.has_set, if_neg hv] at hrev'
              exact (hsound i).2 hrev'
      · rw [Forge.harvestSig_none Sum256 pub sigNo sig idx rest h hz ho] at hk
        cases hk

/-- A harvest loop over blocks that all match a commitment ends without panic. -/
theorem Forge.harvestSig_total (Sum256 : List Byte → Block) (pub : PublicKey) (sigNo : Nat)
    (sig : Signature) :
    ∀ (idxs : List (Fin 256)) (h : Harvest),
      (∀ idx ∈ idxs, Block.Hash Sum256 (sig.Preimage idx) = pub.ZeroHash idx ∨
        Block.Hash Sum256 (sig.Preimage idx) = pub.OneHash idx) →
      ∃ h', Forge.harvestSig Sum256 pub sigNo sig idxs h = Except.ok h' := by
  intro idxs
  induction idxs with
  | nil => intro h _; exact ⟨h, rfl⟩
  | cons idx rest ih =>
    intro h hv
    have hrest := fun i hi => hv i (List.mem_cons_of_mem _ hi)
    by_cases hz : Block.Hash Sum256 (sig.Preimage idx) = pub.ZeroHash idx
    · rw [Forge.harvestSig_zero Sum256 pub sigNo sig idx rest h hz]
      exact ih _ hrest
    · have ho : Block.Hash Sum256 (sig.Preimage idx) = pub.OneHash idx := by
        rcases hv idx (List.mem_cons_self _ _) with h1 | h1
        · exact absurd h1 hz
        · exact h1
      rw [Forge.harvestSig_one Sum256 pub sigNo sig idx rest h hz ho]
      exact ih _ hrest

theorem Forge.harvest_nil (Sum256 : List Byte → Block) (pub : PublicKey) (sigNo : Nat)
    (h : Harvest) : Forge.harvest Sum256 pub sigNo [] h = Except.ok h := by
  unfold Forge.harvest
  rw [Forge.harvestOver]

theorem Forge.harvest_cons (Sum256 : List Byte → Block) (pub : PublicKey) (sigNo : Nat)
    (sig : Signature) (sigs : List Signature) (h : Harvest) :
    Forge.harvest Sum256 pub sigNo (sig :: sigs) h =
      match Forge.harvestSig Sum256 pub sigNo sig (List.finRange 256) h with
      | Except.error e => Except.error e
      | Except.ok h1 => Forge.harvest Sum256 pub (sigNo + 1) sigs h1 := by
  unfold Forge.harvest
  rw [Forge.harvestOver]

/-- The harvest loops over all supplied signatures, when none panics. -/
theorem Forge.harvest_ok (Sum256 : List Byte → Block) (pub : PublicKey) :
    ∀ (sigs : List Signature) (sigNo : Nat) (h h' : Harvest),
      Forge.harvest Sum256 pub sigNo sigs h = Except.ok h' →
      (∀ sig ∈ sigs, ∀ i : Fin 256, Block.Hash Sum256 (sig.Preimage i) = pub.ZeroHash i ∨
        Block.Hash Sum256 (sig.Preimage i) = pub.OneHash i) ∧
      (∀ i : Fin 256, h'.zeroPreIsRevealed.has i.val = true ↔
        (h.zeroPreIsRevealed.has i.val = true ∨
          ∃ sig ∈ sigs, Block.Hash Sum256 (sig.Preimage i) = pub.ZeroHash i)) ∧
      (∀ i : Fin 256, h'.OnePreIsRevealed.has i.val = true ↔
        (h.OnePreIsRevealed.has i.val = true ∨
          ∃ sig ∈ sigs, Block.Hash Sum256 (sig.Preimage i) ≠ pub.ZeroHash i ∧
            Block.Hash Sum256 (sig.Preimage i) = pub.OneHash i)) ∧
      (Harvest.Sound Sum256 pub h → Harvest.Sound Sum256 pub h') := by
  intro sigs
  induction sigs with
  | nil =>
    intro sigNo h h' hk
    rw [Forge.harvest_nil] at hk
    cases hk
    simp
  | cons sig sigs ih =>
    intro sigNo h h' hk
    rw [Forge.harvest_cons] at hk
    cases h1 : Forge.harvestSig Sum256 pub sigNo sig (List.finRange 256) h with
    | error e => rw [h1] at hk; cases hk
    | ok hmid =>
      rw [h1] at hk
      obtain ⟨hv1, hz1, ho1, hs1⟩ := Forge.harvestSig_ok Sum256 pub sigNo sig _ h hmid h1
      obtain ⟨hv2, hz2, ho2, hs2⟩ := ih (sigNo + 1) hmid h' hk
      refine ⟨?_, ?_, ?_, fun hs => hs2 (hs1 hs)⟩
      · intro s hs i
        rcases List.mem_cons.mp hs with rfl | hs
        · exact hv1 i (List.mem_finRange i)
        · exact hv2 s hs i
      · intro i
        rw [hz2 i, hz1 i]
        constructor
        · rintro ((h0 | ⟨_, h0⟩) | ⟨s, hs, h0⟩)
          · exact Or.inl h0
          · exact Or.inr ⟨sig, List.mem_cons_self _ _, h0⟩
          · exact Or.inr ⟨s, List.mem_cons_of_mem _ hs, h0⟩
        · rintro (h0 | ⟨s, hs, h0⟩)
          · exact Or.inl (Or.inl h0)
          · rcases List.mem_cons.mp hs with rfl | hs
            · exact Or.inl (Or.inr ⟨List.mem_finRange i, h0⟩)
            · exact Or.inr ⟨s, hs, h0⟩
      · intro i
        rw [ho2 i, ho1 i]
        constructor
        · rintro ((h0 | ⟨_, h0⟩) | ⟨s, hs, h0⟩)
          · exact Or.inl h0
          · exact Or.inr ⟨sig, List.mem_cons_self _ _, h0⟩
          · exact Or.inr ⟨s, List.mem_cons_of_mem _ hs, h0⟩
        · rintro (h0 | ⟨s, hs, h0⟩)
          · exact Or.inl (Or.inl h0)
          · rcases List.mem_cons.mp hs with rfl | hs
            · exact Or.inl (Or.inr ⟨List.mem_finRange i, h0⟩)
            · exact Or.inr ⟨s, hs, h0⟩

/-- The harvest loops end without panic when every block of every supplied
signature matches one of the two commitments of its position. -/
theorem Forge.harvest_total (Sum256 : List Byte → Block) (pub : PublicKey) :
    ∀ (sigs : List Signature) (sigNo : Nat) (h : Harvest),
      (∀ sig ∈ sigs, ∀ i : Fin 256, Block.Hash Sum256 (sig.Preimage i) = pub.ZeroHash i ∨
        Block.Hash Sum256 (sig.Preimage i) = pub.OneHash i) →
      ∃ h', Forge.harvest Sum256 pub sigNo sigs h = Except.ok h' := by
  intro sigs
  induction sigs with
  | nil => intro sigNo h _; exact ⟨h, Forge.harvest_nil Sum256 pub sigNo h⟩
  | cons sig sigs ih =>
    intro sigNo h hv
    obtain ⟨hmid, h1⟩ := Forge.harvestSig_total Sum256 pub sigNo sig (List.finRange 256) h
      (fun i _ => hv sig (List.mem_cons_self _ _) i)
    obtain ⟨h', h2⟩ := ih (sigNo + 1) hmid (fun s hs => hv s (List.mem_cons_of_mem _ hs))
    refine ⟨h', ?_⟩
    rw [Forge.harvest_cons, h1]
    exact h2

/-- The coverage loop passes exactly when every visited position has a side
marked as revealed. -/
theorem Forge.coverage_ok_iff (zeroPreIsRevealed OnePreIsRevealed : GoMap) :
    ∀ ks : List (Fin 256),
      Forge.coverage zeroPreIsRevealed OnePreIsRevealed ks = Except.ok () ↔
        ∀ k ∈ ks, zeroPreIsRevealed.has k.val = true ∨ OnePreIsRevealed.has k.val = true := by
  intro ks
  induction ks with
  | nil => simp [Forge.coverage]
  | cons k ks ih =>
    rw [Forge.coverage, List.forall_mem_cons]
    by_cases hk : zeroPreIsRevealed.has k.val = true ∨ OnePreIsRevealed.has k.val = true
    · have hb : ¬ (!(zeroPreIsRevealed.has k.val || OnePreIsRevealed.has k.val)) = true := by
        rcases hk with h | h <;> simp [h]
      simp only [if_neg hb, ih]
      exact ⟨fun h => ⟨hk, h⟩, fun h => h.2⟩
    · have hb : (!(zeroPreIsRevealed.has k.val || OnePreIsRevealed.has k.val)) = true := by
        simp only [not_or, Bool.not_eq_true] at hk
        simp [hk.1, hk.2]
      simp only [if_pos hb]
      constructor
      · intro h; cases h
      · intro h; exact absurd h.1 hk

/-- The bit loop of a search worker runs to the end exactly when, at every
visited position, the side selected by the digest bit is marked as revealed. -/
theorem Forge.checkBits_accept_iff (zeroPreIsRevealed OnePreIsRevealed : GoMap) (TaskId : Nat)
    (msgBlock : Block) :
    ∀ xs : List (Fin 256),
      Forge.checkBits zeroPreIsRevealed OnePreIsRevealed TaskId msgBlock xs = Except.ok true ↔
        ∀ x ∈ xs, if bitAt msgBlock x = 0x01 then OnePreIsRevealed.has x.val = true
          else zeroPreIsRevealed.has x.val = true := by
  intro xs
  induction xs with
  | nil => simp [Forge.checkBits]
  | cons x xs ih =>
    rw [Forge.checkBits, List.forall_mem_cons]
    have hbit : bitAt msgBlock x = 0 ∨ bitAt msgBlock x = 1 := by
      simp only [bitAt, Nat.and_one_is_mod]
      omega
    by_cases hb : bitAt msgBlock x = 0x01
    · simp only [if_pos hb]
      by_cases ho : OnePreIsRevealed.has x.val = true
      · simp only [if_pos ho, ih]
        exact ⟨fun h => ⟨ho, h⟩, fun h => h.2⟩
      · simp only [if_neg ho]
        constructor
        · intro h; cases h
        · intro h; exact absurd h.1 ho
    · have h0 : ¬ bitAt msgBlock x ≠ 0x00 := by
        rcases hbit with h | h
        · simp [h]
        · exact absurd h hb
      simp only [if_neg hb, if_neg h0]
      by_cases hz : zeroPreIsRevealed.has x.val = true
      · simp only [if_pos hz, ih]
        exact ⟨fun h => ⟨hz, h⟩, fun h => h.2⟩
      · simp only [if_neg hz]
        constructor
        · intro h; cases h
        · intro h; exact absurd h.1 hz

/-- What the assembly loop stores at each position. -/
theorem Forge.assembleBits_preimage (privateKey : SecretKey) (msgBlock : Block) :
    ∀ (xs : List (Fin 256)) (sig : Signature) (k : Fin 256),
      (Forge.assembleBits privateKey msgBlock xs sig).Preimage k =
        if k ∈ xs then
          (if bitAt msgBlock k = 0x01 then privateKey.OnePre k else privateKey.ZeroPre k)
        else sig.Preimage k := by
  intro xs
  induction xs with
  | nil => intro sig k; simp [Forge.assembleBits]
  | cons x xs ih =>
    intro sig k
    have hstep : Forge.assembleBits privateKey msgBlock (x :: xs) sig =
        Forge.assembleBits privateKey msgBlock xs
          (sig.setPreimage x
            (if bitAt msgBlock x = 0x01 then privateKey.OnePre x else privateKey.ZeroPre x)) := by
      rw [Forge.assembleBits]
      split <;> rfl
    rw [hstep, ih, Signature.setPreimage_apply]
    by_cases hk : k ∈ xs
    · rw [if_pos hk, if_pos (List.mem_cons_of_mem _ hk)]
    · rw [if_neg hk]
      by_cases hx : k = x
      · subst hx
        have hm : k ∈ k :: xs := List.mem_cons_self _ _
        rw [if_pos rfl, if_pos hm]
      · have : ¬ k ∈ x :: xs := by
          intro h
          rcases List.mem_cons.mp h with h | h
          · exact hx h
          · exact hk h
        rw [if_neg hx, if_neg this]

theorem Forge.assemble_eq (Sum256 : List Byte → Block) (h : Harvest) (msg : List Byte) :
    Forge.assemble Sum256 h msg =
      (msg, Forge.assembleBits h.privateKey (Sum256 msg) (List.finRange 256) Signature.zero) := by
  unfold Forge.assemble GetMessageFromString
  generalize List.finRange 256 = xs
  rfl

/-! ## Claims on the forgery -/

/-- C10: forgery soundness: for every public key `pub` and every list of prior
signatures on which the harvest loops and the coverage check succeed, and for
every candidate message `msg` that a search worker accepts, the signature
assembled by `Forge` for `msg` satisfies
`Verify(GetMessageFromString(msg), pub, sig) = true`. -/
theorem forge_sound (Sum256 : List Byte → Block) (pub : PublicKey) (sigs : List Signature)
    (h : Harvest) (TaskId : Nat) (msg : List Byte)
    (hh : Forge.harvest Sum256 pub 1 sigs Harvest.init = Except.ok h)
    (_hc : Forge.coverage h.zeroPreIsRevealed h.OnePreIsRevealed (List.finRange 256) =
      Except.ok ())
    (ha : Forge.tryMessage Sum256 h TaskId msg = Except.ok true) :
    (Forge.assemble Sum256 h msg).1 = msg ∧
    Verify Sum256 (GetMessageFromString Sum256 (Forge.assemble Sum256 h msg).1) pub
      (Forge.assemble Sum256 h msg).2 = true := by
  have hsound : Harvest.Sound Sum256 pub h :=
    (Forge.harvest_ok Sum256 pub sigs 1 Harvest.init h hh).2.2.2 (Harvest.init_sound Sum256 pub)
  have hacc := (Forge.checkBits_accept_iff h.zeroPreIsRevealed h.OnePreIsRevealed TaskId
    (Sum256 msg) (List.finRange 256)).mp ha
  rw [Forge.assemble_eq]
  refine ⟨rfl, ?_⟩
  rw [Verify.eq_true_iff]
  intro k
  simp only [GetMessageFromString]
  rw [Forge.assembleBits_preimage, if_pos (List.mem_finRange k)]
  have hk := hacc k (List.mem_finRange k)
  by_cases hb : bitAt (Sum256 msg) k = 0x01
  · rw [if_pos hb] at hk
    rw [if_pos hb, if_pos hb]
    exact (hsound k).2 hk
  · rw [if_neg hb] at hk
    rw [if_neg hb, if_neg hb]
    exact (hsound k).1 hk

theorem toyHash_sampleForged : toyHash sampleForged = sampleMsg := by
  funext k
  have hk : k.val < ((List.ofFn sampleMsg).map (fun b => b - 1)).length := by
    rw [List.length_map, List.length_ofFn]; exact k.isLt
  simp only [toyHash, sampleForged, List.getD_eq_getElem?_getD, List.getElem?_eq_getElem hk,
    List.getElem_map, List.getElem_ofFn, Option.getD_some, sub_add_cancel]

/-- Under `toyHash` the two commitments of every position of `samplePub` differ. -/
theorem samplePub_sides_differ (i : Fin 256) : samplePub.OneHash i ≠ samplePub.ZeroHash i := by
  intro h
  have h0 := congrFun h 0
  simp only [samplePub, Block.Hash, toyHash_slice, sampleSec] at h0
  have h1 := congrArg Fin.val (add_right_cancel h0)
  simp only [toByte] at h1
  have := i.isLt
  omega

/-- C10 at a concrete input: harvesting one signature of `sampleSec`, the check
of coverage passes, a worker accepts the candidate `sampleForged`, and the
assembled signature verifies. -/
theorem forge_sound_witness :
    ∃ h : Harvest,
      Forge.harvest toyHash samplePub 1 [Sign sampleMsg sampleSec] Harvest.init = Except.ok h ∧
      Forge.coverage h.zeroPreIsRevealed h.OnePreIsRevealed (List.finRange 256) = Except.ok () ∧
      Forge.tryMessage toyHash h 0 sampleForged = Except.ok true ∧
      Verify toyHash (GetMessageFromString toyHash (Forge.assemble toyHash h sampleForged).1)
        samplePub (Forge.assemble toyHash h sampleForged).2 = true := by
  have hval : ∀ i : Fin 256,
      Block.Hash toyHash ((Sign sampleMsg sampleSec).Preimage i) =
        if bitAt sampleMsg i = 0x01 then samplePub.OneHash i else samplePub.ZeroHash i := by
    intro i
    rw [Sign.preimage_eq]
    split <;> rfl
  obtain ⟨h, hh⟩ := Forge.harvest_total toyHash samplePub [Sign sampleMsg sampleSec] 1
    Harvest.init (fun s hs i => by
      rw [List.mem_singleton.mp hs, hval i]
      split
      · exact Or.inr rfl
      · exact Or.inl rfl)
  obtain ⟨_, hz, ho, _⟩ := Forge.harvest_ok toyHash samplePub _ 1 Harvest.init h hh
  have hsel : ∀ x : Fin 256, if bitAt sampleMsg x = 0x01 then h.OnePreIsRevealed.has x.val = true
      else h.zeroPreIsRevealed.has x.val = true := by
    intro x
    by_cases hb : bitAt sampleMsg x = 0x01
    · rw [if_pos hb, ho x]
      refine Or.inr ⟨_, List.mem_singleton.mpr rfl, ?_, ?_⟩
      · rw [hval x, if_pos hb]
        exact samplePub_sides_differ x
      · rw [hval x, if_pos hb]
    · rw [if_neg hb, hz x]
      refine Or.inr ⟨_, List.mem_singleton.mpr rfl, ?_⟩
      rw [hval x, if_neg hb]
  have hc : Forge.coverage h.zeroPreIsRevealed h.OnePreIsRevealed (List.finRange 256) =
      Except.ok () := by
    rw [Forge.coverage_ok_iff]
    intro k _
    have := hsel k
    split at this
    · exact Or.inr this
    · exact Or.inl this
  have ha : Forge.tryMessage toyHash h 0 sampleForged = Except.ok true := by
    unfold Forge.tryMessage
    rw [toyHash_sampleForged, Forge.checkBits_accept_iff]
    exact fun x _ => hsel x
  exact ⟨h, hh, hc, ha, (forge_sound toyHash samplePub _ h 0 sampleForged hh hc ha).2⟩

/-! ## Search worker -/

/-- The bit extracted by the contract is `0` or `1`. -/
theorem bitAt_zero_or_one (arr : Block) (i : Fin 256) : bitAt arr i = 0 ∨ bitAt arr i = 1 := by
  simp only [bitAt, Nat.and_one_is_mod]
  omega

/-- The bit loop of a search worker never panics: it ends with `true` or `false`. -/
theorem Forge.checkBits_total (zeroPreIsRevealed OnePreIsRevealed : GoMap) (TaskId : Nat)
    (msgBlock : Block) :
    ∀ xs : List (Fin 256), ∃ b : Bool,
      Forge.checkBits zeroPreIsRevealed OnePreIsRevealed TaskId msgBlock xs = Except.ok b := by
  intro xs
  induction xs with
  | nil => exact ⟨true, rfl⟩
  | cons x xs ih =>
    rw [Forge.checkBits]
    by_cases hb : bitAt msgBlock x = 0x01
    · simp only [if_pos hb]
      by_cases ho : OnePreIsRevealed.has x.val = true
      · simp only [if_pos ho]; exact ih
      · simp only [if_neg ho]; exact ⟨false, rfl⟩
    · have h0 : ¬ bitAt msgBlock x ≠ 0x00 := by
        rcases bitAt_zero_or_one msgBlock x with h | h
        · simp [h]
        · exact absurd h hb
      simp only [if_neg hb, if_neg h0]
      by_cases hz : zeroPreIsRevealed.has x.val = true
      · simp only [if_pos hz]; exact ih
      · simp only [if_neg hz]; exact ⟨false, rfl⟩

/-- The bit loop stops with `false` at the first position whose selected side is
not marked as revealed, whatever positions follow it. -/
theorem Forge.checkBits_reject_first (zeroPreIsRevealed OnePreIsRevealed : GoMap)
    (TaskId : Nat) (msgBlock : Block) (x : Fin 256) (post : List (Fin 256)) :
    ∀ pre : List (Fin 256),
      (∀ y ∈ pre, if bitAt msgBlock y = 0x01 then OnePreIsRevealed.has y.val = true
        else zeroPreIsRevealed.has y.val = true) →
      ¬ (if bitAt msgBlock x = 0x01 then OnePreIsRevealed.has x.val = true
        else zeroPreIsRevealed.has x.val = true) →
      Forge.checkBits zeroPreIsRevealed OnePreIsRevealed TaskId msgBlock (pre ++ x :: post) =
        Except.ok false := by
  intro pre
  induction pre with
  | nil =>
    intro _ hx
    rw [List.nil_append, Forge.checkBits]
    by_cases hb : bitAt msgBlock x = 0x01
    · rw [if_pos hb] at hx
      simp only [if_pos hb, if_neg hx]
    · rw [if_neg hb] at hx
      have h0 : ¬ bitAt msgBlock x ≠ 0x00 := by
        rcases bitAt_zero_or_one msgBlock x with h | h
        · simp [h]
        · exact absurd h hb
      simp only [if_neg hb, if_neg h0, if_neg hx]
  | cons y pre ih =>
    intro hpre hx
    have hy := hpre y (List.mem_cons_self _ _)
    have hrest := ih (fun z hz => hpre z (List.mem_cons_of_mem _ hz)) hx
    rw [List.cons_append, Forge.checkBits]
    by_cases hb : bitAt msgBlock y = 0x01
    · rw [if_pos hb] at hy
      simp only [if_pos hb, if_pos hy]
      exact hrest
    · rw [if_neg hb] at hy
      have h0 : ¬ bitAt msgBlock y ≠ 0x00 := by
        rcases bitAt_zero_or_one msgBlock y with h | h
        · simp [h]
        · exact absurd h hb
      simp only [if_neg hb, if_neg h0, if_pos hy]
      exact hrest

/-- One iteration of a search worker on a candidate that is accepted. -/
theorem Forge.worker_accept (Sum256 : List Byte → Block) (h : Harvest) (TaskId : Nat)
    (draws : Nat → (Fin 27 → Byte) × (Fin 29 → Byte)) (fuel n : Nat)
    (ha : Forge.tryMessage Sum256 h TaskId
      (Forge.candidate (List.ofFn (draws n).1) Forge.msgBuf (List.ofFn (draws n).2)) =
        Except.ok true) :
    Forge.worker Sum256 h TaskId draws (fuel + 1) n =
      Except.ok (some (Forge.candidate (List.ofFn (draws n).1) Forge.msgBuf
        (List.ofFn (draws n).2))) := by
  unfold Forge.worker
  rw [Forge.workerLoop]
  simp only [ha]

/-- One iteration of a search worker on a candidate that is rejected. -/
theorem Forge.worker_reject (Sum256 : List Byte → Block) (h : Harvest) (TaskId : Nat)
    (draws : Nat → (Fin 27 → Byte) × (Fin 29 → Byte)) (fuel n : Nat)
    (ha : Forge.tryMessage Sum256 h TaskId
      (Forge.candidate (List.ofFn (draws n).1) Forge.msgBuf (List.ofFn (draws n).2)) =
        Except.ok false) :
    Forge.worker Sum256 h TaskId draws (fuel + 1) n =
      Forge.worker Sum256 h TaskId draws fuel (n + 1) := by
  unfold Forge.worker
  rw [Forge.workerLoop]
  simp only [ha]

/-- A message published by a search worker is the candidate of one of its
iterations, and that candidate passed the bit loop. -/
theorem Forge.worker_some (Sum256 : List Byte → Block) (h : Harvest) (TaskId : Nat)
    (draws : Nat → (Fin 27 → Byte) × (Fin 29 → Byte)) :
    ∀ (fuel n : Nat) (m : List Byte),
      Forge.worker Sum256 h TaskId draws fuel n = Except.ok (some m) →
      ∃ k, n ≤ k ∧ k < n + fuel ∧
        m = Forge.candidate (List.ofFn (draws k).1) Forge.msgBuf (List.ofFn (draws k).2) ∧
        Forge.tryMessage Sum256 h TaskId m = Except.ok true := by
  intro fuel
  induction fuel with
  | zero =>
    intro n m hw
    unfold Forge.worker at hw
    rw [Forge.workerLoop] at hw
    cases hw
  | succ fuel ih =>
    intro n m hw
    obtain ⟨b, hb⟩ := Forge.checkBits_total h.zeroPreIsRevealed h.OnePreIsRevealed TaskId
      (Sum256 (Forge.candidate (List.ofFn (draws n).1) Forge.msgBuf (List.ofFn (draws n).2)))
      (List.finRange 256)
    have ht : Forge.tryMessage Sum256 h TaskId
        (Forge.candidate (List.ofFn (draws n).1) Forge.msgBuf (List.ofFn (draws n).2)) =
          Except.ok b := hb
    cases b with
    | true =>
      rw [Forge.worker_accept Sum256 h TaskId draws fuel n ht] at hw
      injection hw with hw
      injection hw with hw
      exact ⟨n, Nat.le_refl _, by omega, hw.symm, hw ▸ ht⟩
    | false =>
      rw [Forge.worker_reject Sum256 h TaskId draws fuel n ht] at hw
      obtain ⟨k, hk1, hk2, hk3, hk4⟩ := ih (n + 1) m hw
      exact ⟨k, by omega, by omega, hk3, hk4⟩

/-- With both sides of every position marked as revealed, the acceptance check
of a search worker accepts every candidate. -/
theorem Forge.tryMessage_full (Sum256 : List Byte → Block) (h : Harvest) (TaskId : Nat)
    (hfull : ∀ i : Fin 256,
      h.zeroPreIsRevealed.has i.val = true ∧ h.OnePreIsRevealed.has i.val = true)
    (c : List Byte) : Forge.tryMessage Sum256 h TaskId c = Except.ok true := by
  unfold Forge.tryMessage
  rw [Forge.checkBits_accept_iff]
  intro x _
  split
  · exact (hfull x).2
  · exact (hfull x).1

theorem Forge.msgBuf_length : Forge.msgBuf.length = 29 := rfl

theorem Forge.candidate_length (buf1 : Fin 27 → Byte) (buf2 : Fin 29 → Byte) :
    (Forge.candidate (List.ofFn buf1) Forge.msgBuf (List.ofFn buf2)).length = 27 + 29 + 29 := by
  unfold Forge.candidate
  rw [List.length_append, List.length_append, List.length_ofFn, List.length_ofFn,
    Forge.msgBuf_length]

/-- The payload starts at byte offset 27 of every candidate. -/
theorem Forge.candidate_payload (buf1 : Fin 27 → Byte) (buf2 : Fin 29 → Byte) :
    ((Forge.candidate (List.ofFn buf1) Forge.msgBuf (List.ofFn buf2)).drop 27).take
      Forge.msgBuf.length = Forge.msgBuf := by
  unfold Forge.candidate
  rw [List.append_assoc, List.drop_left' (List.length_ofFn buf1), List.take_left]

/-! ## Claims on the search -/

/-- C11: every message published by a search worker, hence every message that
`Forge` returns, is a candidate `buf1 ++ payload ++ buf2` with 27 bytes before
and 29 bytes after the payload; the payload, which contains the bytes of
`"forge"`, occurs verbatim at byte offset 27, and `Forge` returns the message
unchanged. -/
theorem forged_message_contains_payload (Sum256 : List Byte → Block) (h : Harvest)
    (TaskId : Nat) (draws : Nat → (Fin 27 → Byte) × (Fin 29 → Byte)) (fuel : Nat)
    (m : List Byte)
    (hw : Forge.worker Sum256 h TaskId draws fuel 0 = Except.ok (some m)) :
    (∃ (buf1 : Fin 27 → Byte) (buf2 : Fin 29 → Byte),
      m = (List.ofFn buf1 ++ Forge.msgBuf) ++ List.ofFn buf2) ∧
    m.length = 27 + 29 + 29 ∧
    (m.drop 27).take Forge.msgBuf.length = Forge.msgBuf ∧
    [102, 111, 114, 103, 101] <:+: Forge.msgBuf ∧
    (Forge.assemble Sum256 h m).1 = m ∧
    (∀ (pub : PublicKey) (sigs : List Signature),
      Forge.prepareAll Sum256 pub sigs = Except.ok h →
      ∃ sig, Forge.run Sum256 pub sigs m = Except.ok (m, sig, none)) := by
  obtain ⟨k, _, _, hm, _⟩ := Forge.worker_some Sum256 h TaskId draws fuel 0 m hw
  refine ⟨⟨(draws k).1, (draws k).2, hm⟩, ?_, ?_, ?_, ?_, ?_⟩
  · rw [hm]; exact Forge.candidate_length _ _
  · rw [hm]; exact Forge.candidate_payload _ _
  · exact ⟨Forge.msgBuf.take 24, [], rfl⟩
  · rw [Forge.assemble_eq]
  · intro pub sigs hp
    refine ⟨(Forge.assemble Sum256 h m).2, ?_⟩
    unfold Forge.run
    rw [hp]
    simp only [Forge.assemble_eq]

/-- C11 at a concrete search: with every side revealed, the first candidate of a
worker whose buffers hold zero bytes is published. -/
theorem forged_message_contains_payload_witness :
    Forge.worker toyHash fullHarvest 0 zeroDraws 1 0 =
      Except.ok (some (Forge.candidate (List.ofFn (zeroDraws 0).1) Forge.msgBuf
        (List.ofFn (zeroDraws 0).2))) ∧
    ((Forge.candidate (List.ofFn (zeroDraws 0).1) Forge.msgBuf
      (List.ofFn (zeroDraws 0).2)).drop 27).take Forge.msgBuf.length = Forge.msgBuf :=
  have hw := Forge.worker_accept toyHash fullHarvest 0 zeroDraws 0 0
    (Forge.tryMessage_full toyHash fullHarvest 0 (fun _ => ⟨rfl, rfl⟩) _)
  ⟨hw, (forged_message_contains_payload toyHash fullHarvest 0 zeroDraws 1 _ hw).2.2.1⟩

/-- C15: if both sides are marked as revealed at all 256 positions, the
acceptance check of a worker accepts every candidate message whatever its
digest, so the first candidate that a worker generates is published. -/
theorem full_coverage_accepts_all (Sum256 : List Byte → Block) (h : Harvest) (TaskId : Nat)
    (hfull : ∀ i : Fin 256,
      h.zeroPreIsRevealed.has i.val = true ∧ h.OnePreIsRevealed.has i.val = true) :
    (∀ c : List Byte, Forge.tryMessage Sum256 h TaskId c = Except.ok true) ∧
    (∀ (draws : Nat → (Fin 27 → Byte) × (Fin 29 → Byte)) (fuel n : Nat),
      Forge.worker Sum256 h TaskId draws (fuel + 1) n =
        Except.ok (some (Forge.candidate (List.ofFn (draws n).1) Forge.msgBuf
          (List.ofFn (draws n).2)))) :=
  ⟨fun c => Forge.tryMessage_full Sum256 h TaskId hfull c,
    fun draws fuel n => Forge.worker_accept Sum256 h TaskId draws fuel n
      (Forge.tryMessage_full Sum256 h TaskId hfull _)⟩

/-- C15 at a concrete fully covered state. -/
theorem full_coverage_accepts_all_witness :
    (∀ i : Fin 256, fullHarvest.zeroPreIsRevealed.has i.val = true ∧
      fullHarvest.OnePreIsRevealed.has i.val = true) ∧
    Forge.tryMessage toyHash fullHarvest 3 sampleForged = Except.ok true ∧
    Forge.worker toyHash fullHarvest 3 zeroDraws 5 0 =
      Except.ok (some (Forge.candidate (List.ofFn (zeroDraws 0).1) Forge.msgBuf
        (List.ofFn (zeroDraws 0).2))) :=
  ⟨fun _ => ⟨rfl, rfl⟩,
    (full_coverage_accepts_all toyHash fullHarvest 3 (fun _ => ⟨rfl, rfl⟩)).1 sampleForged,
    (full_coverage_accepts_all toyHash fullHarvest 3 (fun _ => ⟨rfl, rfl⟩)).2 zeroDraws 4 0⟩

/-- C18: a search worker accepts a candidate `c` if and only if, at every
position `x`, the side selected by bit `x` of the digest of `c` (the one side if
the bit is 1, the zero side if it is 0) is marked as revealed; otherwise the
check ends with `continue TryNextMessage` at the first unsupported position,
whatever follows it, and the candidate is not published: every message a
worker publishes is supported at all 256 positions. -/
theorem worker_accepts_iff (Sum256 : List Byte → Block) (h : Harvest) (TaskId : Nat)
    (c : List Byte) :
    (Forge.tryMessage Sum256 h TaskId c = Except.ok true ↔
      ∀ x : Fin 256, if bitAt (Sum256 c) x = 1 then h.OnePreIsRevealed.has x.val = true
        else h.zeroPreIsRevealed.has x.val = true) ∧
    (Forge.tryMessage Sum256 h TaskId c = Except.ok false ↔
      ¬ ∀ x : Fin 256, if bitAt (Sum256 c) x = 1 then h.OnePreIsRevealed.has x.val = true
        else h.zeroPreIsRevealed.has x.val = true) ∧
    (∀ (pre post : List (Fin 256)) (x : Fin 256),
      (∀ y ∈ pre, if bitAt (Sum256 c) y = 1 then h.OnePreIsRevealed.has y.val = true
        else h.zeroPreIsRevealed.has y.val = true) →
      ¬ (if bitAt (Sum256 c) x = 1 then h.OnePreIsRevealed.has x.val = true
        else h.zeroPreIsRevealed.has x.val = true) →
      Forge.checkBits h.zeroPreIsRevealed h.OnePreIsRevealed TaskId (Sum256 c)
        (pre ++ x :: post) = Except.ok false) ∧
    (∀ (draws : Nat → (Fin 27 → Byte) × (Fin 29 → Byte)) (fuel n : Nat) (m : List Byte),
      Forge.worker Sum256 h TaskId draws fuel n = Except.ok (some m) →
      ∀ x : Fin 256, if bitAt (Sum256 m) x = 1 then h.OnePreIsRevealed.has x.val = true
        else h.zeroPreIsRevealed.has x.val = true) := by
  have key : ∀ c : List Byte, Forge.tryMessage Sum256 h TaskId c = Except.ok true ↔
      ∀ x : Fin 256, if bitAt (Sum256 c) x = 1 then h.OnePreIsRevealed.has x.val = true
        else h.zeroPreIsRevealed.has x.val = true := by
    intro c
    unfold Forge.tryMessage
    rw [Forge.checkBits_accept_iff]
    exact ⟨fun hx x => hx x (List.mem_finRange x), fun hx x _ => hx x⟩
  refine ⟨key c, ?_, ?_, ?_⟩
  · rw [← key c]
    obtain ⟨b, hb⟩ := Forge.checkBits_total h.zeroPreIsRevealed h.OnePreIsRevealed TaskId
      (Sum256 c) (List.finRange 256)
    have ht : Forge.tryMessage Sum256 h TaskId c = Except.ok b := hb
    rw [ht]
    cases b <;> simp
  · intro pre post x hpre hx
    exact Forge.checkBits_reject_first _ _ TaskId (Sum256 c) x post pre hpre hx
  · intro draws fuel n m hw
    obtain ⟨_, _, _, _, hacc⟩ := Forge.worker_some Sum256 h TaskId draws fuel n m hw
    exact (key m).mp hacc

/-! ## Harvest and coverage: failure and success -/

/-- A panic of a harvest loop is the panic "does not match One or Zero" at a
visited position whose block matches neither commitment. -/
theorem Forge.harvestSig_error (Sum256 : List Byte → Block) (pub : PublicKey) (sigNo : Nat)
    (sig : Signature) :
    ∀ (idxs : List (Fin 256)) (h : Harvest) (e : GoPanic),
      Forge.harvestSig Sum256 pub sigNo sig idxs h = Except.error e →
      ∃ idx ∈ idxs,
        Block.Hash Sum256 (sig.Preimage idx) ≠ pub.ZeroHash idx ∧
        Block.Hash Sum256 (sig.Preimage idx) ≠ pub.OneHash idx ∧
        e = GoPanic.noMatch sigNo idx.val (Block.ToHex (Block.Hash Sum256 (sig.Preimage idx))) := by
  intro idxs
  induction idxs with
  | nil =>
    intro h e hk
    rw [Forge.harvestSig] at hk
    cases hk
  | cons idx rest ih =>
    intro h e hk
    by_cases hz : Block.Hash Sum256 (sig.Preimage idx) = pub.ZeroHash idx
    · rw [Forge.harvestSig_zero Sum256 pub sigNo sig idx rest h hz] at hk
      obtain ⟨i, hi, h1⟩ := ih _ e hk
      exact ⟨i, List.mem_cons_of_mem _ hi, h1⟩
    · by_cases ho : Block.Hash Sum256 (sig.Preimage idx) = pub.OneHash idx
      · rw [Forge.harvestSig_one Sum256 pub sigNo sig idx rest h hz ho] at hk
        obtain ⟨i, hi, h1⟩ := ih _ e hk
        exact ⟨i, List.mem_cons_of_mem _ hi, h1⟩
      · rw [Forge.harvestSig_none Sum256 pub sigNo sig idx rest h hz ho] at hk
        injection hk with hk
        exact ⟨idx, List.mem_cons_self _ _, hz, ho, hk.symm⟩

/-- A panic of the harvest loops comes from a supplied signature with a block
that matches neither commitment of its position. -/
theorem Forge.harvest_error (Sum256 : List Byte → Block) (pub : PublicKey) :
    ∀ (sigs : List Signature) (sigNo : Nat) (h : Harvest) (e : GoPanic),
      Forge.harvest Sum256 pub sigNo sigs h = Except.error e →
      ∃ sig ∈ sigs, ∃ (n : Nat) (idx : Fin 256),
        Block.Hash Sum256 (sig.Preimage idx) ≠ pub.ZeroHash idx ∧
        Block.Hash Sum256 (sig.Preimage idx) ≠ pub.OneHash idx ∧
        e = GoPanic.noMatch n idx.val (Block.ToHex (Block.Hash Sum256 (sig.Preimage idx))) := by
  intro sigs
  induction sigs with
  | nil =>
    intro sigNo h e hk
    rw [Forge.harvest_nil] at hk
    cases hk
  | cons sig sigs ih =>
    intro sigNo h e hk
    rw [Forge.harvest_cons] at hk
    cases h1 : Forge.harvestSig Sum256 pub sigNo sig (List.finRange 256) h with
    | error e1 =>
      rw [h1] at hk
      injection hk with hk
      obtain ⟨idx, _, hz, ho, he⟩ := Forge.harvestSig_error Sum256 pub sigNo sig _ h e1 h1
      exact ⟨sig, List.mem_cons_self _ _, sigNo, idx, hz, ho, hk ▸ he⟩
    | ok hmid =>
      rw [h1] at hk
      obtain ⟨s, hs, rest⟩ := ih (sigNo + 1) hmid e hk
      exact ⟨s, List.mem_cons_of_mem _ hs, rest⟩

/-- The harvest loops either end with a harvested state or panic. -/
theorem Forge.harvest_cases (Sum256 : List Byte → Block) (pub : PublicKey) (sigNo : Nat)
    (sigs : List Signature) (h : Harvest) :
    (∃ h', Forge.harvest Sum256 pub sigNo sigs h = Except.ok h') ∨
      (∃ e, Forge.harvest Sum256 pub sigNo sigs h = Except.error e) := by
  cases hr : Forge.harvest Sum256 pub sigNo sigs h with
  | ok h' => exact Or.inl ⟨h', rfl⟩
  | error e => exact Or.inr ⟨e, rfl⟩

/-- A panic of the coverage loop names the first visited position with no side
marked as revealed. -/
theorem Forge.coverage_error (zeroPreIsRevealed OnePreIsRevealed : GoMap) :
    ∀ (ks : List (Fin 256)),
      (∃ k ∈ ks, zeroPreIsRevealed.has k.val = false ∧ OnePreIsRevealed.has k.val = false) →
      ∃ (pre post : List (Fin 256)) (k : Fin 256), ks = pre ++ k :: post ∧
        (∀ j ∈ pre, zeroPreIsRevealed.has j.val = true ∨ OnePreIsRevealed.has j.val = true) ∧
        zeroPreIsRevealed.has k.val = false ∧ OnePreIsRevealed.has k.val = false ∧
        Forge.coverage zeroPreIsRevealed OnePreIsRevealed ks =
          Except.error (GoPanic.notRevealed k.val) := by
  intro ks
  induction ks with
  | nil =>
    rintro ⟨k, hk, _⟩
    cases hk
  | cons k ks ih =>
    intro hex
    by_cases hk : zeroPreIsRevealed.has k.val = true ∨ OnePreIsRevealed.has k.val = true
    · have hex' : ∃ k' ∈ ks, zeroPreIsRevealed.has k'.val = false ∧
          OnePreIsRevealed.has k'.val = false := by
        obtain ⟨k', hk', h0, h1⟩ := hex
        rcases List.mem_cons.mp hk' with rfl | hk'
        · rcases hk with h | h
          · rw [h0] at h; cases h
          · rw [h1] at h; cases h
        · exact ⟨k', hk', h0, h1⟩
      obtain ⟨pre, post, k', hsplit, hpre, h0, h1, herr⟩ := ih hex'
      refine ⟨k :: pre, post, k', by rw [hsplit]; rfl, ?_, h0, h1, ?_⟩
      · intro j hj
        rcases List.mem_cons.mp hj with rfl | hj
        · exact hk
        · exact hpre j hj
      · have hb : ¬ (!(zeroPreIsRevealed.has k.val || OnePreIsRevealed.has k.val)) = true := by
          rcases hk with h | h <;> simp [h]
        rw [Forge.coverage]
        simp only [if_neg hb]
        exact herr
    · simp only [not_or, Bool.not_eq_true] at hk
      refine ⟨[], ks, k, rfl, ?_, hk.1, hk.2, ?_⟩
      · intro j hj; cases hj
      · have hb : (!(zeroPreIsRevealed.has k.val || OnePreIsRevealed.has k.val)) = true := by
          simp [hk.1, hk.2]
        rw [Forge.coverage]
        simp only [if_pos hb]

/-- The signature made by `Sign` passes `Verify` under the commitments of the
secret key. -/
theorem Verify.sign_true (Sum256 : List Byte → Block) (sec : SecretKey) (pub : PublicKey)
    (m : Message)
    (hz : ∀ i : Fin 256, pub.ZeroHash i = Block.Hash Sum256 (sec.ZeroPre i))
    (ho : ∀ i : Fin 256, pub.OneHash i = Block.Hash Sum256 (sec.OnePre i)) :
    Verify Sum256 m pub (Sign m sec) = true := by
  rw [Verify.eq_true_iff]
  intro k
  rw [Sign.preimage_eq]
  by_cases hb : bitAt m k = 0x01
  · rw [if_pos hb, if_pos hb, ho]
  · rw [if_neg hb, if_neg hb, hz]

/-- Every block of a signature that passes `Verify` matches one of the two
commitments of its position. -/
theorem Verify.blocks_match (Sum256 : List Byte → Block) (m : Message) (pub : PublicKey)
    (sig : Signature) (hv : Verify Sum256 m pub sig = true) (i : Fin 256) :
    Block.Hash Sum256 (sig.Preimage i) = pub.ZeroHash i ∨
      Block.Hash Sum256 (sig.Preimage i) = pub.OneHash i := by
  have h := (Verify.eq_true_iff Sum256 m pub sig).mp hv i
  by_cases hb : bitAt m i = 0x01
  · rw [if_pos hb] at h; exact Or.inr h
  · rw [if_neg hb] at h; exact Or.inl h

/-- After the harvest of at least one signature, all of whose blocks match a
commitment, every position has a side marked as revealed. -/
theorem Forge.harvest_covers (Sum256 : List Byte → Block) (pub : PublicKey)
    (sigs : List Signature) (h : Harvest) (hne : sigs ≠ [])
    (hh : Forge.harvest Sum256 pub 1 sigs Harvest.init = Except.ok h) (i : Fin 256) :
    h.zeroPreIsRevealed.has i.val = true ∨ h.OnePreIsRevealed.has i.val = true := by
  obtain ⟨hv, hz, ho, _⟩ := Forge.harvest_ok Sum256 pub sigs 1 Harvest.init h hh
  obtain ⟨s, rest, rfl⟩ := List.exists_cons_of_ne_nil hne
  have hs : s ∈ s :: rest := List.mem_cons_self _ _
  by_cases h0 : Block.Hash Sum256 (s.Preimage i) = pub.ZeroHash i
  · exact Or.inl ((hz i).mpr (Or.inr ⟨s, hs, h0⟩))
  · rcases hv s hs i with h1 | h1
    · exact absurd h1 h0
    · exact Or.inr ((ho i).mpr (Or.inr ⟨s, hs, h0, h1⟩))

set_option maxRecDepth 100000 in
/-- Bit 0 of `sampleMsg` is 0: the block at position 0 of its signature is the
zero-side preimage. -/
theorem sampleSig_zero_side :
    Block.Hash toyHash ((Sign sampleMsg sampleSec).Preimage 0) = samplePub.ZeroHash 0 := by
  rw [Sign.preimage_eq, if_neg (by decide)]
  rfl

set_option maxRecDepth 100000 in
/-- Bit 5 of `sampleMsg` is 1: the block at position 5 of its signature is the
one-side preimage. -/
theorem sampleSig_one_side :
    Block.Hash toyHash ((Sign sampleMsg sampleSec).Preimage 5) = samplePub.OneHash 5 := by
  rw [Sign.preimage_eq, if_pos (by decide)]
  rfl

/-! ## Claims on harvest and coverage -/

/-- C12 as stated fails: when the two commitments of position 0 are equal, a
block hashing to them is classified as a zero-side preimage only; after the
harvest of the all-zero signature under `twinPub` the block at position 0
hashes to `OneHash[0]`, yet the one side of position 0 is not marked. -/
theorem one_side_unmarked_for_equal_commitments :
    ∃ h : Harvest,
      Forge.harvest toyHash twinPub 1 [Signature.zero] Harvest.init = Except.ok h ∧
      Block.Hash toyHash (Signature.zero.Preimage 0) = twinPub.OneHash 0 ∧
      h.OnePreIsRevealed.has (0 : Fin 256).val = false := by
  obtain ⟨h, hh⟩ := Forge.harvest_total toyHash twinPub [Signature.zero] 1 Harvest.init
    (fun s hs i => by
      rw [List.mem_singleton.mp hs]
      exact Or.inl rfl)
  refine ⟨h, hh, rfl, ?_⟩
  obtain ⟨_, _, ho, _⟩ := Forge.harvest_ok toyHash twinPub _ 1 Harvest.init h hh
  rw [← Bool.not_eq_true, ho 0]
  rintro (h0 | ⟨s, hs, hne, _⟩)
  · simp [Harvest.init, GoMap.has_empty] at h0
  · rw [List.mem_singleton.mp hs] at hne
    exact hne rfl

/-- C12, amended: after the harvest of the supplied signatures, for every
position `i` the zero side is marked as revealed if and only if the block at
position `i` of some supplied signature hashes to `pub.ZeroHash[i]`, and the one
side is marked as revealed if and only if the block at position `i` of some
supplied signature hashes to `pub.OneHash[i]` and not to `pub.ZeroHash[i]`. -/
theorem harvest_revealed_iff (Sum256 : List Byte → Block) (pub : PublicKey)
    (sigs : List Signature) (h : Harvest)
    (hh : Forge.harvest Sum256 pub 1 sigs Harvest.init = Except.ok h) (i : Fin 256) :
    (h.zeroPreIsRevealed.has i.val = true ↔
      ∃ sig ∈ sigs, Block.Hash Sum256 (sig.Preimage i) = pub.ZeroHash i) ∧
    (h.OnePreIsRevealed.has i.val = true ↔
      ∃ sig ∈ sigs, Block.Hash Sum256 (sig.Preimage i) = pub.OneHash i ∧
        Block.Hash Sum256 (sig.Preimage i) ≠ pub.ZeroHash i) := by
  obtain ⟨_, hz, ho, _⟩ := Forge.harvest_ok Sum256 pub sigs 1 Harvest.init h hh
  have e0 : ¬ Harvest.init.zeroPreIsRevealed.has i.val = true := by
    simp [Harvest.init, GoMap.has_empty]
  have e1 : ¬ Harvest.init.OnePreIsRevealed.has i.val = true := by
    simp [Harvest.init, GoMap.has_empty]
  constructor
  · rw [hz i]
    exact ⟨fun hx => hx.resolve_left e0, fun hx => Or.inr hx⟩
  · rw [ho i]
    constructor
    · intro hx
      obtain ⟨s, hs, h1, h2⟩ := hx.resolve_left e1
      exact ⟨s, hs, h2, h1⟩
    · rintro ⟨s, hs, h1, h2⟩
      exact Or.inr ⟨s, hs, h2, h1⟩

/-- C12 (amended) at a concrete harvest of one signature of `sampleSec`: the
zero side of position 0 and the one side of position 5 are marked, the other
sides of these positions are not. -/
theorem harvest_revealed_iff_witness :
    ∃ h : Harvest,
      Forge.harvest toyHash samplePub 1 [Sign sampleMsg sampleSec] Harvest.init =
        Except.ok h ∧
      h.zeroPreIsRevealed.has (0 : Fin 256).val = true ∧
      h.OnePreIsRevealed.has (0 : Fin 256).val = false ∧
      h.zeroPreIsRevealed.has (5 : Fin 256).val = false ∧
      h.OnePreIsRevealed.has (5 : Fin 256).val = true := by
  obtain ⟨h, hh⟩ := Forge.harvest_total toyHash samplePub [Sign sampleMsg sampleSec] 1
    Harvest.init (fun s hs i => by
      rw [List.mem_singleton.mp hs]
      exact Verify.blocks_match toyHash sampleMsg samplePub _
        (Verify.sign_true toyHash sampleSec samplePub sampleMsg (fun _ => rfl) (fun _ => rfl)) i)
  have c0 := harvest_revealed_iff toyHash samplePub _ h hh 0
  have c5 := harvest_revealed_iff toyHash samplePub _ h hh 5
  refine ⟨h, hh, c0.1.mpr ⟨_, List.mem_singleton.mpr rfl, sampleSig_zero_side⟩, ?_, ?_,
    c5.2.mpr ⟨_, List.mem_singleton.mpr rfl, sampleSig_one_side,
      fun e => samplePub_sides_differ 5 (sampleSig_one_side.symm.trans e)⟩⟩
  · rw [← Bool.not_eq_true]
    intro ht
    obtain ⟨s, hs, _, hne⟩ := c0.2.mp ht
    rw [List.mem_singleton.mp hs] at hne
    exact hne sampleSig_zero_side
  · rw [← Bool.not_eq_true]
    intro ht
    obtain ⟨s, hs, he⟩ := c5.1.mp ht
    rw [List.mem_singleton.mp hs] at he
    exact samplePub_sides_differ 5 (sampleSig_one_side.symm.trans he)

/-- C13: the harvest fails if and only if some supplied signature has a
position whose block hashes to neither `pub.ZeroHash[i]` nor `pub.OneHash[i]`;
the failure is the panic "does not match One or Zero", and it ends `Forge`
before the search, whatever the search would have produced. -/
theorem harvest_fails_iff (Sum256 : List Byte → Block) (pub : PublicKey)
    (sigs : List Signature) :
    ((∃ e, Forge.harvest Sum256 pub 1 sigs Harvest.init = Except.error e) ↔
      ∃ sig ∈ sigs, ∃ i : Fin 256,
        Block.Hash Sum256 (sig.Preimage i) ≠ pub.ZeroHash i ∧
        Block.Hash Sum256 (sig.Preimage i) ≠ pub.OneHash i) ∧
    (∀ e, Forge.harvest Sum256 pub 1 sigs Harvest.init = Except.error e →
      (∃ (n idx : Nat) (hashHex : List Byte), e = GoPanic.noMatch n idx hashHex) ∧
      ∀ winner : List Byte, Forge.run Sum256 pub sigs winner = Except.error e) := by
  constructor
  · constructor
    · rintro ⟨e, he⟩
      obtain ⟨s, hs, _, idx, hz, ho, _⟩ := Forge.harvest_error Sum256 pub sigs 1 Harvest.init e he
      exact ⟨s, hs, idx, hz, ho⟩
    · rintro ⟨s, hs, i, hz, ho⟩
      rcases Forge.harvest_cases Sum256 pub 1 sigs Harvest.init with ⟨h', hok⟩ | herr
      · rcases (Forge.harvest_ok Sum256 pub sigs 1 Harvest.init h' hok).1 s hs i with h1 | h1
        · exact absurd h1 hz
        · exact absurd h1 ho
      · exact herr
  · intro e he
    constructor
    · obtain ⟨s, _, n, idx, _, _, heq⟩ := Forge.harvest_error Sum256 pub sigs 1 Harvest.init e he
      exact ⟨n, idx.val, _, heq⟩
    · intro winner
      unfold Forge.run Forge.prepareAll
      rw [he]

/-- After a successful harvest `Forge.run` goes on from the coverage check with
the harvested variables. -/
theorem Forge.run_eq_afterHarvest (Sum256 : List Byte → Block) (pub : PublicKey)
    (sigs : List Signature) (h : Harvest)
    (hh : Forge.harvest Sum256 pub 1 sigs Harvest.init = Except.ok h) (winner : List Byte) :
    Forge.run Sum256 pub sigs winner = Forge.afterHarvest Sum256 h winner := by
  unfold Forge.run Forge.prepareAll Forge.afterHarvest
  rw [hh]
  cases hc : Forge.coverage h.zeroPreIsRevealed h.OnePreIsRevealed (List.finRange 256) with
  | error e => simp only [hc]
  | ok u => simp only [hc]

/-- C14: for the variables `h` left by the harvest loops, if at least one
position in `0..255` has neither side marked as revealed, the coverage loop
panics with "both zero pre image and one pre image are not revealed" for the
first such position, and `Forge` ends there, before the search and whatever the
search would have produced; if every position has a side marked as revealed,
the coverage check passes and `Forge` goes on to the search and the assembly.
After a successful harvest `Forge` continues in this way with the harvested
variables, and when at least one signature was harvested every position has a
side marked as revealed. -/
theorem coverage_check (Sum256 : List Byte → Block) (h : Harvest) :
    ((∃ i : Fin 256, h.zeroPreIsRevealed.has i.val = false ∧
        h.OnePreIsRevealed.has i.val = false) →
      ∃ k : Fin 256,
        (h.zeroPreIsRevealed.has k.val = false ∧ h.OnePreIsRevealed.has k.val = false) ∧
        (∀ j : Fin 256, j.val < k.val →
          h.zeroPreIsRevealed.has j.val = true ∨ h.OnePreIsRevealed.has j.val = true) ∧
        Forge.coverage h.zeroPreIsRevealed h.OnePreIsRevealed (List.finRange 256) =
          Except.error (GoPanic.notRevealed k.val) ∧
        ∀ winner : List Byte,
          Forge.afterHarvest Sum256 h winner = Except.error (GoPanic.notRevealed k.val)) ∧
    ((∀ i : Fin 256, h.zeroPreIsRevealed.has i.val = true ∨
        h.OnePreIsRevealed.has i.val = true) →
      Forge.coverage h.zeroPreIsRevealed h.OnePreIsRevealed (List.finRange 256) =
        Except.ok () ∧
      ∀ winner : List Byte,
        Forge.afterHarvest Sum256 h winner =
          Except.ok ((Forge.assemble Sum256 h winner).1, (Forge.assemble Sum256 h winner).2,
            none)) ∧
    (∀ (pub : PublicKey) (sigs : List Signature),
      Forge.harvest Sum256 pub 1 sigs Harvest.init = Except.ok h →
      (∀ winner : List Byte,
        Forge.run Sum256 pub sigs winner = Forge.afterHarvest Sum256 h winner) ∧
      (sigs ≠ [] → ∀ i : Fin 256, h.zeroPreIsRevealed.has i.val = true ∨
        h.OnePreIsRevealed.has i.val = true)) := by
  refine ⟨?_, ?_, ?_⟩
  · rintro ⟨i, hi0, hi1⟩
    obtain ⟨pre, post, k, hsplit, hpre, h0, h1, herr⟩ :=
      Forge.coverage_error h.zeroPreIsRevealed h.OnePreIsRevealed (List.finRange 256)
        ⟨i, List.mem_finRange i, hi0, hi1⟩
    refine ⟨k, ⟨h0, h1⟩, ?_, herr, ?_⟩
    · intro j hj
      have hsorted : (List.finRange 256).Pairwise (· < ·) := List.pairwise_lt_finRange 256
      rw [hsplit, List.pairwise_append] at hsorted
      have hmem : j ∈ List.finRange 256 := List.mem_finRange j
      rw [hsplit] at hmem
      rcases List.mem_append.mp hmem with hin | hin
      · exact hpre j hin
      · rcases List.mem_cons.mp hin with heq | hin
        · rw [heq] at hj; exact absurd hj (Nat.lt_irrefl _)
        · have := (List.pairwise_cons.mp hsorted.2.1).1 j hin
          exact absurd hj (Nat.lt_asymm this)
    · intro winner
      unfold Forge.afterHarvest
      simp only [herr]
  · intro hall
    have hc : Forge.coverage h.zeroPreIsRevealed h.OnePreIsRevealed (List.finRange 256) =
        Except.ok () :=
      (Forge.coverage_ok_iff _ _ _).mpr (fun k _ => hall k)
    refine ⟨hc, ?_⟩
    intro winner
    unfold Forge.afterHarvest
    simp only [hc]
  · intro pub sigs hh
    exact ⟨fun winner => Forge.run_eq_afterHarvest Sum256 pub sigs h hh winner,
      fun hne i => Forge.harvest_covers Sum256 pub sigs h hne hh i⟩

/-- C14 at two concrete states: with every side marked except those of position
7, `Forge` panics at position 7 whatever message the search would send; with
every side marked, it goes on to the assembly. -/
theorem coverage_check_witness :
    (holedHarvest.zeroPreIsRevealed.has (7 : Fin 256).val = false ∧
      holedHarvest.OnePreIsRevealed.has (7 : Fin 256).val = false) ∧
    (∀ j : Fin 256, j.val < 7 →
      holedHarvest.zeroPreIsRevealed.has j.val = true ∨
        holedHarvest.OnePreIsRevealed.has j.val = true) ∧
    (∀ winner : List Byte,
      Forge.afterHarvest toyHash holedHarvest winner =
        Except.error (GoPanic.notRevealed 7)) ∧
    (∀ winner : List Byte,
      Forge.afterHarvest toyHash fullHarvest winner =
        Except.ok ((Forge.assemble toyHash fullHarvest winner).1,
          (Forge.assemble toyHash fullHarvest winner).2, none)) := by
  obtain ⟨k, ⟨hk0, _⟩, hbefore, _, hrun⟩ :=
    (coverage_check toyHash holedHarvest).1 ⟨7, rfl, rfl⟩
  have hk : k.val = 7 := by
    by_contra hne
    simp [holedHarvest, GoMap.has, hne] at hk0
  have hk7 : k = 7 := Fin.ext hk
  subst hk7
  exact ⟨⟨rfl, rfl⟩, hbefore, hrun,
    ((coverage_check toyHash fullHarvest).2.1 (fun _ => Or.inl rfl)).2⟩

/-- C19: harvest invariant: before the first harvest loop, and after each
harvest loop, at every position a zero side marked as revealed holds a block
hashing to `pub.ZeroHash[i]` and a one side marked as revealed holds a block
hashing to `pub.OneHash[i]`; a loop that overwrites blocks harvested from
earlier signatures keeps this. -/
theorem harvest_invariant (Sum256 : List Byte → Block) (pub : PublicKey) :
    Harvest.Sound Sum256 pub Harvest.init ∧
    (∀ (sigNo : Nat) (sig : Signature) (h h' : Harvest),
      Harvest.Sound Sum256 pub h →
      Forge.harvestSig Sum256 pub sigNo sig (List.finRange 256) h = Except.ok h' →
      Harvest.Sound Sum256 pub h') ∧
    (∀ (sigs : List Signature) (h' : Harvest),
      Forge.harvest Sum256 pub 1 sigs Harvest.init = Except.ok h' →
      ∀ i : Fin 256,
        (h'.zeroPreIsRevealed.has i.val = true →
          Block.Hash Sum256 (h'.privateKey.ZeroPre i) = pub.ZeroHash i) ∧
        (h'.OnePreIsRevealed.has i.val = true →
          Block.Hash Sum256 (h'.privateKey.OnePre i) = pub.OneHash i)) :=
  ⟨Harvest.init_sound Sum256 pub,
    fun sigNo sig h h' hs hk => (Forge.harvestSig_ok Sum256 pub sigNo sig _ h h' hk).2.2.2 hs,
    fun sigs h' hk => (Forge.harvest_ok Sum256 pub sigs 1 Harvest.init h' hk).2.2.2
      (Harvest.init_sound Sum256 pub)⟩

/-- C19 at a concrete harvest: two signatures of `sampleSec` on the same message
are harvested, the second loop overwriting the blocks of the first; the zero
side of position 0 and the one side of position 5 are marked, and the harvested
blocks there hash to the commitments. -/
theorem harvest_invariant_witness :
    ∃ h : Harvest,
      Forge.harvest toyHash samplePub 1 [Sign sampleMsg sampleSec, Sign sampleMsg sampleSec]
        Harvest.init = Except.ok h ∧
      h.zeroPreIsRevealed.has (0 : Fin 256).val = true ∧
      Block.Hash toyHash (h.privateKey.ZeroPre 0) = samplePub.ZeroHash 0 ∧
      h.OnePreIsRevealed.has (5 : Fin 256).val = true ∧
      Block.Hash toyHash (h.privateKey.OnePre 5) = samplePub.OneHash 5 := by
  obtain ⟨h, hh⟩ := Forge.harvest_total toyHash samplePub
    [Sign sampleMsg sampleSec, Sign sampleMsg sampleSec] 1 Harvest.init (fun s hs i => by
      have hs' : s = Sign sampleMsg sampleSec := by
        rcases List.mem_cons.mp hs with h1 | h1
        · exact h1
        · exact List.mem_singleton.mp h1
      rw [hs']
      exact Verify.blocks_match toyHash sampleMsg samplePub _
        (Verify.sign_true toyHash sampleSec samplePub sampleMsg (fun _ => rfl) (fun _ => rfl)) i)
  obtain ⟨_, hz, ho, _⟩ := Forge.harvest_ok toyHash samplePub _ 1 Harvest.init h hh
  have m0 : h.zeroPreIsRevealed.has (0 : Fin 256).val = true :=
    (hz 0).mpr (Or.inr ⟨_, List.mem_cons_self _ _, sampleSig_zero_side⟩)
  have m5 : h.OnePreIsRevealed.has (5 : Fin 256).val = true :=
    (ho 5).mpr (Or.inr ⟨_, List.mem_cons_self _ _,
      fun e => samplePub_sides_differ 5 (sampleSig_one_side.symm.trans e), sampleSig_one_side⟩)
  exact ⟨h, hh, m0, ((harvest_invariant toyHash samplePub).2.2 _ h hh 0).1 m0, m5,
    ((harvest_invariant toyHash samplePub).2.2 _ h hh 5).2 m5⟩

/-- C20: if at least one prior signature is supplied and every supplied
signature passes `Verify` under `pub` for some message, the harvest loops end
without panic and the coverage check passes, so `Forge` reaches the search and
returns the message it receives from it. -/
theorem valid_signatures_reach_search (Sum256 : List Byte → Block) (pub : PublicKey)
    (sigs : List Signature) (hne : sigs ≠ [])
    (hv : ∀ sig ∈ sigs, ∃ m : Message, Verify Sum256 m pub sig = true) :
    ∃ h : Harvest,
      Forge.harvest Sum256 pub 1 sigs Harvest.init = Except.ok h ∧
      Forge.coverage h.zeroPreIsRevealed h.OnePreIsRevealed (List.finRange 256) =
        Except.ok () ∧
      Forge.prepareAll Sum256 pub sigs = Except.ok h ∧
      ∀ winner : List Byte, ∃ sig,
        Forge.run Sum256 pub sigs winner = Except.ok (winner, sig, none) := by
  obtain ⟨h, hh⟩ := Forge.harvest_total Sum256 pub sigs 1 Harvest.init (fun s hs i => by
    obtain ⟨m, hm⟩ := hv s hs
    exact Verify.blocks_match Sum256 m pub s hm i)
  have hc : Forge.coverage h.zeroPreIsRevealed h.OnePreIsRevealed (List.finRange 256) =
      Except.ok () :=
    (Forge.coverage_ok_iff _ _ _).mpr (fun k _ => Forge.harvest_covers Sum256 pub sigs h hne hh k)
  have hp : Forge.prepareAll Sum256 pub sigs = Except.ok h := by
    unfold Forge.prepareAll
    rw [hh]
    simp only [hc]
  refine ⟨h, hh, hc, hp, fun winner => ⟨(Forge.assemble Sum256 h winner).2, ?_⟩⟩
  unfold Forge.run
  rw [hp]
  simp only [Forge.assemble_eq]

/-- C20 at a concrete input: one valid signature of `sampleSec`. -/
theorem valid_signatures_reach_search_witness :
    Verify toyHash sampleMsg samplePub (Sign sampleMsg sampleSec) = true ∧
    ∃ h : Harvest,
      Forge.harvest toyHash samplePub 1 [Sign sampleMsg sampleSec] Harvest.init =
        Except.ok h ∧
      Forge.prepareAll toyHash samplePub [Sign sampleMsg sampleSec] = Except.ok h :=
  have hver := Verify.sign_true toyHash sampleSec samplePub sampleMsg (fun _ => rfl)
    (fun _ => rfl)
  ⟨hver,
    match valid_signatures_reach_search toyHash samplePub [Sign sampleMsg sampleSec]
      (List.cons_ne_nil _ _)
      (fun s hs => ⟨sampleMsg, by rw [List.mem_singleton.mp hs]; exact hver⟩) with
    | ⟨h, hh, _, hp, _⟩ => ⟨h, hh, hp⟩⟩

/-! ## Claim on the bit tests -/

/-- The mask of the inner loops of `Sign` and `Verify` after `j` iterations:
`0x80` shifted right once per iteration. -/
theorem mask_iterate (j : Nat) : Nat.iterate (fun Mask => Mask >>> 1) j 0x80 = 0x80 >>> j := by
  induction j with
  | zero => rfl
  | succ j ih => rw [Function.iterate_succ_apply', ih, ← Nat.shiftRight_add]

/-- The shift test of `forge.go` is the arithmetic form of the contract. -/
theorem bitAt_eq_contractBit (d : Block) (k : Fin 256) : bitAt d k = contractBit d k := by
  simp only [bitAt, contractBit, Nat.and_one_is_mod, Nat.shiftRight_eq_div_pow]

/-- C16: the bit test of `Sign` and `Verify` (`msg[i] & byte(Mask) == byte(Mask)`
with `Mask` starting at `0x80` and shifted right once per inner iteration, at
byte `k / 8` in iteration `k % 8`) and the bit test of the forgery search and
assembly (`(d[k/8] >> (7 - k%8)) & 1 == 1`) agree for every 32-byte value and
every position `k` in `0..255`; both are the bit of the contract, which is 0 or
1 and for `k = 0` is the most significant bit of byte 0. -/
theorem bit_tests_agree (d : Block) (k : Fin 256) :
    ((d ⟨k.val / 8, by omega⟩ &&&
        toByte (Nat.iterate (fun Mask => Mask >>> 1) (k.val % 8) 0x80) =
        toByte (Nat.iterate (fun Mask => Mask >>> 1) (k.val % 8) 0x80)) ↔
      ((d ⟨k.val / 8, by omega⟩).val >>> (7 - k.val % 8)) &&& 0x01 = 0x01) ∧
    (((d ⟨k.val / 8, by omega⟩).val >>> (7 - k.val % 8)) &&& 0x01 = 0x01 ↔
      contractBit d k = 1) ∧
    bitAt d k = contractBit d k ∧
    (contractBit d k = 0 ∨ contractBit d k = 1) ∧
    contractBit d 0 = (d 0).val / 128 := by
  have hmask := mask_test_iff d ⟨k.val / 8, by omega⟩ (k.val % 8) (by omega)
  have hidx : bitIndex ⟨k.val / 8, by omega⟩ ⟨k.val % 8, by omega⟩ = k := bitIndex_div_mod k
  rw [hidx] at hmask
  refine ⟨?_, ?_, bitAt_eq_contractBit d k, ?_, ?_⟩
  · rw [mask_iterate]
    exact hmask
  · rw [← bitAt_eq_contractBit]
    rfl
  · rw [← bitAt_eq_contractBit]
    exact bitAt_zero_or_one d k
  · have hlt := (d 0).isLt
    show (d ⟨(0 : Fin 256).val / 8, _⟩).val / 2 ^ (7 - (0 : Fin 256).val % 8) % 2 = (d 0).val / 128
    have h0 : (⟨(0 : Fin 256).val / 8, by decide⟩ : Fin 32) = 0 := rfl
    rw [h0]
    simp only [Fin.val_zero, Nat.zero_mod, Nat.sub_zero]
    omega

/-! ## Claim on the panic branch of the search worker -/

/-- C21: in the search worker, for every 32-byte digest `d` and every `x` in
`0..255`, the index `x/8` is within `0..31`, the shift amount `7 - x%8` is within
`0..7` (as an integer, so the subtraction never goes below zero), and the value
`(d[x/8] >> (7 - x%8)) & 1` is 0 or 1; hence the bit loop, the acceptance check
and the worker loop never end in the panic "bit not 0 or 1". -/
theorem bit_panic_unreachable (d : Block) (x : Fin 256) :
    x.val / 8 < 32 ∧
    (0 ≤ (7 : Int) - ((x.val % 8 : Nat) : Int) ∧ (7 : Int) - ((x.val % 8 : Nat) : Int) ≤ 7 ∧
      ((7 - x.val % 8 : Nat) : Int) = (7 : Int) - ((x.val % 8 : Nat) : Int)) ∧
    (bitAt d x = 0 ∨ bitAt d x = 1) ∧
    (∀ (zeroPreIsRevealed OnePreIsRevealed : GoMap) (TaskId : Nat) (xs : List (Fin 256)),
      ∃ b : Bool,
        Forge.checkBits zeroPreIsRevealed OnePreIsRevealed TaskId d xs = Except.ok b) ∧
    (∀ (Sum256 : List Byte → Block) (h : Harvest) (TaskId : Nat) (c : List Byte),
      ∃ b : Bool, Forge.tryMessage Sum256 h TaskId c = Except.ok b) ∧
    (∀ (Sum256 : List Byte → Block) (h : Harvest) (TaskId : Nat)
      (draws : Nat → (Fin 27 → Byte) × (Fin 29 → Byte)) (fuel n : Nat),
      ∃ r : Option (List Byte), Forge.worker Sum256 h TaskId draws fuel n = Except.ok r) := by
  have hx := x.isLt
  refine ⟨by omega, ⟨by omega, by omega, by omega⟩, bitAt_zero_or_one d x, ?_, ?_, ?_⟩
  · intro z o T xs
    exact Forge.checkBits_total z o T d xs
  · intro Sum256 h T c
    obtain ⟨b, hb⟩ := Forge.checkBits_total h.zeroPreIsRevealed h.OnePreIsRevealed T
      (Sum256 c) (List.finRange 256)
    have ht : Forge.tryMessage Sum256 h T c = Except.ok b := hb
    exact ⟨b, ht⟩
  · intro Sum256 h T draws fuel
    induction fuel with
    | zero =>
      intro n
      refine ⟨none, ?_⟩
      unfold Forge.worker
      rw [Forge.workerLoop]
    | succ fuel ih =>
      intro n
      obtain ⟨b, hb⟩ := Forge.checkBits_total h.zeroPreIsRevealed h.OnePreIsRevealed T
        (Sum256 (Forge.candidate (List.ofFn (draws n).1) Forge.msgBuf (List.ofFn (draws n).2)))
        (List.finRange 256)
      have ht : Forge.tryMessage Sum256 h T
          (Forge.candidate (List.ofFn (draws n).1) Forge.msgBuf (List.ofFn (draws n).2)) =
            Except.ok b := hb
      cases b with
      | true => exact ⟨_, Forge.worker_accept Sum256 h T draws fuel n ht⟩
      | false =>
        rw [Forge.worker_reject Sum256 h T draws fuel n ht]
        exact ih (n + 1)

end Pset01

namespace Pset02

/-! ## Mining: the bit loop -/

/-- The `uint8` subtraction `7-(i%8)` never wraps. -/
theorem Mine.shift_eq (i : Fin 256) : (7 + 256 - i.val % 8) % 256 = 7 - i.val % 8 := by
  omega

/-- The bit test of the mining loop is the bit of the contract: the binary digit
of weight `2 ^ (7 - i % 8)` of byte `i / 8`. -/
theorem Mine.bit_eq_contractBit (h : Hash) (i : Fin 256) :
    Mine.bit h i = Pset01.contractBit h i := by
  rw [Mine.bit, Mine.shift_eq]
  exact Pset01.bitAt_eq_contractBit h i

/-- The bit test of the mining loop differs from `1` exactly when the bit is `0`. -/
theorem Mine.bit_ne_one_iff (h : Hash) (i : Fin 256) :
    Mine.bit h i ≠ 1 ↔ Pset01.contractBit h i = 0 := by
  rw [Mine.bit_eq_contractBit]
  unfold Pset01.contractBit
  omega

/-- The bit loop from the counter value `i` on runs to its end exactly when no
position from `i` up to `targetBits` holds a `1`. -/
theorem Mine.bitLoop_true_iff (h : Hash) (targetBits : Fin 256) :
    ∀ (n : Nat) (i : Fin 256), targetBits.val - i.val = n →
      (Mine.bitLoop h targetBits i = true ↔
        ∀ j : Fin 256, i.val ≤ j.val → j.val < targetBits.val → Mine.bit h j ≠ 1) := by
  intro n
  induction n with
  | zero =>
    intro i hn
    rw [Mine.bitLoop]
    have hlt : ¬ i.val < targetBits.val := by omega
    simp only [dif_neg hlt, true_iff]
    intro j h1 h2
    omega
  | succ n ih =>
    intro i hn
    have ht := targetBits.isLt
    have hlt : i.val < targetBits.val := by omega
    have hnext : (i.val + 1) % 256 = i.val + 1 := Nat.mod_eq_of_lt (by omega)
    rw [Mine.bitLoop]
    simp only [dif_pos hlt]
    by_cases hb : Mine.bit h i = 1
    · simp only [if_pos hb, Bool.false_eq_true, false_iff]
      intro hall
      exact hall i (Nat.le_refl _) hlt hb
    · simp only [if_neg hb]
      rw [ih ⟨(i.val + 1) % 256, Nat.mod_lt _ (by decide)⟩ (by simp only [hnext]; omega)]
      constructor
      · intro hall j h1 h2
        by_cases hj : j.val = i.val
        · have : j = i := Fin.ext hj
          rw [this]; exact hb
        · exact hall j (by simp only [hnext]; omega) h2
      · intro hall j h1 h2
        simp only [hnext] at h1
        exact hall j (by omega) h2

/-- The bit loop of a mining worker, started at zero, runs to its end exactly
when the first `targetBits` bits of the hash are all zero. -/
theorem Mine.bitLoop_zero_iff (h : Hash) (targetBits : Fin 256) :
    Mine.bitLoop h targetBits 0 = true ↔
      ∀ j : Fin 256, j.val < targetBits.val → Pset01.contractBit h j = 0 := by
  rw [Mine.bitLoop_true_iff h targetBits (targetBits.val - (0 : Fin 256).val) 0 rfl]
  constructor
  · intro hall j hj
    exact (Mine.bit_ne_one_iff h j).mp (hall j (Nat.zero_le _) hj)
  · intro hall j _ hj
    exact (Mine.bit_ne_one_iff h j).mpr (hall j hj)

/-- A mining worker that stops with a successful nonce has found the bit loop
running to its end on the hash of its block with that nonce. -/
theorem Mine.workerLoop_success (Sum256 : List Pset01.Byte → Hash) (targetBits : Fin 256)
    (numCPU : Nat) (done : Nat → Bool) :
    ∀ (fuel k nonce : Nat) (bl : Block) (m : Nat) (out : Block),
      Mine.workerLoop Sum256 targetBits numCPU done fuel k nonce bl =
        some (Mine.Outcome.success m out) →
      out = { bl with Nonce := formatUint m } ∧
      Mine.bitLoop (Block.Hash Sum256 { bl with Nonce := formatUint m }) targetBits 0 = true := by
  intro fuel
  induction fuel with
  | zero =>
    intro k nonce bl m out hw
    rw [Mine.workerLoop] at hw
    exact absurd hw (by simp)
  | succ fuel ih =>
    intro k nonce bl m out hw
    rw [Mine.workerLoop] at hw
    by_cases hd : done k = true
    · simp only [hd, if_true] at hw
      exact absurd hw (by simp)
    · simp only [hd, Bool.false_eq_true, if_false] at hw
      by_cases hc : Mine.bitLoop (Block.Hash Sum256 { bl with Nonce := formatUint nonce })
          targetBits 0 = true
      · simp only [hc, if_true] at hw
        injection hw with hw
        injection hw with h1 h2
        subst h1
        exact ⟨h2.symm, hc⟩
      · simp only [hc, Bool.false_eq_true, if_false] at hw
        exact ih _ _ { bl with Nonce := formatUint nonce } m out hw

/-- C22: for every `targetBits` in `0..255` and every block, an iteration of a
mining worker on a nonce (the bit loop on the sha256 hash of the block with that
nonce) succeeds if and only if the first `targetBits` bits of that hash, most
significant bit of byte 0 first, are all zero; a worker that is not cancelled at
an iteration stops there reporting its nonce exactly in that case, and every
nonce that a worker reports has that property. -/
theorem mine_reports_iff_leading_zero_bits (Sum256 : List Pset01.Byte → Hash)
    (targetBits : Fin 256) (bl : Block) :
    (∀ nonce : Nat,
      Mine.bitLoop (Block.Hash Sum256 { bl with Nonce := formatUint nonce }) targetBits 0 = true ↔
        ∀ i : Fin 256, i.val < targetBits.val →
          ((Block.Hash Sum256 { bl with Nonce := formatUint nonce }) ⟨i.val / 8, by omega⟩).val /
            2 ^ (7 - i.val % 8) % 2 = 0) ∧
    (∀ (numCPU : Nat) (done : Nat → Bool) (fuel k nonce : Nat), done k = false →
      (Mine.workerLoop Sum256 targetBits numCPU done (fuel + 1) k nonce bl =
          some (Mine.Outcome.success nonce { bl with Nonce := formatUint nonce }) ↔
        ∀ i : Fin 256, i.val < targetBits.val →
          Pset01.contractBit (Block.Hash Sum256 { bl with Nonce := formatUint nonce }) i = 0)) ∧
    (∀ (numCPU : Nat) (done : Nat → Bool) (fuel taskId m : Nat) (out : Block),
      Mine.worker Sum256 targetBits numCPU done fuel taskId bl =
          some (Mine.Outcome.success m out) →
        out = { bl with Nonce := formatUint m } ∧
        ∀ i : Fin 256, i.val < targetBits.val →
          Pset01.contractBit (Block.Hash Sum256 out) i = 0) := by
  refine ⟨?_, ?_, ?_⟩
  · intro nonce
    exact Mine.bitLoop_zero_iff _ targetBits
  · intro numCPU done fuel k nonce hd
    rw [← Mine.bitLoop_zero_iff]
    constructor
    · intro hw
      exact (Mine.workerLoop_success Sum256 targetBits numCPU done _ _ _ bl nonce _ hw).2
    · intro hc
      rw [Mine.workerLoop]
      simp only [hd, Bool.false_eq_true, if_false, hc, if_true]
  · intro numCPU done fuel taskId m out hw
    obtain ⟨h1, h2⟩ := Mine.workerLoop_success Sum256 targetBits numCPU done _ _ _ bl m out hw
    refine ⟨h1, ?_⟩
    rw [h1]
    exact (Mine.bitLoop_zero_iff _ targetBits).mp h2

/-- C22 at the block `sampleBlock` with 33 target bits and a hash function whose
digests are all zero: the worker 0 of 4, not cancelled, reports the nonce 0 at
its first iteration. -/
theorem mine_reports_iff_leading_zero_bits_witness :
    (fun _ : Nat => false) 0 = false ∧
    Mine.workerLoop zeroSum256 33 4 (fun _ => false) 1 0 0 sampleBlock =
      some (Mine.Outcome.success 0 { sampleBlock with Nonce := formatUint 0 }) :=
  ⟨rfl, ((mine_reports_iff_leading_zero_bits zeroSum256 33 sampleBlock).2.1 4
    (fun _ => false) 0 0 0 rfl).mpr
      (fun i _ => by simp [Pset01.contractBit, Block.Hash, zeroSum256])⟩

/-! ## Parsing: splitting, trimming and the round trip -/

/-- A piece without separator is read up to the end of the string. -/
theorem splitLoop_no_sep (sep : Pset01.Byte) :
    ∀ (a cur : List Pset01.Byte), sep ∉ a → splitLoop sep cur a = [cur ++ a] := by
  intro a
  induction a with
  | nil => intro cur _; simp [splitLoop]
  | cons c a ih =>
    intro cur hs
    have hc : c ≠ sep := fun h => hs (h ▸ List.mem_cons_self _ _)
    have ha : sep ∉ a := fun h => hs (List.mem_cons_of_mem _ h)
    rw [splitLoop, if_neg hc, ih (cur ++ [c]) ha, List.append_assoc]
    rfl

/-- A piece without separator is closed by the separator that follows it. -/
theorem splitLoop_at_sep (sep : Pset01.Byte) :
    ∀ (a cur r : List Pset01.Byte), sep ∉ a →
      splitLoop sep cur (a ++ sep :: r) = (cur ++ a) :: splitLoop sep [] r := by
  intro a
  induction a with
  | nil => intro cur r _; simp [splitLoop]
  | cons c a ih =>
    intro cur r hs
    have hc : c ≠ sep := fun h => hs (h ▸ List.mem_cons_self _ _)
    have ha : sep ∉ a := fun h => hs (List.mem_cons_of_mem _ h)
    rw [List.cons_append, splitLoop, if_neg hc, ih (cur ++ [c]) r ha, List.append_assoc]
    rfl

/-- Three pieces without separator, joined by two separators, are split into
exactly those three pieces. -/
theorem stringsSplit_three (sep : Pset01.Byte) (a b c : List Pset01.Byte)
    (ha : sep ∉ a) (hb : sep ∉ b) (hc : sep ∉ c) :
    stringsSplit (a ++ [sep] ++ b ++ [sep] ++ c) sep = [a, b, c] := by
  have e : a ++ [sep] ++ b ++ [sep] ++ c = a ++ sep :: (b ++ sep :: c) := by simp
  rw [stringsSplit, e, splitLoop_at_sep sep a [] _ ha, splitLoop_at_sep sep b [] _ hb,
    splitLoop_no_sep sep c [] hc]
  rfl

/-- The hex encoding holds no space character. -/
theorem hexEncode_no_space (l : List Pset01.Byte) : (32 : Pset01.Byte) ∉ Pset01.hexEncode l := by
  intro h
  have := Pset01.hexEncode_lowercase l 32 h
  have h32 : (32 : Pset01.Byte).val = 32 := rfl
  omega

/-- The left scan leaves a string without leading white space unchanged. -/
theorem trimLeftSpace_id (s : List Pset01.Byte)
    (hs : ∀ e ∈ spaceEncodings, startsWith e s = false) :
    ∀ fuel : Nat, trimLeftSpace fuel s = s := by
  intro fuel
  cases fuel with
  | zero => rfl
  | succ fuel =>
    have hf : spaceEncodings.find? (fun e => startsWith e s) = none := by
      rw [List.find?_eq_none]
      intro e he
      rw [hs e he]
      exact Bool.false_ne_true
    rw [trimLeftSpace, hf]

/-- The right scan leaves a string without trailing white space unchanged. -/
theorem trimRightSpace_id (s : List Pset01.Byte)
    (hs : ∀ e ∈ spaceEncodings, endsWith e s = false) :
    ∀ fuel : Nat, trimRightSpace fuel s = s := by
  intro fuel
  cases fuel with
  | zero => rfl
  | succ fuel =>
    have hf : spaceEncodings.find? (fun e => endsWith e s) = none := by
      rw [List.find?_eq_none]
      intro e he
      rw [hs e he]
      exact Bool.false_ne_true
    rw [trimRightSpace, hf]

/-- The call `strings.TrimSpace` leaves a string without leading and trailing
white space unchanged. -/
theorem TrimSpace_id (s : List Pset01.Byte)
    (hl : ∀ e ∈ spaceEncodings, startsWith e s = false)
    (hr : ∀ e ∈ spaceEncodings, endsWith e s = false) : TrimSpace s = s := by
  rw [TrimSpace, trimLeftSpace_id s hl, trimRightSpace_id s hr]

/-- The length of the string of a block: 64 hex characters, two spaces, the
name and the nonce. -/
theorem Block.toString_length (b : Block) :
    b.ToString.length = 66 + b.Name.length + b.Nonce.length := by
  unfold Block.ToString
  simp only [List.length_append, Pset01.hexEncode_length, List.length_ofFn,
    List.length_singleton]
  omega

/-- The bytes of a hash, copied into a block, give the hash back. -/
theorem copyToBlock_ofFn (dst h : Hash) : (Pset01.copyToBlock dst (List.ofFn h)).1 = h :=
  congrArg Prod.fst (Pset01.copyToBlock_slice dst h)

/-- Every white space character has at least one byte. -/
theorem spaceEncodings_pos : ∀ e ∈ spaceEncodings, 0 < e.length := by decide

/-- A string that starts with `e` is at least as long as `e`. -/
theorem startsWith_length (e s : List Pset01.Byte) (h : startsWith e s = true) :
    e.length ≤ s.length := by
  have h1 : s.take e.length = e := of_decide_eq_true h
  have h2 := congrArg List.length h1
  rw [List.length_take] at h2
  omega

/-- A string that ends with `e` is at least as long as `e`. -/
theorem endsWith_length (e s : List Pset01.Byte) (h : endsWith e s = true) :
    e.length ≤ s.length := by
  have h1 : s.drop (s.length - e.length) = e := of_decide_eq_true h
  have h2 := congrArg List.length h1
  rw [List.length_drop] at h2
  omega

/-- With `len(s)` units of fuel the left scan ends on a string without leading
white space. -/
theorem trimLeftSpace_done :
    ∀ (fuel : Nat) (s : List Pset01.Byte), s.length ≤ fuel →
      ∀ e ∈ spaceEncodings, startsWith e (trimLeftSpace fuel s) = false := by
  intro fuel
  induction fuel with
  | zero =>
    intro s hs e he
    rw [trimLeftSpace]
    cases hst : startsWith e s with
    | false => rfl
    | true =>
      have h1 := startsWith_length e s hst
      have h2 := spaceEncodings_pos e he
      omega
  | succ fuel ih =>
    intro s hs e he
    rw [trimLeftSpace]
    cases hf : spaceEncodings.find? (fun e => startsWith e s) with
    | none =>
      simp only []
      have := List.find?_eq_none.mp hf e he
      simpa using this
    | some e1 =>
      simp only []
      have hm := List.mem_of_find?_eq_some hf
      have ht := List.find?_some hf
      have h1 := startsWith_length e1 s ht
      have h2 := spaceEncodings_pos e1 hm
      exact ih (s.drop e1.length) (by rw [List.length_drop]; omega) e he

/-- With `len(s)` units of fuel the right scan ends on a string without trailing
white space. -/
theorem trimRightSpace_done :
    ∀ (fuel : Nat) (s : List Pset01.Byte), s.length ≤ fuel →
      ∀ e ∈ spaceEncodings, endsWith e (trimRightSpace fuel s) = false := by
  intro fuel
  induction fuel with
  | zero =>
    intro s hs e he
    rw [trimRightSpace]
    cases hst : endsWith e s with
    | false => rfl
    | true =>
      have h1 := endsWith_length e s hst
      have h2 := spaceEncodings_pos e he
      omega
  | succ fuel ih =>
    intro s hs e he
    rw [trimRightSpace]
    cases hf : spaceEncodings.find? (fun e => endsWith e s) with
    | none =>
      simp only []
      have := List.find?_eq_none.mp hf e he
      simpa using this
    | some e1 =>
      simp only []
      have hm := List.mem_of_find?_eq_some hf
      have ht := List.find?_some hf
      have h1 := endsWith_length e1 s ht
      have h2 := spaceEncodings_pos e1 hm
      exact ih (s.take (s.length - e1.length)) (by rw [List.length_take]; omega) e he

/-- The left scan returns a suffix of its argument. -/
theorem trimLeftSpace_length : ∀ (fuel : Nat) (s : List Pset01.Byte),
    (trimLeftSpace fuel s).length ≤ s.length := by
  intro fuel
  induction fuel with
  | zero => intro s; rw [trimLeftSpace]
  | succ fuel ih =>
    intro s
    rw [trimLeftSpace]
    cases hf : spaceEncodings.find? (fun e => startsWith e s) with
    | none => simp only []; exact Nat.le_refl _
    | some e1 =>
      simp only []
      have := ih (s.drop e1.length)
      rw [List.length_drop] at this
      omega

/-- The fuel of `TrimSpace` is enough: the result has no trailing white space,
and the left scan has ended on a string without leading white space. -/
theorem TrimSpace_done (s : List Pset01.Byte) :
    (∀ e ∈ spaceEncodings, endsWith e (TrimSpace s) = false) ∧
    (∀ e ∈ spaceEncodings, startsWith e (trimLeftSpace s.length s) = false) :=
  ⟨trimRightSpace_done s.length _ (trimLeftSpace_length s.length s),
    trimLeftSpace_done s.length s (Nat.le_refl _)⟩

/-- The result of `BlockFromString` on a string of accepted length that splits
into three pieces, the first of which decodes to 32 bytes. -/
theorem BlockFromString_of_pieces (s hx name nonce bytes : List Pset01.Byte)
    (hrange : ¬ (s.length < 66 ∨ s.length > 100))
    (hsplit : stringsSplit s 32 = [hx, name, nonce])
    (hdec : Pset01.hexDecodeString hx = (bytes, none)) (h32 : bytes.length = 32) :
    BlockFromString s =
      (⟨(Pset01.copyToBlock Block.zero.PrevHash bytes).1, name, TrimSpace nonce⟩, none) := by
  have hthree : ¬ (stringsSplit s 32).length ≠ 3 := by
    rw [hsplit]; exact fun h => h rfl
  have hb : ¬ bytes.length ≠ 32 := fun h => h h32
  unfold BlockFromString
  simp only [if_neg hrange, if_neg hthree]
  rw [hsplit]
  simp only [List.getD_cons_zero, List.getD_cons_succ, hdec, if_neg hb]

/-- C23: for every pset02 block `b` whose name and nonce hold no space character,
whose nonce has no leading and no trailing white space, and whose string
`b.ToString()` has at most 100 characters, `BlockFromString(b.ToString())`
returns `b` and no error. -/
theorem blockFromString_toString (b : Block)
    (hName : (32 : Pset01.Byte) ∉ b.Name) (hNonce : (32 : Pset01.Byte) ∉ b.Nonce)
    (hLead : ∀ e ∈ spaceEncodings, startsWith e b.Nonce = false)
    (hTrail : ∀ e ∈ spaceEncodings, endsWith e b.Nonce = false)
    (hLen : b.ToString.length ≤ 100) :
    BlockFromString b.ToString = (b, none) := by
  have hlen := Block.toString_length b
  have hrange : ¬ (b.ToString.length < 66 ∨ b.ToString.length > 100) := by omega
  have hsplit : stringsSplit b.ToString 32 =
      [Pset01.hexEncode (List.ofFn b.PrevHash), b.Name, b.Nonce] :=
    stringsSplit_three 32 _ _ _ (hexEncode_no_space _) hName hNonce
  rw [BlockFromString_of_pieces b.ToString _ b.Name b.Nonce (List.ofFn b.PrevHash) hrange hsplit
    (Pset01.hexDecodeString_hexEncode _) (List.length_ofFn _), copyToBlock_ofFn,
    TrimSpace_id b.Nonce hLead hTrail]

/-- C23 at the block with a zero previous hash, the name `alice` and the nonce
`42`. -/
theorem blockFromString_toString_witness :
    ((32 : Pset01.Byte) ∉ sampleBlock.Name ∧ (32 : Pset01.Byte) ∉ sampleBlock.Nonce ∧
      (∀ e ∈ spaceEncodings, startsWith e sampleBlock.Nonce = false) ∧
      (∀ e ∈ spaceEncodings, endsWith e sampleBlock.Nonce = false) ∧
      sampleBlock.ToString.length ≤ 100) ∧
    BlockFromString sampleBlock.ToString = (sampleBlock, none) :=
  ⟨⟨by decide, by decide, by decide, by decide,
      by rw [Block.toString_length]; decide⟩,
    blockFromString_toString sampleBlock (by decide) (by decide) (by decide) (by decide)
      (by rw [Block.toString_length]; decide)⟩

end Pset02
